import Mathlib

set_option maxHeartbeats 1000000

/-!
Verification of the simpledb storage engine core: the branchless in-node
binary search (`binary_search.h`), the B+tree node operations and tree
operations (`btree.h`, instantiated as in the tests at
`KeyT = ValueT = uint64_t`, `ComparatorT = std::less<>`), and a sequential
model of the buffer manager (`buffer_manager.cc` / `buffer_manager.h`).

Machine integers: keys, values and page ids are `uint64_t` in the source.
The tree only ever compares keys (`<`, `==` through `std::less<>`), so keys
and values are embedded as `Nat`.  Page ids are produced by
`(segment_id << 48) ^ nodeCount++`; shifting and xor are embedded with
`Nat.shiftLeft`/`Nat.xor`, which agree with the 64-bit operations for all
counts below `2^64`.

Fixed-size in-page arrays (`KeyT keys[kCapacity]; ...`) are embedded as
total functions `Nat → Nat` together with the `count` field; slots at and
beyond `count` model the uninitialized bytes the C++ arrays carry.
-/

namespace Simpledb

/-- The first `n` slots of an array are sorted (non-strictly). -/
def SortedLe (f : Nat → Nat) (n : Nat) : Prop :=
  ∀ j < n, ∀ i < j + 1, f i ≤ f j

/-- The first `n` slots of an array are strictly increasing. -/
def SortedLt (f : Nat → Nat) (n : Nat) : Prop :=
  ∀ j < n, ∀ i < j, f i < f j

instance (f : Nat → Nat) (n : Nat) : Decidable (SortedLe f n) := by
  unfold SortedLe; infer_instance

instance (f : Nat → Nat) (n : Nat) : Decidable (SortedLt f n) := by
  unfold SortedLt; infer_instance

theorem SortedLt.le {f : Nat → Nat} {n : Nat} (h : SortedLt f n) : SortedLe f n := by
  intro j hj i hi
  rcases Nat.lt_or_ge i j with hlt | hge
  · exact Nat.le_of_lt (h j hj i hlt)
  · have : i = j := by omega
    simp [this]

theorem SortedLe.mono {f : Nat → Nat} {n : Nat} (h : SortedLe f n) {i j : Nat}
    (hij : i ≤ j) (hj : j < n) : f i ≤ f j :=
  h j hj i (by omega)

theorem SortedLt.strictMono {f : Nat → Nat} {n : Nat} (h : SortedLt f n) {i j : Nat}
    (hij : i < j) (hj : j < n) : f i < f j :=
  h j hj i hij

/-! ## `binary_search.h`: `lower_bound_branchless`

```cpp
template <typename It, typename T, typename Compare = std::less<>>
size_t lower_bound_branchless(It low, It up, const T& val, Compare cmp = {}) {
   size_t l = up - low;
   if (l == 0) return 0;
   size_t i = 0;
   while (auto half = l / 2) {
      auto mid = low + i;
      std::advance(mid, half);
      i = cmp(*mid, val) ? i + half : i;
      l -= half;
   }
   if (cmp(*(low + i), val)) ++i;
   return i;
}
```
The iterator range `[low, up)` is embedded as an array `f` and a length
`len`; `cmp(x, y)` is `x < y`. -/

/-- The `while (auto half = l / 2)` loop of `lower_bound_branchless`.  The
loop runs at most `l` iterations (each one shrinks `l`), so it is embedded
with a structural fuel initialised to the entry value of `l`; the fuel
never runs out (`lbLoop_fuel_irrel`). -/
def lbLoop (f : Nat → Nat) (v : Nat) : Nat → Nat → Nat → Nat
  | 0, i, _ => i
  | fuel + 1, i, l =>
    if l / 2 = 0 then i
    else lbLoop f v fuel (if f (i + l / 2) < v then i + l / 2 else i) (l - l / 2)

def lower_bound_branchless (f : Nat → Nat) (len : Nat) (v : Nat) : Nat :=
  if len = 0 then 0
  else
    let i := lbLoop f v len 0 len
    if f i < v then i + 1 else i

/-- Any fuel at least `l` computes the loop's fixpoint. -/
theorem lbLoop_fuel_irrel (f : Nat → Nat) (v : Nat) :
    ∀ fuel1 fuel2 i l, l ≤ fuel1 → l ≤ fuel2 →
      lbLoop f v fuel1 i l = lbLoop f v fuel2 i l := by
  intro fuel1
  induction fuel1 using Nat.strong_induction_on with
  | _ fuel1 ih =>
    intro fuel2 i l h1 h2
    match fuel1, fuel2 with
    | 0, 0 => rfl
    | 0, fuel2 + 1 =>
      have : l = 0 := by omega
      simp [lbLoop, this]
    | fuel1 + 1, 0 =>
      have : l = 0 := by omega
      simp [lbLoop, this]
    | fuel1 + 1, fuel2 + 1 =>
      show lbLoop f v (fuel1 + 1) i l = lbLoop f v (fuel2 + 1) i l
      rw [lbLoop, lbLoop]
      by_cases h0 : l / 2 = 0
      · rw [if_pos h0, if_pos h0]
      · rw [if_neg h0, if_neg h0]
        exact ih fuel1 (by omega) fuel2 _ (l - l / 2) (by omega) (by omega)

/-- Modelled from the spec: the reference lower bound, "the smallest index
`i` in `[0, len]` such that `range[i] ≥ v` (`len` if none)". -/
def reference_lower_bound (f : Nat → Nat) (len v : Nat) : Nat :=
  ((List.range len).find? (fun j => decide (v ≤ f j))).getD len

theorem find?_append_of_some {α : Type} (p : α → Bool) {l1 : List α} (l2 : List α)
    {a : α} (h : l1.find? p = some a) : (l1 ++ l2).find? p = some a := by
  induction l1 with
  | nil => simp [List.find?] at h
  | cons x xs ih =>
    by_cases hx : p x
    · simp [List.find?, hx] at h ⊢; exact h
    · simp only [List.find?, hx] at h
      simp only [List.cons_append, List.find?, hx]
      exact ih h

theorem find?_append_of_none {α : Type} (p : α → Bool) {l1 : List α} (l2 : List α)
    (h : l1.find? p = none) : (l1 ++ l2).find? p = l2.find? p := by
  induction l1 with
  | nil => simp
  | cons x xs ih =>
    by_cases hx : p x
    · simp [List.find?, hx] at h
    · simp only [List.find?, hx] at h
      simp only [List.cons_append, List.find?, hx]
      exact ih h

theorem find?_range_eq_some {p : Nat → Bool} {n j : Nat}
    (h : (List.range n).find? p = some j) :
    p j = true ∧ j < n ∧ ∀ k < j, p k = false := by
  induction n with
  | zero => rw [List.range_zero] at h; simp [List.find?] at h
  | succ n ih =>
    rw [List.range_succ] at h
    cases hfind : (List.range n).find? p with
    | some j' =>
      rw [find?_append_of_some p _ hfind] at h
      obtain rfl : j' = j := by injection h
      obtain ⟨h1, h2, h3⟩ := ih hfind
      exact ⟨h1, by omega, h3⟩
    | none =>
      rw [find?_append_of_none p _ hfind] at h
      by_cases hn : p n
      · simp [List.find?, hn] at h
        subst h
        refine ⟨hn, by omega, ?_⟩
        intro k hk
        have := List.find?_eq_none.mp hfind k (List.mem_range.mpr hk)
        simpa using this
      · simp [List.find?, hn] at h

theorem find?_range_eq_none {p : Nat → Bool} {n : Nat}
    (h : (List.range n).find? p = none) : ∀ k < n, p k = false := by
  intro k hk
  have := List.find?_eq_none.mp h k (List.mem_range.mpr hk)
  simpa using this

/-- `reference_lower_bound` is characterised by: it is the unique `i ≤ len`
with everything before it `< v` and (if `i < len`) `v ≤ f i`. -/
theorem reference_lower_bound_eq {f : Nat → Nat} {len v i : Nat}
    (hle : i ≤ len) (hlt : ∀ j < i, f j < v) (hge : i < len → v ≤ f i) :
    reference_lower_bound f len v = i := by
  unfold reference_lower_bound
  cases hfind : (List.range len).find? (fun j => decide (v ≤ f j)) with
  | some j =>
    obtain ⟨h1, h2, h3⟩ := find?_range_eq_some hfind
    simp only [Option.getD_some]
    have hvj : v ≤ f j := by simpa using h1
    -- j is the first index with v ≤ f j; i has the same property
    by_contra hne
    rcases Nat.lt_or_ge j i with hji | hij
    · exact absurd hvj (Nat.not_le.mpr (hlt j hji))
    · have hij' : i < j := by omega
      have := h3 i hij'
      have hvi : v ≤ f i := hge (by omega)
      simp [hvi] at this
  | none =>
    simp only [Option.getD_none]
    by_contra hne
    have hilen : i < len := by omega
    have := find?_range_eq_none hfind i hilen
    have hvi : v ≤ f i := hge hilen
    simp [hvi] at this

/-- Loop invariant for `lbLoop`: the lower-bound index stays in `[i, i+l)`
after the loop, everything strictly before the result is `< v`, and
everything strictly after it (below `len`) is `≥ v`. -/
theorem lbLoop_spec (f : Nat → Nat) (v len : Nat) (hs : SortedLe f len) :
    ∀ l, 0 < l → ∀ fuel i, l ≤ fuel → i + l ≤ len →
      (∀ j < i, f j < v) →
      (∀ j, i + l ≤ j → j < len → v ≤ f j) →
      i ≤ lbLoop f v fuel i l ∧ lbLoop f v fuel i l < i + l ∧
      (∀ j < lbLoop f v fuel i l, f j < v) ∧
      (∀ j, lbLoop f v fuel i l + 1 ≤ j → j < len → v ≤ f j) := by
  intro l
  induction l using Nat.strong_induction_on with
  | _ l ih =>
    intro hl fuel i hfl hil hlo hhi
    cases fuel with
    | zero => omega
    | succ fuel =>
      rw [lbLoop]
      by_cases h0 : l / 2 = 0
      · -- loop exits: l = 1
        have hl1 : l = 1 := by omega
        rw [if_pos h0]
        subst hl1
        refine ⟨Nat.le_refl i, by omega, hlo, ?_⟩
        intro j hj hjlen
        exact hhi j (by omega) hjlen
      · rw [if_neg h0]
        have hl2 : 2 ≤ l := by omega
        set half := l / 2 with hhalf
        have hhalfpos : 0 < half := by omega
        have hhalflt : half < l := by omega
        by_cases hc : f (i + half) < v
        · -- i := i + half
          rw [if_pos hc]
          have hmid : i + half < len := by omega
          have hlo' : ∀ j < i + half, f j < v := by
            intro j hj
            rcases Nat.lt_or_ge j i with hji | hij
            · exact hlo j hji
            · exact Nat.lt_of_le_of_lt (hs.mono (i := j) (j := i + half) (by omega) hmid) hc
          have := ih (l - half) (by omega) (by omega) fuel (i + half) (by omega) (by omega) hlo' ?_
          · obtain ⟨a, b, c, d⟩ := this
            exact ⟨by omega, by omega, c, d⟩
          · intro j hj hjlen
            exact hhi j (by omega) hjlen
        · -- i unchanged
          rw [if_neg hc]
          have hvmid : v ≤ f (i + half) := Nat.le_of_not_lt hc
          have hhi' : ∀ j, i + (l - half) ≤ j → j < len → v ≤ f j := by
            intro j hj hjlen
            rcases Nat.lt_or_ge j (i + half) with hji | hij
            · -- l - half ≥ half, so i + (l - half) ≤ j < i + half is impossible
              have : half ≤ l - half := by omega
              omega
            · exact Nat.le_trans hvmid (hs.mono hij hjlen)
          have := ih (l - half) (by omega) (by omega) fuel i (by omega) (by omega) hlo hhi'
          obtain ⟨a, b, c, d⟩ := this
          exact ⟨a, by omega, c, d⟩

/-- **C2.** `lower_bound_branchless` agrees with the reference lower bound
on every sorted input, including `len = 0`: it returns the smallest index
`i ∈ [0, len]` with `f i ≥ v`, or `len` when no such index exists. -/
theorem lower_bound_branchless_eq_reference (f : Nat → Nat) (len v : Nat)
    (hs : SortedLe f len) :
    lower_bound_branchless f len v = reference_lower_bound f len v := by
  unfold lower_bound_branchless
  by_cases hlen : len = 0
  · subst hlen
    rw [reference_lower_bound, List.range_zero]
    simp [List.find?]
  · simp only [hlen, if_neg, not_false_iff]
    have hpos : 0 < len := by omega
    obtain ⟨h1, h2, h3, h4⟩ :=
      lbLoop_spec f v len hs len hpos len 0 (Nat.le_refl len) (by omega)
        (by intro j hj; omega) (by intro j hj hjlen; omega)
    set r := lbLoop f v len 0 len with hr
    by_cases hc : f r < v
    · simp only [hc, if_pos]
      symm
      apply reference_lower_bound_eq (by omega) ?_ ?_
      · intro j hj
        rcases Nat.lt_or_ge j r with hjr | hrj
        · exact h3 j hjr
        · have : j = r := by omega
          simpa [this] using hc
      · intro hlt
        exact h4 (r + 1) (by omega) hlt
    · simp only [hc, if_neg, not_false_iff]
      symm
      apply reference_lower_bound_eq (by omega) h3 ?_
      intro _
      exact Nat.le_of_not_lt hc

/-! ## `btree.h`: node layout and node operations

`BTree<uint64_t, uint64_t, std::less<>, PageSize>`: a node is a page headed
by `{uint16_t level; uint16_t count}` followed by two parallel arrays.  For
this instantiation `sizeof(KeyT) = sizeof(ValueT) = sizeof(uint64_t)`, so
leaf pages (`keys[]; values[]`) and inner pages (`keys[]; children[]`) have
the same layout and the same capacity `(PageSize - 4) / 16`. -/

/-- `kCapacity = (PageSize - sizeof(Node)) / (sizeof(KeyT) + sizeof(uint64_t))`
with 8-byte keys, values and children and a 4-byte header. -/
def kCapacity (pageSize : Nat) : Nat := (pageSize - 4) / 16

structure LeafNode where
  level : Nat
  count : Nat
  keys : Nat → Nat
  values : Nat → Nat

structure InnerNode where
  level : Nat
  count : Nat
  keys : Nat → Nat
  children : Nat → Nat

/-- `memmove(&f[pos+1], &f[pos], n * sizeof ...)` where the destination
range is `f[pos+1 .. hi]`: slot `j` in that range receives `f (j-1)`. -/
def shiftRight (f : Nat → Nat) (pos hi : Nat) : Nat → Nat :=
  fun j => if pos + 1 ≤ j ∧ j ≤ hi then f (j - 1) else f j

/-- `memmove(&f[pos], &f[pos+1], n * sizeof ...)` where the destination
range is `f[pos .. hi-2]` (`n = hi - (pos+1)` elements): slot `j` in that
range receives `f (j+1)`. -/
def shiftLeft (f : Nat → Nat) (pos hi : Nat) : Nat → Nat :=
  fun j => if pos ≤ j ∧ j + 2 ≤ hi then f (j + 1) else f j

/-- Array store `f[i] = x`. -/
def aset (f : Nat → Nat) (i x : Nat) : Nat → Nat :=
  fun j => if j = i then x else f j

/-- The first `n` slots of an array, as a list. -/
def tabulate {α : Type} (g : Nat → α) (n : Nat) : List α :=
  (List.range n).map g

theorem tabulate_zero {α : Type} (g : Nat → α) : tabulate g 0 = [] := rfl

theorem tabulate_succ {α : Type} (g : Nat → α) (n : Nat) :
    tabulate g (n + 1) = tabulate g n ++ [g n] := by
  simp [tabulate, List.range_succ]

theorem tabulate_add {α : Type} (g : Nat → α) (a b : Nat) :
    tabulate g (a + b) = tabulate g a ++ tabulate (fun j => g (a + j)) b := by
  induction b with
  | zero => simp [tabulate_zero]
  | succ b ih =>
    rw [show a + (b + 1) = (a + b) + 1 by omega, tabulate_succ, ih, tabulate_succ,
      List.append_assoc]

theorem tabulate_congr {α : Type} {g g' : Nat → α} {n : Nat}
    (h : ∀ j < n, g j = g' j) : tabulate g n = tabulate g' n := by
  unfold tabulate
  apply List.map_congr_left
  intro j hj
  exact h j (List.mem_range.mp hj)

theorem length_tabulate {α : Type} (g : Nat → α) (n : Nat) :
    (tabulate g n).length = n := by
  simp [tabulate]

theorem mem_tabulate {α : Type} {g : Nat → α} {n : Nat} {x : α} :
    x ∈ tabulate g n ↔ ∃ j < n, g j = x := by
  simp [tabulate]

/-! ### `List.lookup` facts used for the association-list view of leaves -/

theorem lookup_append_of_some {l1 l2 : List (Nat × Nat)} {q v : Nat}
    (h : List.lookup q l1 = some v) : List.lookup q (l1 ++ l2) = some v := by
  induction l1 with
  | nil => simp [List.lookup] at h
  | cons p ps ih =>
    by_cases hq : q = p.1
    · simpa [List.lookup, hq] using h
    · have hbeq : (q == p.1) = false := by simpa using hq
      simp only [List.lookup, hbeq] at h
      simpa [List.lookup, hbeq] using ih h

theorem lookup_append_of_none {l1 l2 : List (Nat × Nat)} {q : Nat}
    (h : List.lookup q l1 = none) : List.lookup q (l1 ++ l2) = List.lookup q l2 := by
  induction l1 with
  | nil => simp
  | cons p ps ih =>
    by_cases hq : q = p.1
    · simp [List.lookup, hq] at h
    · have hbeq : (q == p.1) = false := by simpa using hq
      simp only [List.lookup, hbeq] at h
      simpa [List.lookup, hbeq] using ih h

theorem lookup_eq_none_iff {l : List (Nat × Nat)} {q : Nat} :
    List.lookup q l = none ↔ ∀ p ∈ l, p.1 ≠ q := by
  induction l with
  | nil => simp [List.lookup]
  | cons p ps ih =>
    by_cases hq : q = p.1
    · simp [List.lookup, hq]
    · have hbeq : (q == p.1) = false := by simpa using hq
      simp only [List.lookup, hbeq]
      rw [ih]
      constructor
      · intro h p' hp'
        rcases List.mem_cons.mp hp' with h' | h'
        · subst h'; exact fun he => hq he.symm
        · exact h p' h'
      · intro h p' hp'
        exact h p' (List.mem_cons_of_mem _ hp')

/-- Looking up `kf j` in a tabulated association array whose keys are
injective below `n` yields `vf j`. -/
theorem lookup_tabulate_eq {kf vf : Nat → Nat} {n j q : Nat}
    (hj : j < n) (hq : kf j = q)
    (hinj : ∀ i < n, kf i = kf j → i = j) :
    List.lookup q (tabulate (fun i => (kf i, vf i)) n) = some (vf j) := by
  induction n with
  | zero => omega
  | succ n ih =>
    rw [tabulate_succ]
    by_cases hjn : j < n
    · have : List.lookup q (tabulate (fun i => (kf i, vf i)) n) = some (vf j) :=
        ih hjn (fun i hi he => hinj i (by omega) he)
      exact lookup_append_of_some this
    · have hjeq : j = n := by omega
      have hnone : List.lookup q (tabulate (fun i => (kf i, vf i)) n) = none := by
        rw [lookup_eq_none_iff]
        intro p hp
        obtain ⟨i, hi, rfl⟩ := mem_tabulate.mp hp
        intro he
        have : i = j := hinj i (by omega) (he.trans hq.symm)
        omega
      rw [lookup_append_of_none hnone]
      have hqn : kf n = q := hjeq ▸ hq
      rw [hjeq]
      simp [List.lookup, hqn]

theorem lookup_tabulate_eq_none {kf vf : Nat → Nat} {n q : Nat}
    (h : ∀ j < n, kf j ≠ q) :
    List.lookup q (tabulate (fun i => (kf i, vf i)) n) = none := by
  rw [lookup_eq_none_iff]
  intro p hp
  obtain ⟨i, hi, rfl⟩ := mem_tabulate.mp hp
  exact h i hi

namespace LeafNode

/-- `bool has_space() const { return this->count < kCapacity; }` -/
def has_space (n : LeafNode) (cap : Nat) : Bool := n.count < cap

/-- ```cpp
std::pair<uint32_t, bool> lower_bound(const KeyT& key) {
   if (this->count == 0) return {0, false};
   auto i = lower_bound_branchless(&keys[0], &keys[this->count], key, cmp);
   return {i, i < this->count && keys[i] == key};
}
``` -/
def lower_bound (n : LeafNode) (key : Nat) : Nat × Bool :=
  if n.count = 0 then (0, false)
  else
    let i := lower_bound_branchless n.keys n.count key
    (i, decide (i < n.count ∧ n.keys i = key))

/-- `void insert(const KeyT& key, const ValueT& value)`: on a hit overwrite
the value in place; otherwise shift the suffix one slot right via `memmove`
and store the new pair, incrementing `count`. -/
def insert (n : LeafNode) (key value : Nat) : LeafNode :=
  if (n.lower_bound key).2 then
    { n with values := aset n.values (n.lower_bound key).1 value }
  else
    { n with
      keys := aset (shiftRight n.keys (n.lower_bound key).1 n.count) (n.lower_bound key).1 key
      values := aset (shiftRight n.values (n.lower_bound key).1 n.count) (n.lower_bound key).1 value
      count := n.count + 1 }

/-- `bool erase(const KeyT& key)`: miss returns `false`; on a hit shift the
suffix one slot left (guarded by `count > pos + 1`) and decrement `count`. -/
def erase (n : LeafNode) (key : Nat) : LeafNode × Bool :=
  if n.count = 0 then (n, false)
  else
    if (n.lower_bound key).2 then
      if (n.lower_bound key).1 + 1 < n.count then
        ({ n with keys := shiftLeft n.keys (n.lower_bound key).1 n.count
                  values := shiftLeft n.values (n.lower_bound key).1 n.count
                  count := n.count - 1 }, true)
      else ({ n with count := n.count - 1 }, true)
    else (n, false)

/-- `KeyT split(std::byte* buffer)`: the new node in `buffer` takes level
and `count / 2`, the loop copies slots `newCount .. count-1`; this node
keeps `count - count / 2` and the separator is `keys[newCount - 1]`.
`buffer` holds whatever bytes the fresh page carried. -/
def split (n : LeafNode) (buffer : LeafNode) : LeafNode × LeafNode × Nat :=
  ({ n with count := n.count - n.count / 2 },
   { level := n.level
     count := n.count / 2
     keys := fun j => if n.count - n.count / 2 + j < n.count then n.keys (n.count - n.count / 2 + j) else buffer.keys j
     values := fun j => if n.count - n.count / 2 + j < n.count then n.values (n.count - n.count / 2 + j) else buffer.values j },
   n.keys (n.count - n.count / 2 - 1))

/-- The logical contents: `count` key/value pairs. -/
def entries (n : LeafNode) : List (Nat × Nat) :=
  tabulate (fun j => (n.keys j, n.values j)) n.count

/-- The logical keys, as in `get_key_vector`. -/
def keyList (n : LeafNode) : List Nat :=
  tabulate n.keys n.count

end LeafNode

namespace InnerNode

/-- `bool has_space() const { return this->count < kCapacity; }` -/
def has_space (n : InnerNode) (cap : Nat) : Bool := n.count < cap

/-- ```cpp
std::pair<uint32_t, bool> lower_bound(const KeyT& key) {
   if (this->count == 0) return {0, false};
   auto i = lower_bound_branchless(&keys[0], &keys[this->count - 1], key, cmp);
   return {i, i < this->count - 1UL && keys[i] == key};
}
```
An inner node with `count` children carries `count - 1` logical keys. -/
def lower_bound (n : InnerNode) (key : Nat) : Nat × Bool :=
  if n.count = 0 then (0, false)
  else
    let i := lower_bound_branchless n.keys (n.count - 1) key
    (i, decide (i < n.count - 1 ∧ n.keys i = key))

/-- `void insert_split(const KeyT& key, uint64_t split_page)`: shift keys
(`count - pos - 1` of them) and children (`count - pos`) one slot right when
`pos + 1 < count`, then store the separator at `keys[pos]` and the new child
at `children[pos + 1]`, incrementing `count`. -/
def insert_split (n : InnerNode) (key split_page : Nat) : InnerNode :=
  if (n.lower_bound key).1 + 1 < n.count then
    { n with
      keys := aset (shiftRight n.keys (n.lower_bound key).1 (n.count - 1)) (n.lower_bound key).1 key
      children := aset (shiftRight n.children (n.lower_bound key).1 n.count) ((n.lower_bound key).1 + 1) split_page
      count := n.count + 1 }
  else
    { n with
      keys := aset n.keys (n.lower_bound key).1 key
      children := aset n.children ((n.lower_bound key).1 + 1) split_page
      count := n.count + 1 }

/-- `KeyT split(std::byte* buffer)` for inner nodes: mirror of the leaf
split over `(keys, children)`. -/
def split (n : InnerNode) (buffer : InnerNode) : InnerNode × InnerNode × Nat :=
  ({ n with count := n.count - n.count / 2 },
   { level := n.level
     count := n.count / 2
     keys := fun j => if n.count - n.count / 2 + j < n.count then n.keys (n.count - n.count / 2 + j) else buffer.keys j
     children := fun j => if n.count - n.count / 2 + j < n.count then n.children (n.count - n.count / 2 + j) else buffer.children j },
   n.keys (n.count - n.count / 2 - 1))

/-- The logical separator keys (`count - 1` of them), as in `get_key_vector`. -/
def keyList (n : InnerNode) : List Nat :=
  tabulate n.keys (n.count - 1)

/-- The child page ids (`count` of them), the conceptual
`get_children_vector`. -/
def childList (n : InnerNode) : List Nat :=
  tabulate n.children n.count

end InnerNode

/-! ### Characterisation of the node-level `lower_bound`s -/

/-! ### Pointwise behaviour of the node mutators -/

theorem lbLoop_lt (f : Nat → Nat) (v : Nat) :
    ∀ l, 0 < l → ∀ fuel i, l ≤ fuel → lbLoop f v fuel i l < i + l := by
  intro l
  induction l using Nat.strong_induction_on with
  | _ l ih =>
    intro hl fuel i hfl
    cases fuel with
    | zero => omega
    | succ fuel =>
      rw [lbLoop]
      by_cases h0 : l / 2 = 0
      · rw [if_pos h0]
        omega
      · rw [if_neg h0]
        have h2 : 2 ≤ l := by omega
        by_cases hc : f (i + l / 2) < v
        · rw [if_pos hc]
          have := ih (l - l / 2) (by omega) (by omega) fuel (i + l / 2) (by omega)
          omega
        · rw [if_neg hc]
          have := ih (l - l / 2) (by omega) (by omega) fuel i (by omega)
          omega

/-- `lower_bound_branchless` never leaves the range, on any input. -/
theorem lower_bound_branchless_le (f : Nat → Nat) (len v : Nat) :
    lower_bound_branchless f len v ≤ len := by
  unfold lower_bound_branchless
  by_cases hlen : len = 0
  · simp [hlen]
  · simp only [hlen, if_neg, not_false_iff]
    have := lbLoop_lt f v len (by omega) len 0 (Nat.le_refl len)
    split <;> omega

theorem SortedLt.inj {f : Nat → Nat} {n : Nat} (hs : SortedLt f n) {i j : Nat}
    (hi : i < n) (hj : j < n) (he : f i = f j) : i = j := by
  rcases Nat.lt_trichotomy i j with h | h | h
  · exact absurd (hs.strictMono h hj) (by omega)
  · exact h
  · exact absurd (hs.strictMono h hi) (by omega)

/-- Result properties of `lower_bound_branchless` on a sorted array. -/
theorem lower_bound_branchless_spec (f : Nat → Nat) (len v : Nat)
    (hs : SortedLe f len) :
    lower_bound_branchless f len v ≤ len ∧
    (∀ j < lower_bound_branchless f len v, f j < v) ∧
    (lower_bound_branchless f len v < len → v ≤ f (lower_bound_branchless f len v)) := by
  unfold lower_bound_branchless
  by_cases hlen : len = 0
  · simp [hlen]
  · simp only [hlen, if_neg, not_false_iff]
    have hpos : 0 < len := by omega
    obtain ⟨h1, h2, h3, h4⟩ :=
      lbLoop_spec f v len hs len hpos len 0 (Nat.le_refl len) (by omega)
        (by intro j hj; omega) (by intro j hj hjlen; omega)
    set r := lbLoop f v len 0 len with hr
    by_cases hc : f r < v
    · simp only [hc, if_pos]
      refine ⟨by omega, ?_, ?_⟩
      · intro j hj
        rcases Nat.lt_or_ge j r with hjr | hrj
        · exact h3 j hjr
        · have : j = r := by omega
          simpa [this] using hc
      · intro hlt
        exact h4 (r + 1) (by omega) hlt
    · simp only [hc, if_neg, not_false_iff]
      exact ⟨by omega, h3, fun _ => Nat.le_of_not_lt hc⟩

namespace LeafNode

/-- **Characterisation of `LeafNode::lower_bound` on sorted keys**: the
returned index is the lower bound of `key` among the `count` keys, and the
flag holds exactly when the key is present (at the returned index). -/
theorem lower_bound_spec (n : LeafNode) (key : Nat) (hs : SortedLt n.keys n.count) :
    (n.lower_bound key).1 ≤ n.count ∧
    (∀ j < (n.lower_bound key).1, n.keys j < key) ∧
    ((n.lower_bound key).1 < n.count → key ≤ n.keys (n.lower_bound key).1) ∧
    ((n.lower_bound key).2 = true ↔
      (n.lower_bound key).1 < n.count ∧ n.keys (n.lower_bound key).1 = key) := by
  unfold lower_bound
  by_cases h0 : n.count = 0
  · simp [h0]
  · simp only [h0, if_neg, not_false_iff]
    obtain ⟨h1, h2, h3⟩ := lower_bound_branchless_spec n.keys n.count key hs.le
    refine ⟨h1, h2, h3, ?_⟩
    simp

/-- On sorted keys, the found flag decides membership of `key` among the
logical keys, and a hit reads off the stored value. -/
theorem lower_bound_found_iff (n : LeafNode) (key : Nat) (hs : SortedLt n.keys n.count) :
    (n.lower_bound key).2 = true ↔ ∃ j < n.count, n.keys j = key := by
  obtain ⟨h1, h2, h3, h4⟩ := n.lower_bound_spec key hs
  constructor
  · intro h
    obtain ⟨ha, hb⟩ := h4.mp h
    exact ⟨_, ha, hb⟩
  · rintro ⟨j, hj, rfl⟩
    apply h4.mpr
    have hj1 : ¬ j < (n.lower_bound (n.keys j)).1 := fun hc => by
      have := h2 j hc; omega
    have hj2 : ¬ (n.lower_bound (n.keys j)).1 < j := fun hc => by
      have := hs.strictMono hc hj; have := h3 (by omega); omega
    have : (n.lower_bound (n.keys j)).1 = j := by omega
    rw [this]
    exact ⟨hj, rfl⟩

/-- The association-list view of a leaf agrees with what the lookup path
computes from `lower_bound`. -/
theorem lookup_entries (n : LeafNode) (key : Nat) (hs : SortedLt n.keys n.count) :
    List.lookup key n.entries =
      (if (n.lower_bound key).2 then some (n.values (n.lower_bound key).1) else none) := by
  obtain ⟨h1, h2, h3, h4⟩ := n.lower_bound_spec key hs
  by_cases hf : (n.lower_bound key).2
  · obtain ⟨ha, hb⟩ := h4.mp hf
    rw [if_pos hf]
    unfold entries
    apply lookup_tabulate_eq ha hb
    intro i hi he
    rcases Nat.lt_trichotomy i (n.lower_bound key).1 with h | h | h
    · exact absurd (hs.strictMono h ha) (by omega)
    · exact h
    · exact absurd (hs.strictMono h hi) (by rw [he]; omega)
  · rw [if_neg hf]
    unfold entries
    apply lookup_tabulate_eq_none
    intro j hj he
    exact hf ((n.lower_bound_found_iff key hs).mpr ⟨j, hj, he⟩)

end LeafNode

namespace InnerNode

/-- **C5 support: characterisation of `InnerNode::lower_bound`** on sorted
separator keys (`count - 1` logical keys for `count` children). -/
theorem inner_lower_bound_spec (n : InnerNode) (key : Nat)
    (hs : SortedLe n.keys (n.count - 1)) :
    (n.count = 0 → n.lower_bound key = (0, false)) ∧
    (0 < n.count →
      (n.lower_bound key).1 ≤ n.count - 1 ∧
      (∀ j < (n.lower_bound key).1, n.keys j < key) ∧
      ((n.lower_bound key).1 < n.count - 1 → key ≤ n.keys (n.lower_bound key).1) ∧
      ((n.lower_bound key).2 = true ↔
        (n.lower_bound key).1 < n.count - 1 ∧ n.keys (n.lower_bound key).1 = key)) := by
  constructor
  · intro h0
    unfold lower_bound
    simp [h0]
  · intro hpos
    unfold lower_bound
    have h0 : ¬ n.count = 0 := by omega
    simp only [h0, if_neg, not_false_iff]
    obtain ⟨h1, h2, h3⟩ := lower_bound_branchless_spec n.keys (n.count - 1) key hs
    refine ⟨h1, h2, h3, ?_⟩
    simp

end InnerNode

namespace LeafNode

theorem lower_bound_le (n : LeafNode) (key : Nat) :
    (n.lower_bound key).1 ≤ n.count := by
  unfold lower_bound
  by_cases h0 : n.count = 0
  · simp [h0]
  · simp only [h0, if_neg, not_false_iff]
    exact lower_bound_branchless_le n.keys n.count key

theorem insert_eq_found (n : LeafNode) (key value : Nat)
    (hf : (n.lower_bound key).2 = true) :
    n.insert key value = { n with values := aset n.values (n.lower_bound key).1 value } := by
  unfold insert
  rw [hf]
  simp

theorem insert_eq_not_found (n : LeafNode) (key value : Nat)
    (hf : (n.lower_bound key).2 = false) :
    n.insert key value =
      { n with
        keys := aset (shiftRight n.keys (n.lower_bound key).1 n.count) (n.lower_bound key).1 key
        values := aset (shiftRight n.values (n.lower_bound key).1 n.count) (n.lower_bound key).1 value
        count := n.count + 1 } := by
  unfold insert
  rw [hf]
  simp

/-- What `LeafNode::insert` writes when the key is already present. -/
theorem insert_desc_found (n : LeafNode) (key value : Nat)
    (hf : (n.lower_bound key).2 = true) :
    (n.insert key value).count = n.count ∧
    (n.insert key value).level = n.level ∧
    (n.insert key value).keys = n.keys ∧
    (∀ j, j ≠ (n.lower_bound key).1 → (n.insert key value).values j = n.values j) ∧
    (n.insert key value).values (n.lower_bound key).1 = value := by
  rw [insert_eq_found n key value hf]
  refine ⟨rfl, rfl, rfl, ?_, ?_⟩
  · intro j hj
    show aset n.values (n.lower_bound key).1 value j = n.values j
    unfold aset
    rw [if_neg hj]
  · show aset n.values (n.lower_bound key).1 value (n.lower_bound key).1 = value
    unfold aset
    simp

/-- What `LeafNode::insert` writes when the key is absent: the suffix moves
one slot right and the new pair lands at the lower-bound position. -/
theorem insert_desc_not_found (n : LeafNode) (key value : Nat)
    (hf : (n.lower_bound key).2 = false) :
    (n.insert key value).count = n.count + 1 ∧
    (n.insert key value).level = n.level ∧
    (∀ j, j < (n.lower_bound key).1 →
      (n.insert key value).keys j = n.keys j ∧ (n.insert key value).values j = n.values j) ∧
    ((n.insert key value).keys (n.lower_bound key).1 = key ∧
     (n.insert key value).values (n.lower_bound key).1 = value) ∧
    (∀ j, (n.lower_bound key).1 < j → j ≤ n.count →
      (n.insert key value).keys j = n.keys (j - 1) ∧
      (n.insert key value).values j = n.values (j - 1)) := by
  rw [insert_eq_not_found n key value hf]
  unfold aset shiftRight
  refine ⟨rfl, rfl, ?_, ?_, ?_⟩
  · intro j hj
    constructor
    all_goals dsimp only
    all_goals rw [if_neg (by omega), if_neg (by omega)]
  · constructor
    all_goals dsimp only
    all_goals simp
  · intro j hj1 hj2
    constructor
    all_goals dsimp only
    all_goals rw [if_neg (by omega), if_pos (by omega)]

/-- **C6 support:** `LeafNode::insert` preserves strictly increasing keys. -/
theorem insert_sorted (n : LeafNode) (key value : Nat)
    (hs : SortedLt n.keys n.count) :
    SortedLt (n.insert key value).keys (n.insert key value).count := by
  by_cases hf : (n.lower_bound key).2
  · obtain ⟨hc, _, hk, _, _⟩ := n.insert_desc_found key value hf
    rw [hc, hk]
    exact hs
  · have hf' : (n.lower_bound key).2 = false := by simpa using hf
    obtain ⟨hc, _, hlo, hmid, hhi⟩ := n.insert_desc_not_found key value hf'
    obtain ⟨hb1, hb2, hb3, hb4⟩ := n.lower_bound_spec key hs
    set pos := (n.lower_bound key).1 with hpos
    have hstrict : pos < n.count → key < n.keys pos := by
      intro hlt
      have hne : n.keys pos ≠ key := fun he => by
        rw [hf'] at hb4
        exact absurd (hb4.symm.mp ⟨hlt, he⟩) (by simp)
      have := hb3 hlt
      omega
    rw [hc]
    intro j hj i hij
    rcases Nat.lt_trichotomy j pos with h | h | h
    · rw [(hlo j h).1, (hlo i (by omega)).1]
      exact hs.strictMono hij (by omega)
    · subst h
      rw [hmid.1, (hlo i hij).1]
      exact hb2 i hij
    · rw [(hhi j h (by omega)).1]
      have hj1 : j - 1 < n.count := by omega
      rcases Nat.lt_trichotomy i pos with h' | h' | h'
      · rw [(hlo i h').1]
        exact hs.strictMono (by omega) hj1
      · subst h'
        rw [hmid.1]
        have hposn : pos < n.count := by omega
        have := hstrict hposn
        rcases Nat.lt_or_ge pos (j - 1) with h'' | h''
        · exact Nat.lt_trans this (hs.strictMono h'' hj1)
        · have : j - 1 = pos := by omega
          rw [this]
          exact hstrict hposn
      · rw [(hhi i h' (by omega)).1]
        exact hs.strictMono (by omega) hj1

theorem lower_bound_not_found_iff (n : LeafNode) (key : Nat)
    (hs : SortedLt n.keys n.count) :
    (n.lower_bound key).2 = false ↔ ∀ j < n.count, n.keys j ≠ key := by
  rw [← Bool.not_eq_true, n.lower_bound_found_iff key hs]
  push_neg
  constructor
  · intro h j hj he
    exact h j hj he
  · intro h j hj
    exact h j hj

theorem erase_eq_not_found (n : LeafNode) (key : Nat)
    (hf : (n.lower_bound key).2 = false) : n.erase key = (n, false) := by
  unfold erase
  by_cases h0 : n.count = 0
  · rw [if_pos h0]
  · rw [if_neg h0, hf]
    simp

/-- What `LeafNode::erase` does on a hit: the suffix moves one slot left. -/
theorem erase_desc_found (n : LeafNode) (key : Nat)
    (hf : (n.lower_bound key).2 = true) :
    (n.erase key).2 = true ∧
    (n.erase key).1.count = n.count - 1 ∧
    (n.erase key).1.level = n.level ∧
    (∀ j, j < (n.lower_bound key).1 →
      (n.erase key).1.keys j = n.keys j ∧ (n.erase key).1.values j = n.values j) ∧
    (∀ j, (n.lower_bound key).1 ≤ j → j < n.count - 1 →
      (n.erase key).1.keys j = n.keys (j + 1) ∧ (n.erase key).1.values j = n.values (j + 1)) := by
  have h0 : ¬ n.count = 0 := by
    intro h0
    unfold lower_bound at hf
    rw [if_pos h0] at hf
    simp at hf
  unfold erase
  rw [if_neg h0, hf]
  simp only [if_pos]
  by_cases hg : (n.lower_bound key).1 + 1 < n.count
  · rw [if_pos hg]
    unfold shiftLeft
    refine ⟨rfl, rfl, rfl, ?_, ?_⟩
    · intro j hj
      constructor
      all_goals dsimp only
      all_goals rw [if_neg (by omega)]
    · intro j hj1 hj2
      constructor
      all_goals dsimp only
      all_goals rw [if_pos (by omega)]
  · rw [if_neg hg]
    refine ⟨rfl, rfl, rfl, ?_, ?_⟩
    · intro j hj
      exact ⟨rfl, rfl⟩
    · intro j hj1 hj2
      have hle : (n.lower_bound key).1 ≤ n.count := n.lower_bound_le key
      omega

/-- **C6 support:** `LeafNode::erase` preserves strictly increasing keys. -/
theorem erase_sorted (n : LeafNode) (key : Nat) (hs : SortedLt n.keys n.count) :
    SortedLt (n.erase key).1.keys (n.erase key).1.count := by
  by_cases hf : (n.lower_bound key).2
  · obtain ⟨_, hc, _, hlo, hhi⟩ := n.erase_desc_found key hf
    rw [hc]
    intro j hj i hij
    rcases Nat.lt_or_ge j (n.lower_bound key).1 with h | h
    · rw [(hlo j h).1, (hlo i (by omega)).1]
      exact hs.strictMono hij (by omega)
    · rw [(hhi j h hj).1]
      rcases Nat.lt_or_ge i (n.lower_bound key).1 with h' | h'
      · rw [(hlo i h').1]
        exact hs.strictMono (by omega) (by omega)
      · rw [(hhi i h' (by omega)).1]
        exact hs.strictMono (by omega) (by omega)
  · have hf' : (n.lower_bound key).2 = false := by simpa using hf
    rw [n.erase_eq_not_found key hf']
    exact hs

/-- **C3 support:** description of `LeafNode::split`. -/
theorem split_desc (n buffer : LeafNode) :
    (n.split buffer).1.count = n.count - n.count / 2 ∧
    (n.split buffer).1.level = n.level ∧
    (n.split buffer).1.keys = n.keys ∧
    (n.split buffer).1.values = n.values ∧
    (n.split buffer).2.1.count = n.count / 2 ∧
    (n.split buffer).2.1.level = n.level ∧
    (∀ j, j < n.count / 2 →
      (n.split buffer).2.1.keys j = n.keys (n.count - n.count / 2 + j) ∧
      (n.split buffer).2.1.values j = n.values (n.count - n.count / 2 + j)) ∧
    (n.split buffer).2.2 = n.keys (n.count - n.count / 2 - 1) := by
  refine ⟨rfl, rfl, rfl, rfl, rfl, rfl, ?_, rfl⟩
  intro j hj
  constructor
  all_goals show (if n.count - n.count / 2 + j < n.count then _ else _) = _
  all_goals rw [if_pos (by omega)]

/-- The two halves of a leaf split carry exactly the pre-split entries, in
order. -/
theorem split_entries (n buffer : LeafNode) :
    (n.split buffer).1.entries ++ (n.split buffer).2.1.entries = n.entries := by
  obtain ⟨hc1, _, hk1, hv1, hc2, _, hdesc, _⟩ := n.split_desc buffer
  have h1 : (n.split buffer).1.entries =
      tabulate (fun j => (n.keys j, n.values j)) (n.count - n.count / 2) := by
    unfold entries
    rw [hc1, hk1, hv1]
  have h2 : (n.split buffer).2.1.entries =
      tabulate (fun j => (n.keys (n.count - n.count / 2 + j),
                          n.values (n.count - n.count / 2 + j))) (n.count / 2) := by
    unfold entries
    rw [hc2]
    apply tabulate_congr
    intro j hj
    rw [(hdesc j hj).1, (hdesc j hj).2]
  have h3 : n.entries =
      tabulate (fun j => (n.keys j, n.values j)) ((n.count - n.count / 2) + n.count / 2) := by
    unfold entries
    congr 1
    omega
  rw [h1, h2, h3, tabulate_add]

/-- **C6 support:** both halves of a leaf split have strictly increasing
keys. -/
theorem split_sorted (n buffer : LeafNode) (hs : SortedLt n.keys n.count) :
    SortedLt (n.split buffer).1.keys (n.split buffer).1.count ∧
    SortedLt (n.split buffer).2.1.keys (n.split buffer).2.1.count := by
  obtain ⟨hc1, _, hk1, _, hc2, _, hdesc, _⟩ := n.split_desc buffer
  constructor
  · rw [hc1, hk1]
    intro j hj i hij
    exact hs.strictMono hij (by omega)
  · rw [hc2]
    intro j hj i hij
    rw [(hdesc j hj).1, (hdesc i (by omega)).1]
    exact hs.strictMono (by omega) (by omega)

/-- On a sorted leaf with at least two entries, the separator returned by
`split` is the largest key retained on the left and is strictly below every
key moved to the right node. -/
theorem split_separator (n buffer : LeafNode) (hs : SortedLt n.keys n.count)
    (h2 : 2 ≤ n.count) :
    (n.split buffer).2.2 = (n.split buffer).1.keys ((n.split buffer).1.count - 1) ∧
    (∀ j, j < (n.split buffer).1.count → (n.split buffer).1.keys j ≤ (n.split buffer).2.2) ∧
    (∀ j, j < (n.split buffer).2.1.count → (n.split buffer).2.2 < (n.split buffer).2.1.keys j) := by
  obtain ⟨hc1, _, hk1, _, hc2, _, hdesc, hsep⟩ := n.split_desc buffer
  refine ⟨by rw [hsep, hc1, hk1], ?_, ?_⟩
  · intro j hj
    rw [hsep, hc1, hk1] at *
    rcases Nat.lt_or_ge j (n.count - n.count / 2 - 1) with h | h
    · exact Nat.le_of_lt (hs.strictMono h (by omega))
    · have : j = n.count - n.count / 2 - 1 := by omega
      rw [this]
  · intro j hj
    rw [hsep, hc2] at *
    rw [(hdesc j hj).1]
    exact hs.strictMono (by omega) (by omega)

/-- **C1 support:** the association-list effect of `LeafNode::insert` on a
sorted leaf: the binding of `key` becomes `value`, all others are kept. -/
theorem insert_lookup (n : LeafNode) (key value : Nat)
    (hs : SortedLt n.keys n.count) (q : Nat) :
    List.lookup q (n.insert key value).entries =
      if q = key then some value else List.lookup q n.entries := by
  have hsorted' := n.insert_sorted key value hs
  by_cases hf : (n.lower_bound key).2
  · obtain ⟨hc, _, hk, hvne, hveq⟩ := n.insert_desc_found key value hf
    obtain ⟨-, -, -, h4⟩ := n.lower_bound_spec key hs
    obtain ⟨hposlt, hposeq⟩ := h4.mp hf
    have hent : (n.insert key value).entries =
        tabulate (fun j => (n.keys j, (n.insert key value).values j)) n.count := by
      unfold entries
      rw [hc, hk]
    rw [hent]
    by_cases hq : q = key
    · rw [if_pos hq]
      rw [lookup_tabulate_eq hposlt (hposeq.trans hq.symm)
        (fun i hi he => hs.inj hi hposlt he)]
      rw [hveq]
    · rw [if_neg hq]
      by_cases hex : ∃ j, j < n.count ∧ n.keys j = q
      · obtain ⟨j, hj, hjq⟩ := hex
        have hjpos : j ≠ (n.lower_bound key).1 := by
          intro he
          rw [he, hposeq] at hjq
          exact hq hjq.symm
        rw [lookup_tabulate_eq hj hjq (fun i hi he => hs.inj hi hj he)]
        unfold entries
        rw [lookup_tabulate_eq hj hjq (fun i hi he => hs.inj hi hj he)]
        rw [hvne j hjpos]
      · push_neg at hex
        rw [lookup_tabulate_eq_none (fun j hj => hex j hj)]
        unfold entries
        rw [lookup_tabulate_eq_none (fun j hj => hex j hj)]
  · have hf' : (n.lower_bound key).2 = false := by simpa using hf
    obtain ⟨hc, _, hlo, hmid, hhi⟩ := n.insert_desc_not_found key value hf'
    obtain ⟨hb1, hb2, hb3, -⟩ := n.lower_bound_spec key hs
    set pos := (n.lower_bound key).1 with hposdef
    have habs : ∀ j < n.count, n.keys j ≠ key :=
      (n.lower_bound_not_found_iff key hs).mp hf'
    have hinj' : ∀ i j, i < (n.insert key value).count → j < (n.insert key value).count →
        (n.insert key value).keys i = (n.insert key value).keys j → i = j := by
      intro i j hi hj he
      exact hsorted'.inj hi hj he
    by_cases hq : q = key
    · rw [if_pos hq]
      unfold entries
      rw [lookup_tabulate_eq (j := pos) (by omega) (hmid.1.trans hq.symm)
        (fun i hi he => hinj' i pos hi (by omega) he)]
      rw [hmid.2]
    · rw [if_neg hq]
      by_cases hex : ∃ j, j < n.count ∧ n.keys j = q
      · obtain ⟨j, hj, hjq⟩ := hex
        have hrhs : List.lookup q n.entries = some (n.values j) := by
          unfold entries
          exact lookup_tabulate_eq hj hjq (fun i hi he => hs.inj hi hj he)
        rw [hrhs]
        unfold entries
        rcases Nat.lt_or_ge j pos with hjp | hjp
        · rw [lookup_tabulate_eq (j := j) (by omega) (by rw [(hlo j hjp).1]; exact hjq)
            (fun i hi he => hinj' i j hi (by omega) he)]
          rw [(hlo j hjp).2]
        · have hk1 : (n.insert key value).keys (j + 1) = n.keys j := by
            rw [(hhi (j + 1) (by omega) (by omega)).1]
            simp
          rw [lookup_tabulate_eq (j := j + 1) (by omega) (by rw [hk1]; exact hjq)
            (fun i hi he => hinj' i (j + 1) hi (by omega) he)]
          rw [(hhi (j + 1) (by omega) (by omega)).2]
          simp
      · push_neg at hex
        have hlhs : ∀ j, j < (n.insert key value).count → (n.insert key value).keys j ≠ q := by
          intro j hj
          rcases Nat.lt_trichotomy j pos with h | h | h
          · rw [(hlo j h).1]
            exact hex j (by omega)
          · rw [h, hmid.1]
            exact fun he => hq he.symm
          · rw [(hhi j h (by omega)).1]
            exact hex (j - 1) (by omega)
        unfold entries
        rw [lookup_tabulate_eq_none (fun j hj => hlhs j hj),
          lookup_tabulate_eq_none (fun j hj => hex j hj)]

/-- **C1 support:** the association-list effect of `LeafNode::erase` on a
sorted leaf: the binding of `key` disappears, all others are kept. -/
theorem erase_lookup (n : LeafNode) (key : Nat)
    (hs : SortedLt n.keys n.count) (q : Nat) :
    List.lookup q (n.erase key).1.entries =
      if q = key then none else List.lookup q n.entries := by
  have hsorted' := n.erase_sorted key hs
  by_cases hf : (n.lower_bound key).2
  · obtain ⟨-, hc, -, hlo, hhi⟩ := n.erase_desc_found key hf
    obtain ⟨-, hb2, -, h4⟩ := n.lower_bound_spec key hs
    obtain ⟨hposlt, hposeq⟩ := h4.mp hf
    set pos := (n.lower_bound key).1 with hposdef
    have hinj' : ∀ i j, i < (n.erase key).1.count → j < (n.erase key).1.count →
        (n.erase key).1.keys i = (n.erase key).1.keys j → i = j := by
      intro i j hi hj he
      exact hsorted'.inj hi hj he
    by_cases hq : q = key
    · rw [if_pos hq]
      unfold entries
      apply lookup_tabulate_eq_none
      intro j hj he
      rw [hc] at hj
      rcases Nat.lt_or_ge j pos with h | h
      · rw [(hlo j h).1] at he
        have := hb2 j h
        omega
      · rw [(hhi j h hj).1] at he
        have : n.keys pos < n.keys (j + 1) := hs.strictMono (by omega) (by omega)
        rw [hposeq] at this
        omega
    · rw [if_neg hq]
      by_cases hex : ∃ j, j < n.count ∧ n.keys j = q
      · obtain ⟨j, hj, hjq⟩ := hex
        have hjpos : j ≠ pos := by
          intro he
          rw [he, hposeq] at hjq
          exact hq hjq.symm
        have hrhs : List.lookup q n.entries = some (n.values j) := by
          unfold entries
          exact lookup_tabulate_eq hj hjq (fun i hi he => hs.inj hi hj he)
        rw [hrhs]
        unfold entries
        rcases Nat.lt_or_ge j pos with hjp | hjp
        · rw [lookup_tabulate_eq (j := j) (by omega) (by rw [(hlo j hjp).1]; exact hjq)
            (fun i hi he => hinj' i j hi (by omega) he)]
          rw [(hlo j hjp).2]
        · have hjgt : pos < j := by omega
          have hjb : j - 1 < (n.erase key).1.count := by omega
          have hk1 : (n.erase key).1.keys (j - 1) = n.keys j := by
            rw [(hhi (j - 1) (by omega) (by omega)).1]
            congr 1
            omega
          rw [lookup_tabulate_eq (j := j - 1) hjb (by rw [hk1]; exact hjq)
            (fun i hi he => hinj' i (j - 1) hi hjb he)]
          rw [(hhi (j - 1) (by omega) (by omega)).2]
          have hje : j - 1 + 1 = j := by omega
          rw [hje]
      · push_neg at hex
        have hlhs : ∀ j, j < (n.erase key).1.count → (n.erase key).1.keys j ≠ q := by
          intro j hj
          rcases Nat.lt_or_ge j pos with h | h
          · rw [(hlo j h).1]
            exact hex j (by omega)
          · rw [(hhi j h (by rw [hc] at hj; exact hj)).1]
            exact hex (j + 1) (by omega)
        unfold entries
        rw [lookup_tabulate_eq_none (fun j hj => hlhs j hj),
          lookup_tabulate_eq_none (fun j hj => hex j hj)]
  · have hf' : (n.lower_bound key).2 = false := by simpa using hf
    rw [n.erase_eq_not_found key hf']
    by_cases hq : q = key
    · rw [if_pos hq]
      unfold entries
      apply lookup_tabulate_eq_none
      intro j hj
      rw [hq]
      exact (n.lower_bound_not_found_iff key hs).mp hf' j hj
    · rw [if_neg hq]

end LeafNode

namespace InnerNode

theorem inner_lower_bound_le (n : InnerNode) (key : Nat) :
    (n.lower_bound key).1 ≤ n.count - 1 := by
  unfold lower_bound
  by_cases h0 : n.count = 0
  · simp [h0]
  · simp only [h0, if_neg, not_false_iff]
    exact lower_bound_branchless_le n.keys (n.count - 1) key

/-- **C4 support:** description of `InnerNode::split`. -/
theorem inner_split_desc (n buffer : InnerNode) :
    (n.split buffer).1.count = n.count - n.count / 2 ∧
    (n.split buffer).1.level = n.level ∧
    (n.split buffer).1.keys = n.keys ∧
    (n.split buffer).1.children = n.children ∧
    (n.split buffer).2.1.count = n.count / 2 ∧
    (n.split buffer).2.1.level = n.level ∧
    (∀ j, j < n.count / 2 →
      (n.split buffer).2.1.keys j = n.keys (n.count - n.count / 2 + j) ∧
      (n.split buffer).2.1.children j = n.children (n.count - n.count / 2 + j)) ∧
    (n.split buffer).2.2 = n.keys (n.count - n.count / 2 - 1) := by
  refine ⟨rfl, rfl, rfl, rfl, rfl, rfl, ?_, rfl⟩
  intro j hj
  constructor
  all_goals show (if n.count - n.count / 2 + j < n.count then _ else _) = _
  all_goals rw [if_pos (by omega)]

/-- The two halves of an inner split carry exactly the pre-split children,
in order. -/
theorem split_children (n buffer : InnerNode) :
    (n.split buffer).1.childList ++ (n.split buffer).2.1.childList = n.childList := by
  obtain ⟨hc1, _, _, hch1, hc2, _, hdesc, _⟩ := n.inner_split_desc buffer
  have h1 : (n.split buffer).1.childList =
      tabulate n.children (n.count - n.count / 2) := by
    unfold childList
    rw [hc1, hch1]
  have h2 : (n.split buffer).2.1.childList =
      tabulate (fun j => n.children (n.count - n.count / 2 + j)) (n.count / 2) := by
    unfold childList
    rw [hc2]
    apply tabulate_congr
    intro j hj
    exact (hdesc j hj).2
  have h3 : n.childList = tabulate n.children ((n.count - n.count / 2) + n.count / 2) := by
    unfold childList
    congr 1
    omega
  rw [h1, h2, h3, tabulate_add]

/-- The logical separator keys of an inner node split into: the left node's
logical keys, the separator pushed up, and the right node's logical keys. -/
theorem split_keyList (n buffer : InnerNode) (h2 : 2 ≤ n.count) :
    n.keyList =
      (n.split buffer).1.keyList ++ (n.split buffer).2.2 :: (n.split buffer).2.1.keyList := by
  obtain ⟨hc1, _, hk1, _, hc2, _, hdesc, hsep⟩ := n.inner_split_desc buffer
  have h1 : (n.split buffer).1.keyList =
      tabulate n.keys (n.count - n.count / 2 - 1) := by
    unfold keyList
    rw [hc1, hk1]
  have h2r : (n.split buffer).2.1.keyList =
      tabulate (fun j => n.keys (n.count - n.count / 2 + j)) (n.count / 2 - 1) := by
    unfold keyList
    rw [hc2]
    apply tabulate_congr
    intro j hj
    exact (hdesc j (by omega)).1
  have h3 : n.keyList =
      tabulate n.keys ((n.count - n.count / 2 - 1) + (1 + (n.count / 2 - 1))) := by
    unfold keyList
    congr 1
    omega
  rw [h1, h2r, h3, hsep, tabulate_add, tabulate_add]
  congr 1
  rw [tabulate_succ, tabulate_zero]
  simp only [List.nil_append, List.singleton_append]
  congr 1
  apply tabulate_congr
  intro j hj
  congr 1
  omega

/-- **C6 support:** both halves of an inner split have strictly increasing
logical keys, and the separator sits strictly between them. -/
theorem inner_split_sorted (n buffer : InnerNode) (hs : SortedLt n.keys (n.count - 1))
    (h2 : 2 ≤ n.count) :
    SortedLt (n.split buffer).1.keys ((n.split buffer).1.count - 1) ∧
    SortedLt (n.split buffer).2.1.keys ((n.split buffer).2.1.count - 1) ∧
    (∀ j, j < (n.split buffer).1.count - 1 → (n.split buffer).1.keys j < (n.split buffer).2.2) ∧
    (∀ j, j < (n.split buffer).2.1.count - 1 → (n.split buffer).2.2 < (n.split buffer).2.1.keys j) := by
  obtain ⟨hc1, _, hk1, _, hc2, _, hdesc, hsep⟩ := n.inner_split_desc buffer
  rw [hc1, hc2, hk1, hsep]
  refine ⟨?_, ?_, ?_, ?_⟩
  · intro j hj i hij
    exact hs.strictMono hij (by omega)
  · intro j hj i hij
    rw [(hdesc j (by omega)).1, (hdesc i (by omega)).1]
    exact hs.strictMono (by omega) (by omega)
  · intro j hj
    exact hs.strictMono (by omega) (by omega)
  · intro j hj
    rw [(hdesc j (by omega)).1]
    exact hs.strictMono (by omega) (by omega)

/-- **C6 support:** description of `InnerNode::insert_split`: keys from the
lower-bound position move one slot right, children from the position after
it move one slot right, and the new separator/child pair lands at
`keys[pos]` / `children[pos + 1]`. -/
theorem insert_split_desc (n : InnerNode) (key split_page : Nat) :
    (n.insert_split key split_page).count = n.count + 1 ∧
    (n.insert_split key split_page).level = n.level ∧
    (∀ j, j < (n.lower_bound key).1 → (n.insert_split key split_page).keys j = n.keys j) ∧
    (n.insert_split key split_page).keys (n.lower_bound key).1 = key ∧
    (∀ j, (n.lower_bound key).1 < j → j ≤ n.count - 1 →
      (n.insert_split key split_page).keys j = n.keys (j - 1)) ∧
    (∀ j, j ≤ (n.lower_bound key).1 → (n.insert_split key split_page).children j = n.children j) ∧
    (n.insert_split key split_page).children ((n.lower_bound key).1 + 1) = split_page ∧
    (∀ j, (n.lower_bound key).1 + 1 < j → j ≤ n.count →
      (n.insert_split key split_page).children j = n.children (j - 1)) := by
  unfold insert_split
  by_cases hg : (n.lower_bound key).1 + 1 < n.count
  · rw [if_pos hg]
    unfold aset shiftRight
    refine ⟨rfl, rfl, ?_, ?_, ?_, ?_, ?_, ?_⟩
    · intro j hj
      dsimp only
      rw [if_neg (by omega), if_neg (by omega)]
    · dsimp only
      rw [if_pos rfl]
    · intro j hj1 hj2
      dsimp only
      rw [if_neg (by omega), if_pos (by omega)]
    · intro j hj
      dsimp only
      rw [if_neg (by omega), if_neg (by omega)]
    · dsimp only
      rw [if_pos rfl]
    · intro j hj1 hj2
      dsimp only
      rw [if_neg (by omega), if_pos (by omega)]
  · rw [if_neg hg]
    unfold aset
    refine ⟨rfl, rfl, ?_, ?_, ?_, ?_, ?_, ?_⟩
    · intro j hj
      dsimp only
      rw [if_neg (by omega)]
    · dsimp only
      rw [if_pos rfl]
    · intro j hj1 hj2
      have := n.inner_lower_bound_le key
      omega
    · intro j hj
      dsimp only
      rw [if_neg (by omega)]
    · dsimp only
      rw [if_pos rfl]
    · intro j hj1 hj2
      omega

/-- **C6 support:** `InnerNode::insert_split` of an absent separator into a
node with strictly increasing logical keys yields strictly increasing
logical keys again. -/
theorem insert_split_sorted (n : InnerNode) (key split_page : Nat)
    (hs : SortedLt n.keys (n.count - 1))
    (habs : ∀ j, j < n.count - 1 → n.keys j ≠ key) :
    SortedLt (n.insert_split key split_page).keys
      ((n.insert_split key split_page).count - 1) := by
  obtain ⟨hc, _, hlo, hmid, hhi, _, _, _⟩ := n.insert_split_desc key split_page
  rw [hc]
  by_cases h0 : n.count = 0
  · intro j hj i hij
    unfold lower_bound at hlo hmid hhi
    omega
  · obtain ⟨-, hspec⟩ := n.inner_lower_bound_spec key hs.le
    obtain ⟨hb1, hb2, hb3, -⟩ := hspec (by omega)
    set pos := (n.lower_bound key).1 with hpos
    have hstrict : pos < n.count - 1 → key < n.keys pos := by
      intro hlt
      have := hb3 hlt
      have := habs pos hlt
      omega
    intro j hj i hij
    have hj' : j ≤ n.count - 1 := by omega
    rcases Nat.lt_trichotomy j pos with h | h | h
    · rw [hlo j h, hlo i (by omega)]
      exact hs.strictMono hij (by omega)
    · rw [h] at hij ⊢
      rw [hmid, hlo i hij]
      exact hb2 i hij
    · rw [hhi j h hj']
      have hj1 : j - 1 < n.count - 1 := by omega
      rcases Nat.lt_trichotomy i pos with h' | h' | h'
      · rw [hlo i h']
        exact hs.strictMono (by omega) hj1
      · rw [h'] at hij ⊢
        rw [hmid]
        have hposn : pos < n.count - 1 := by omega
        have := hstrict hposn
        rcases Nat.lt_or_ge pos (j - 1) with h'' | h''
        · exact Nat.lt_trans this (hs.strictMono h'' hj1)
        · have hje : j - 1 = pos := by omega
          rw [hje]
          exact hstrict hposn
      · rw [hhi i h' (by omega)]
        exact hs.strictMono (by omega) hj1

end InnerNode

/-! ## `buffer_manager.h` / `buffer_manager.cc`: sequential model

The buffer manager is concurrent; the model below is its sequential
(single-thread, interleaving-free) semantics: every latch acquisition that
would block is surfaced as `FixResult.blocked` instead of blocking, and
latches are otherwise tracked exactly (a `try_lock` on a
`std::shared_mutex` succeeds only when the latch is completely free).
`malloc` is modelled by a counter `nextAlloc`; `free(p)` releases the
allocation but — exactly as in the source — does not clear the frame's
`data` field.  Flushes are recorded in `flushed`. -/

inductive PageState
  | IN_FIFO
  | IN_LRU
  | NOT_LOADED
  | LOADING
deriving DecidableEq, Repr

inductive LatchState
  | free
  | shared (holders : Nat)
  | exclusive
deriving DecidableEq, Repr

/-- `shared_mutex::try_lock()` succeeds only when the latch is free. -/
def tryLockExclusive : LatchState → Option LatchState
  | .free => some .exclusive
  | _ => none

/-- `shared_mutex::lock_shared()` succeeds unless a writer holds the latch. -/
def lockShared : LatchState → Option LatchState
  | .free => some (.shared 1)
  | .shared n => some (.shared (n + 1))
  | .exclusive => none

/-- The source releases every page latch through `unlock()`; on the
underlying rwlock this releases whichever mode the caller holds. -/
def unlockLatch : LatchState → LatchState
  | .free => .free
  | .shared n => if n ≤ 1 then .free else .shared (n - 1)
  | .exclusive => .free

/-- `BufferFrame(pid)`: `pageState{NOT_LOADED}, isDirty{false}, data{nullptr}`. -/
structure BufferFrame where
  pid : Nat
  pageState : PageState
  pageLatch : LatchState
  isDirty : Bool
  data : Option Nat
deriving DecidableEq, Repr

def initFrame (pid : Nat) : BufferFrame :=
  { pid := pid, pageState := .NOT_LOADED, pageLatch := .free, isDirty := false, data := none }

structure BMState where
  pageCount : Nat
  pageTable : List Nat
  frames : Nat → BufferFrame
  fifoList : List Nat
  lruList : List Nat
  nextAlloc : Nat
  flushed : List Nat

/-- `BufferManager(page_size, page_count)`: empty page table and queues. -/
def initBM (pageCount : Nat) : BMState :=
  { pageCount := pageCount, pageTable := [], frames := initFrame,
    fifoList := [], lruList := [], nextAlloc := 0, flushed := [] }

def setFrame (s : BMState) (pid : Nat) (f : BufferFrame) : BMState :=
  { s with frames := fun q => if q = pid then f else s.frames q }

/-- `BufferManager::flushPage`: writes the page back and clears the dirty
bit.  The write itself is recorded in `flushed`. -/
def flushPage (s : BMState) (pid : Nat) : BMState :=
  setFrame { s with flushed := s.flushed ++ [pid] } pid
    { s.frames pid with isDirty := false }

/-- `BufferManager::lockEvictableFrame`: scan the list front-to-back for
the first frame whose `page_latch` can be `try_lock`ed; returns it and the
list with that entry removed (`frameList.erase(frameList.begin() + i)`). -/
def lockEvictableFrame (s : BMState) : List Nat → Option (Nat × List Nat)
  | [] => none
  | p :: rest =>
    if (s.frames p).pageLatch = .free then some (p, rest)
    else
      match lockEvictableFrame s rest with
      | some (v, rest') => some (v, p :: rest')
      | none => none

/-- The eviction tail of `insertBufferFrame`: flush when dirty, mark
`NOT_LOADED`, `free(bf->data)` (the pointer field is not cleared in the
source), release the victim's page latch. -/
def evictFrame (s : BMState) (victim : Nat) : BMState :=
  if (s.frames victim).isDirty then
    setFrame (flushPage s victim) victim
      { (flushPage s victim).frames victim with
        pageState := .NOT_LOADED
        pageLatch := unlockLatch ((flushPage s victim).frames victim).pageLatch }
  else
    setFrame s victim
      { s.frames victim with
        pageState := .NOT_LOADED
        pageLatch := unlockLatch (s.frames victim).pageLatch }

/-- `BufferManager::insertBufferFrame`: free slot → append to the FIFO
tail; otherwise evict the first try-lockable frame of the FIFO list, then
of the LRU list; `none` (C++ `false`) when no frame is evictable. -/
def insertBufferFrame (s : BMState) (pid : Nat) : Option BMState :=
  if s.fifoList.length + s.lruList.length < s.pageCount then
    some { s with fifoList := s.fifoList ++ [pid] }
  else
    match lockEvictableFrame s s.fifoList with
    | some (victim, rest) =>
        some (evictFrame
          { setFrame s victim { s.frames victim with pageLatch := .exclusive } with
            fifoList := rest ++ [pid] } victim)
    | none =>
      match lockEvictableFrame s s.lruList with
      | some (victim, rest) =>
          some (evictFrame
            { setFrame s victim { s.frames victim with pageLatch := .exclusive } with
              lruList := rest
              fifoList := s.fifoList ++ [pid] } victim)
      | none => none

/-- `BufferManager::loadPage`.  The `LOADING` re-check under the loading
latch throws `std::runtime_error` in the source and is unreachable
sequentially; the model only keeps the reachable branches.  On failure the
frame's state goes `NOT_LOADED → LOADING → NOT_LOADED`; the two writes are
collapsed into one. -/
def loadPage (s : BMState) (pid : Nat) : BMState × Bool :=
  if (s.frames pid).pageState = .IN_FIFO ∨ (s.frames pid).pageState = .IN_LRU then
    (s, true)
  else
    match insertBufferFrame (setFrame s pid { s.frames pid with pageState := .LOADING }) pid with
    | none => (setFrame s pid { s.frames pid with pageState := .NOT_LOADED }, false)
    | some s2 =>
        (setFrame { s2 with nextAlloc := s2.nextAlloc + 1 } pid
          { s2.frames pid with data := some s2.nextAlloc, pageState := .IN_FIFO }, true)

inductive FixResult
  | ok (s : BMState)
  | bufferFull (s : BMState)
  | blocked

/-- The state after a `fix_page` call: on `buffer_full_error` the mutations
made before the throw stay (the exception only unwinds the caller). -/
def FixResult.state : FixResult → BMState → BMState
  | .ok s', _ => s'
  | .bufferFull s', _ => s'
  | .blocked, s => s

def FixResult.isOk : FixResult → Bool
  | .ok _ => true
  | _ => false

def FixResult.isBufferFull : FixResult → Bool
  | .bufferFull _ => true
  | _ => false

/-- `BufferManager::getBufferFrame`: a page-table miss installs the freshly
constructed frame (`frames` already maps every pid to its constructor
state; the table records which frames exist). -/
def getBufferFrame (s : BMState) (pid : Nat) : BMState :=
  if pid ∈ s.pageTable then s else { s with pageTable := s.pageTable ++ [pid] }

/-- The body of `BufferManager::fix_page` after `getBufferFrame`: acquire
the page latch in the requested mode (`blocked` when the acquisition would
block), then dispatch on the frame's state (acquiring the latch does not
change `pageState`, so the state is read off the pre-acquisition frame). -/
def fix_page_latched (s0 : BMState) (pid : Nat) (exclusive : Bool) : FixResult :=
  match (if exclusive then tryLockExclusive (s0.frames pid).pageLatch
         else lockShared (s0.frames pid).pageLatch) with
  | none => .blocked
  | some lat =>
    match (s0.frames pid).pageState with
    | .IN_FIFO =>
        -- move from the FIFO list to the LRU list (the concurrent-promotion
        -- re-check cannot fire sequentially)
        .ok (setFrame
          { s0 with fifoList := s0.fifoList.erase pid, lruList := s0.lruList ++ [pid] }
          pid { s0.frames pid with pageLatch := lat, pageState := .IN_LRU })
    | .IN_LRU =>
        -- updateLru: move to the back of the LRU list
        .ok (setFrame { s0 with lruList := s0.lruList.erase pid ++ [pid] }
          pid { s0.frames pid with pageLatch := lat })
    | .NOT_LOADED =>
        match loadPage (setFrame s0 pid { s0.frames pid with pageLatch := lat }) pid with
        | (s2, true) => .ok s2
        | (s2, false) =>
            .bufferFull (setFrame s2 pid
              { s2.frames pid with pageLatch := unlockLatch (s2.frames pid).pageLatch })
    | .LOADING =>
        -- waiting on the loading latch cannot help sequentially: throw; the
        -- acquire-then-unlock pair restores the pre-call latch state
        .bufferFull (setFrame s0 pid
          { s0.frames pid with pageLatch := unlockLatch lat })

/-- `BufferManager::fix_page`. -/
def fix_page (s : BMState) (pid : Nat) (exclusive : Bool) : FixResult :=
  fix_page_latched (getBufferFrame s pid) pid exclusive

/-- `BufferManager::unfix_page`: sticky dirty bit, release the latch. -/
def unfix_page (s : BMState) (pid : Nat) (is_dirty : Bool) : BMState :=
  setFrame s pid
    { s.frames pid with
      isDirty := (s.frames pid).isDirty || is_dirty
      pageLatch := unlockLatch (s.frames pid).pageLatch }

/-- States reachable from a freshly constructed buffer manager by `fix_page`
and `unfix_page` calls (loading and eviction happen inside `fix_page`). -/
inductive BMReachable : BMState → Prop
  | init (pageCount : Nat) : BMReachable (initBM pageCount)
  | fix (s : BMState) (pid : Nat) (ex : Bool) :
      BMReachable s → BMReachable ((fix_page s pid ex).state s)
  | unfix (s : BMState) (pid : Nat) (d : Bool) :
      BMReachable s → BMReachable (unfix_page s pid d)

/-! ### Buffer-manager support lemmas -/

theorem setFrame_same (s : BMState) (pid : Nat) (f : BufferFrame) :
    (setFrame s pid f).frames pid = f := by
  simp [setFrame]

theorem setFrame_other (s : BMState) {pid q : Nat} (f : BufferFrame) (h : q ≠ pid) :
    (setFrame s pid f).frames q = s.frames q := by
  simp [setFrame, h]

theorem getBufferFrame_fields (s : BMState) (pid : Nat) :
    (getBufferFrame s pid).frames = s.frames ∧
    (getBufferFrame s pid).fifoList = s.fifoList ∧
    (getBufferFrame s pid).lruList = s.lruList ∧
    (getBufferFrame s pid).pageCount = s.pageCount ∧
    (getBufferFrame s pid).flushed = s.flushed ∧
    (getBufferFrame s pid).nextAlloc = s.nextAlloc := by
  unfold getBufferFrame
  split
  · exact ⟨rfl, rfl, rfl, rfl, rfl, rfl⟩
  · exact ⟨rfl, rfl, rfl, rfl, rfl, rfl⟩

theorem acquire_free (ex : Bool) :
    (if ex then tryLockExclusive .free else lockShared .free) =
      some (if ex then .exclusive else .shared 1) := by
  cases ex <;> rfl

theorem lockEvictableFrame_none_iff (s : BMState) (L : List Nat) :
    lockEvictableFrame s L = none ↔ ∀ q ∈ L, (s.frames q).pageLatch ≠ .free := by
  induction L with
  | nil => simp [lockEvictableFrame]
  | cons p rest ih =>
    by_cases hp : (s.frames p).pageLatch = .free
    · constructor
      · intro h
        rw [lockEvictableFrame, if_pos hp] at h
        simp at h
      · intro h
        exact absurd hp (h p (List.mem_cons_self p rest))
    · rw [lockEvictableFrame, if_neg hp]
      cases hrec : lockEvictableFrame s rest with
      | some vr =>
        simp only [hrec]
        constructor
        · intro h
          simp at h
        · intro h
          have := ih.mpr (fun q hq => h q (List.mem_cons_of_mem _ hq))
          rw [hrec] at this
          simp at this
      | none =>
        simp only [hrec]
        constructor
        · intro _ q hq
          rcases List.mem_cons.mp hq with rfl | hq'
          · exact hp
          · exact (ih.mp hrec) q hq'
        · intro _
          trivial

theorem lockEvictableFrame_of_decomp (s : BMState) (l1 l2 : List Nat) (v : Nat)
    (h1 : ∀ q ∈ l1, (s.frames q).pageLatch ≠ .free)
    (hv : (s.frames v).pageLatch = .free) :
    lockEvictableFrame s (l1 ++ v :: l2) = some (v, l1 ++ l2) := by
  induction l1 with
  | nil =>
    simp only [List.nil_append]
    rw [lockEvictableFrame, if_pos hv]
  | cons p l1 ih =>
    have hp := h1 p (List.mem_cons_self p l1)
    rw [List.cons_append, lockEvictableFrame, if_neg hp,
      ih (fun q hq => h1 q (List.mem_cons_of_mem _ hq))]
    rfl

theorem lockEvictableFrame_congr {s s' : BMState} (L : List Nat)
    (h : ∀ q ∈ L, (s'.frames q).pageLatch = (s.frames q).pageLatch) :
    lockEvictableFrame s' L = lockEvictableFrame s L := by
  induction L with
  | nil => rfl
  | cons p rest ih =>
    rw [lockEvictableFrame, lockEvictableFrame,
      h p (List.mem_cons_self p rest),
      ih (fun q hq => h q (List.mem_cons_of_mem _ hq))]

theorem flushPage_desc (s : BMState) (pid : Nat) :
    (flushPage s pid).frames pid = { s.frames pid with isDirty := false } ∧
    (∀ q, q ≠ pid → (flushPage s pid).frames q = s.frames q) ∧
    (flushPage s pid).fifoList = s.fifoList ∧
    (flushPage s pid).lruList = s.lruList ∧
    (flushPage s pid).pageCount = s.pageCount ∧
    (flushPage s pid).nextAlloc = s.nextAlloc ∧
    (flushPage s pid).flushed = s.flushed ++ [pid] := by
  refine ⟨?_, ?_, rfl, rfl, rfl, rfl, rfl⟩
  · exact setFrame_same _ _ _
  · intro q hq
    exact setFrame_other _ _ hq

theorem evictFrame_desc (s : BMState) (victim : Nat) :
    ((evictFrame s victim).frames victim).pageState = .NOT_LOADED ∧
    ((evictFrame s victim).frames victim).pageLatch =
      unlockLatch (s.frames victim).pageLatch ∧
    ((evictFrame s victim).frames victim).isDirty = false ∧
    ((evictFrame s victim).frames victim).data = (s.frames victim).data ∧
    (∀ q, q ≠ victim → (evictFrame s victim).frames q = s.frames q) ∧
    (evictFrame s victim).fifoList = s.fifoList ∧
    (evictFrame s victim).lruList = s.lruList ∧
    (evictFrame s victim).pageCount = s.pageCount ∧
    (evictFrame s victim).nextAlloc = s.nextAlloc ∧
    (evictFrame s victim).flushed =
      (if (s.frames victim).isDirty then s.flushed ++ [victim] else s.flushed) := by
  obtain ⟨hf1, hf2, hf3, hf4, hf5, hf6, hf7⟩ := flushPage_desc s victim
  unfold evictFrame
  by_cases hd : (s.frames victim).isDirty
  · rw [if_pos hd, if_pos hd]
    rw [hf1]
    refine ⟨?_, ?_, ?_, ?_, ?_, ?_, ?_, ?_, ?_, ?_⟩
    · rw [setFrame_same]
    · rw [setFrame_same]
    · rw [setFrame_same]
    · rw [setFrame_same]
    · intro q hq
      rw [setFrame_other _ _ hq, hf2 q hq]
    · exact hf3
    · exact hf4
    · exact hf5
    · exact hf6
    · exact hf7
  · rw [if_neg hd, if_neg hd]
    refine ⟨?_, ?_, ?_, ?_, ?_, rfl, rfl, rfl, rfl, rfl⟩
    · rw [setFrame_same]
    · rw [setFrame_same]
    · rw [setFrame_same]
      simp only [Bool.not_eq_true] at hd
      exact hd
    · rw [setFrame_same]
    · intro q hq
      rw [setFrame_other _ _ hq]

theorem insertBufferFrame_free (s : BMState) (pid : Nat)
    (h : s.fifoList.length + s.lruList.length < s.pageCount) :
    insertBufferFrame s pid = some { s with fifoList := s.fifoList ++ [pid] } := by
  unfold insertBufferFrame
  rw [if_pos h]

theorem insertBufferFrame_evict_fifo (s : BMState) (pid v : Nat) (rest : List Nat)
    (h : ¬ s.fifoList.length + s.lruList.length < s.pageCount)
    (hl : lockEvictableFrame s s.fifoList = some (v, rest)) :
    insertBufferFrame s pid =
      some (evictFrame
        { setFrame s v { s.frames v with pageLatch := .exclusive } with
          fifoList := rest ++ [pid] } v) := by
  unfold insertBufferFrame
  rw [if_neg h, hl]

theorem insertBufferFrame_evict_lru (s : BMState) (pid v : Nat) (rest : List Nat)
    (h : ¬ s.fifoList.length + s.lruList.length < s.pageCount)
    (hf : lockEvictableFrame s s.fifoList = none)
    (hl : lockEvictableFrame s s.lruList = some (v, rest)) :
    insertBufferFrame s pid =
      some (evictFrame
        { setFrame s v { s.frames v with pageLatch := .exclusive } with
          lruList := rest
          fifoList := s.fifoList ++ [pid] } v) := by
  unfold insertBufferFrame
  rw [if_neg h, hf, hl]

theorem insertBufferFrame_none (s : BMState) (pid : Nat)
    (h : ¬ s.fifoList.length + s.lruList.length < s.pageCount)
    (hf : lockEvictableFrame s s.fifoList = none)
    (hl : lockEvictableFrame s s.lruList = none) :
    insertBufferFrame s pid = none := by
  unfold insertBufferFrame
  rw [if_neg h, hf, hl]

theorem loadPage_not_resident (s : BMState) (pid : Nat)
    (h : ¬ ((s.frames pid).pageState = .IN_FIFO ∨ (s.frames pid).pageState = .IN_LRU)) :
    loadPage s pid =
      match insertBufferFrame (setFrame s pid { s.frames pid with pageState := .LOADING }) pid with
      | none => (setFrame s pid { s.frames pid with pageState := .NOT_LOADED }, false)
      | some s2 =>
          (setFrame { s2 with nextAlloc := s2.nextAlloc + 1 } pid
            { s2.frames pid with data := some s2.nextAlloc, pageState := .IN_FIFO }, true) := by
  unfold loadPage
  rw [if_neg h]

theorem fix_latched_not_loaded (s0 : BMState) (pid : Nat) (ex : Bool) (lat : LatchState)
    (hacq : (if ex then tryLockExclusive (s0.frames pid).pageLatch
             else lockShared (s0.frames pid).pageLatch) = some lat)
    (hstate : (s0.frames pid).pageState = .NOT_LOADED) :
    fix_page_latched s0 pid ex =
      match loadPage (setFrame s0 pid { s0.frames pid with pageLatch := lat }) pid with
      | (s2, true) => .ok s2
      | (s2, false) =>
          .bufferFull (setFrame s2 pid
            { s2.frames pid with pageLatch := unlockLatch (s2.frames pid).pageLatch }) := by
  unfold fix_page_latched
  rw [hacq, hstate]

theorem unlockLatch_acquired (ex : Bool) :
    unlockLatch (if ex then LatchState.exclusive else LatchState.shared 1) = .free := by
  cases ex <;> rfl

/-- `fix_page_latched` on a non-resident frame with a free slot: the page
is appended to the FIFO tail and loaded; nothing is evicted and nothing is
flushed. -/
theorem fix_latched_free_slot (s : BMState) (pid : Nat) (ex : Bool)
    (hstate : (s.frames pid).pageState = .NOT_LOADED)
    (hlatch : (s.frames pid).pageLatch = .free)
    (hsize : s.fifoList.length + s.lruList.length < s.pageCount) :
    ∃ s', fix_page_latched s pid ex = .ok s' ∧
      s'.fifoList = s.fifoList ++ [pid] ∧
      s'.lruList = s.lruList ∧
      s'.flushed = s.flushed ∧
      (s'.frames pid).pageState = .IN_FIFO ∧
      (s'.frames pid).data = some s.nextAlloc ∧
      (∀ q, q ≠ pid → s'.frames q = s.frames q) := by
  have hacq : (if ex then tryLockExclusive (s.frames pid).pageLatch
               else lockShared (s.frames pid).pageLatch) =
      some (if ex then .exclusive else .shared 1) := by
    rw [hlatch]
    exact acquire_free ex
  rw [fix_latched_not_loaded s pid ex _ hacq hstate]
  set sA := setFrame s pid
    { s.frames pid with pageLatch := if ex then .exclusive else .shared 1 } with hsA
  have hstateA : ¬ ((sA.frames pid).pageState = .IN_FIFO ∨
      (sA.frames pid).pageState = .IN_LRU) := by
    rw [hsA, setFrame_same]
    show ¬ ((s.frames pid).pageState = .IN_FIFO ∨ (s.frames pid).pageState = .IN_LRU)
    rw [hstate]
    simp
  rw [loadPage_not_resident sA pid hstateA]
  set sB := setFrame sA pid { sA.frames pid with pageState := .LOADING } with hsB
  have hsizeB : sB.fifoList.length + sB.lruList.length < sB.pageCount := hsize
  rw [insertBufferFrame_free sB pid hsizeB]
  refine ⟨_, rfl, rfl, rfl, rfl, ?_, ?_, ?_⟩
  · rw [setFrame_same]
  · rw [setFrame_same]
    rfl
  · intro q hq
    rw [setFrame_other _ _ hq, hsB, setFrame_other _ _ hq, hsA, setFrame_other _ _ hq]

/-- `fix_page_latched` on a non-resident frame when the queues are full and
every queued frame's latch is held: `buffer_full_error` is thrown, the
page latch is released and the frame is back to `NOT_LOADED`; nothing else
changes. -/
theorem fix_latched_throws (s : BMState) (pid : Nat) (ex : Bool)
    (hstate : (s.frames pid).pageState = .NOT_LOADED)
    (hlatch : (s.frames pid).pageLatch = .free)
    (hfifo : pid ∉ s.fifoList) (hlru : pid ∉ s.lruList)
    (hfull : ¬ s.fifoList.length + s.lruList.length < s.pageCount)
    (hall : ∀ q ∈ s.fifoList ++ s.lruList, (s.frames q).pageLatch ≠ .free) :
    ∃ s', fix_page_latched s pid ex = .bufferFull s' ∧
      (s'.frames pid).pageState = .NOT_LOADED ∧
      (s'.frames pid).pageLatch = .free ∧
      (∀ q, q ≠ pid → s'.frames q = s.frames q) ∧
      s'.fifoList = s.fifoList ∧ s'.lruList = s.lruList ∧ s'.flushed = s.flushed := by
  have hacq : (if ex then tryLockExclusive (s.frames pid).pageLatch
               else lockShared (s.frames pid).pageLatch) =
      some (if ex then .exclusive else .shared 1) := by
    rw [hlatch]
    exact acquire_free ex
  rw [fix_latched_not_loaded s pid ex _ hacq hstate]
  set sA := setFrame s pid
    { s.frames pid with pageLatch := if ex then .exclusive else .shared 1 } with hsA
  have hstateA : ¬ ((sA.frames pid).pageState = .IN_FIFO ∨
      (sA.frames pid).pageState = .IN_LRU) := by
    rw [hsA, setFrame_same]
    show ¬ ((s.frames pid).pageState = .IN_FIFO ∨ (s.frames pid).pageState = .IN_LRU)
    rw [hstate]
    simp
  rw [loadPage_not_resident sA pid hstateA]
  set sB := setFrame sA pid { sA.frames pid with pageState := .LOADING } with hsB
  have hfullB : ¬ sB.fifoList.length + sB.lruList.length < sB.pageCount := hfull
  have hframesB : ∀ q, q ≠ pid → sB.frames q = s.frames q := by
    intro q hq
    rw [hsB, setFrame_other _ _ hq, hsA, setFrame_other _ _ hq]
  have hcongrF : lockEvictableFrame sB s.fifoList = lockEvictableFrame s s.fifoList := by
    apply lockEvictableFrame_congr
    intro q hq
    rw [hframesB q (fun he => hfifo (he ▸ hq))]
  have hcongrL : lockEvictableFrame sB s.lruList = lockEvictableFrame s s.lruList := by
    apply lockEvictableFrame_congr
    intro q hq
    rw [hframesB q (fun he => hlru (he ▸ hq))]
  have hfifoN : lockEvictableFrame sB sB.fifoList = none := by
    show lockEvictableFrame sB s.fifoList = none
    rw [hcongrF]
    exact (lockEvictableFrame_none_iff s _).mpr
      (fun q hq => hall q (List.mem_append_left _ hq))
  have hlruN : lockEvictableFrame sB sB.lruList = none := by
    show lockEvictableFrame sB s.lruList = none
    rw [hcongrL]
    exact (lockEvictableFrame_none_iff s _).mpr
      (fun q hq => hall q (List.mem_append_right _ hq))
  rw [insertBufferFrame_none sB pid hfullB hfifoN hlruN]
  refine ⟨_, rfl, ?_, ?_, ?_, rfl, rfl, rfl⟩
  · rw [setFrame_same]
    show ((setFrame sA pid { sA.frames pid with pageState := .NOT_LOADED }).frames pid).pageState
      = .NOT_LOADED
    rw [setFrame_same]
  · rw [setFrame_same]
    show unlockLatch ((setFrame sA pid
        { sA.frames pid with pageState := .NOT_LOADED }).frames pid).pageLatch = .free
    rw [setFrame_same]
    show unlockLatch (sA.frames pid).pageLatch = .free
    rw [hsA, setFrame_same]
    exact unlockLatch_acquired ex
  · intro q hq
    rw [setFrame_other _ _ hq, setFrame_other _ _ hq, hsA, setFrame_other _ _ hq]

/-- `fix_page_latched` on a non-resident frame with full queues when the
FIFO list holds an evictable frame: the first try-lockable FIFO frame is
evicted (flushed first when dirty) and the fix succeeds. -/
theorem fix_latched_evict_fifo (s : BMState) (pid : Nat) (ex : Bool)
    (hstate : (s.frames pid).pageState = .NOT_LOADED)
    (hlatch : (s.frames pid).pageLatch = .free)
    (hfifo : pid ∉ s.fifoList)
    (hfull : ¬ s.fifoList.length + s.lruList.length < s.pageCount)
    (l1 : List Nat) (v : Nat) (l2 : List Nat) (hdec : s.fifoList = l1 ++ v :: l2)
    (h1 : ∀ q ∈ l1, (s.frames q).pageLatch ≠ .free)
    (hv : (s.frames v).pageLatch = .free) :
    ∃ s', fix_page_latched s pid ex = .ok s' ∧
      (s'.frames v).pageState = .NOT_LOADED ∧
      (s'.frames v).pageLatch = .free ∧
      (s'.frames v).isDirty = false ∧
      (s'.frames v).data = (s.frames v).data ∧
      (s'.frames pid).pageState = .IN_FIFO ∧
      (s'.frames pid).data = some s.nextAlloc ∧
      (∀ q, q ≠ pid → q ≠ v → s'.frames q = s.frames q) ∧
      s'.fifoList = (l1 ++ l2) ++ [pid] ∧
      s'.lruList = s.lruList ∧
      s'.flushed = (if (s.frames v).isDirty then s.flushed ++ [v] else s.flushed) := by
  have hvpid : v ≠ pid := by
    intro he
    exact hfifo (he ▸ (hdec ▸ List.mem_append_right l1 (List.mem_cons_self v l2)))
  have hacq : (if ex then tryLockExclusive (s.frames pid).pageLatch
               else lockShared (s.frames pid).pageLatch) =
      some (if ex then .exclusive else .shared 1) := by
    rw [hlatch]
    exact acquire_free ex
  rw [fix_latched_not_loaded s pid ex _ hacq hstate]
  set sA := setFrame s pid
    { s.frames pid with pageLatch := if ex then .exclusive else .shared 1 } with hsA
  have hstateA : ¬ ((sA.frames pid).pageState = .IN_FIFO ∨
      (sA.frames pid).pageState = .IN_LRU) := by
    rw [hsA, setFrame_same]
    show ¬ ((s.frames pid).pageState = .IN_FIFO ∨ (s.frames pid).pageState = .IN_LRU)
    rw [hstate]
    simp
  rw [loadPage_not_resident sA pid hstateA]
  set sB := setFrame sA pid { sA.frames pid with pageState := .LOADING } with hsB
  have hfullB : ¬ sB.fifoList.length + sB.lruList.length < sB.pageCount := hfull
  have hframesB : ∀ q, q ≠ pid → sB.frames q = s.frames q := by
    intro q hq
    rw [hsB, setFrame_other _ _ hq, hsA, setFrame_other _ _ hq]
  have hscan : lockEvictableFrame sB sB.fifoList = some (v, l1 ++ l2) := by
    show lockEvictableFrame sB s.fifoList = some (v, l1 ++ l2)
    have hcongrF : lockEvictableFrame sB s.fifoList = lockEvictableFrame s s.fifoList := by
      apply lockEvictableFrame_congr
      intro q hq
      rw [hframesB q (fun he => hfifo (he ▸ hq))]
    rw [hcongrF, hdec]
    exact lockEvictableFrame_of_decomp s l1 l2 v h1 hv
  rw [insertBufferFrame_evict_fifo sB pid v (l1 ++ l2) hfullB hscan]
  set sC : BMState :=
    { setFrame sB v { sB.frames v with pageLatch := .exclusive } with
      fifoList := (l1 ++ l2) ++ [pid] } with hsC
  obtain ⟨he1, he2, he3, he4, he5, he6, he7, he8, he9, he10⟩ := evictFrame_desc sC v
  have hCv : sC.frames v = { sB.frames v with pageLatch := .exclusive } := by
    rw [hsC]
    exact setFrame_same _ _ _
  have hBv : sB.frames v = s.frames v := hframesB v hvpid
  refine ⟨_, rfl, ?_, ?_, ?_, ?_, ?_, ?_, ?_, ?_, ?_, ?_⟩
  · rw [setFrame_other _ _ hvpid]
    exact he1
  · rw [setFrame_other _ _ hvpid, he2, hCv, hBv]
    rfl
  · rw [setFrame_other _ _ hvpid]
    exact he3
  · rw [setFrame_other _ _ hvpid, he4, hCv]
    show (sB.frames v).data = (s.frames v).data
    rw [hBv]
  · rw [setFrame_same]
  · rw [setFrame_same]
    show some (evictFrame sC v).nextAlloc = some s.nextAlloc
    rw [he9]
    rfl
  · intro q hqpid hqv
    rw [setFrame_other _ _ hqpid, he5 q hqv]
    show (setFrame sB v { sB.frames v with pageLatch := .exclusive }).frames q = s.frames q
    rw [setFrame_other _ _ hqv]
    exact hframesB q hqpid
  · show (evictFrame sC v).fifoList = (l1 ++ l2) ++ [pid]
    rw [he6]
  · show (evictFrame sC v).lruList = s.lruList
    rw [he7]
    rfl
  · show (evictFrame sC v).flushed = _
    rw [he10]
    have hdirty : (sC.frames v).isDirty = (s.frames v).isDirty := by
      rw [hCv, hBv]
    rw [hdirty]
    show (if (s.frames v).isDirty then s.flushed ++ [v] else s.flushed) = _
    rfl

/-- `fix_page_latched` on a non-resident frame with full queues when no
FIFO frame is evictable but an LRU frame is: the first try-lockable LRU
frame is evicted (flushed first when dirty) and the fix succeeds. -/
theorem fix_latched_evict_lru (s : BMState) (pid : Nat) (ex : Bool)
    (hstate : (s.frames pid).pageState = .NOT_LOADED)
    (hlatch : (s.frames pid).pageLatch = .free)
    (hfifo : pid ∉ s.fifoList) (hlru : pid ∉ s.lruList)
    (hfull : ¬ s.fifoList.length + s.lruList.length < s.pageCount)
    (hfifoAll : ∀ q ∈ s.fifoList, (s.frames q).pageLatch ≠ .free)
    (l1 : List Nat) (v : Nat) (l2 : List Nat) (hdec : s.lruList = l1 ++ v :: l2)
    (h1 : ∀ q ∈ l1, (s.frames q).pageLatch ≠ .free)
    (hv : (s.frames v).pageLatch = .free) :
    ∃ s', fix_page_latched s pid ex = .ok s' ∧
      (s'.frames v).pageState = .NOT_LOADED ∧
      (s'.frames v).pageLatch = .free ∧
      (s'.frames v).isDirty = false ∧
      (s'.frames v).data = (s.frames v).data ∧
      (s'.frames pid).pageState = .IN_FIFO ∧
      (s'.frames pid).data = some s.nextAlloc ∧
      (∀ q, q ≠ pid → q ≠ v → s'.frames q = s.frames q) ∧
      s'.fifoList = s.fifoList ++ [pid] ∧
      s'.lruList = l1 ++ l2 ∧
      s'.flushed = (if (s.frames v).isDirty then s.flushed ++ [v] else s.flushed) := by
  have hvpid : v ≠ pid := by
    intro he
    exact hlru (he ▸ (hdec ▸ List.mem_append_right l1 (List.mem_cons_self v l2)))
  have hacq : (if ex then tryLockExclusive (s.frames pid).pageLatch
               else lockShared (s.frames pid).pageLatch) =
      some (if ex then .exclusive else .shared 1) := by
    rw [hlatch]
    exact acquire_free ex
  rw [fix_latched_not_loaded s pid ex _ hacq hstate]
  set sA := setFrame s pid
    { s.frames pid with pageLatch := if ex then .exclusive else .shared 1 } with hsA
  have hstateA : ¬ ((sA.frames pid).pageState = .IN_FIFO ∨
      (sA.frames pid).pageState = .IN_LRU) := by
    rw [hsA, setFrame_same]
    show ¬ ((s.frames pid).pageState = .IN_FIFO ∨ (s.frames pid).pageState = .IN_LRU)
    rw [hstate]
    simp
  rw [loadPage_not_resident sA pid hstateA]
  set sB := setFrame sA pid { sA.frames pid with pageState := .LOADING } with hsB
  have hfullB : ¬ sB.fifoList.length + sB.lruList.length < sB.pageCount := hfull
  have hframesB : ∀ q, q ≠ pid → sB.frames q = s.frames q := by
    intro q hq
    rw [hsB, setFrame_other _ _ hq, hsA, setFrame_other _ _ hq]
  have hfifoN : lockEvictableFrame sB sB.fifoList = none := by
    show lockEvictableFrame sB s.fifoList = none
    have hcongrF : lockEvictableFrame sB s.fifoList = lockEvictableFrame s s.fifoList := by
      apply lockEvictableFrame_congr
      intro q hq
      rw [hframesB q (fun he => hfifo (he ▸ hq))]
    rw [hcongrF]
    exact (lockEvictableFrame_none_iff s _).mpr hfifoAll
  have hscan : lockEvictableFrame sB sB.lruList = some (v, l1 ++ l2) := by
    show lockEvictableFrame sB s.lruList = some (v, l1 ++ l2)
    have hcongrL : lockEvictableFrame sB s.lruList = lockEvictableFrame s s.lruList := by
      apply lockEvictableFrame_congr
      intro q hq
      rw [hframesB q (fun he => hlru (he ▸ hq))]
    rw [hcongrL, hdec]
    exact lockEvictableFrame_of_decomp s l1 l2 v h1 hv
  rw [insertBufferFrame_evict_lru sB pid v (l1 ++ l2) hfullB hfifoN hscan]
  set sC : BMState :=
    { setFrame sB v { sB.frames v with pageLatch := .exclusive } with
      lruList := l1 ++ l2
      fifoList := sB.fifoList ++ [pid] } with hsC
  obtain ⟨he1, he2, he3, he4, he5, he6, he7, he8, he9, he10⟩ := evictFrame_desc sC v
  have hCv : sC.frames v = { sB.frames v with pageLatch := .exclusive } := by
    rw [hsC]
    exact setFrame_same _ _ _
  have hBv : sB.frames v = s.frames v := hframesB v hvpid
  refine ⟨_, rfl, ?_, ?_, ?_, ?_, ?_, ?_, ?_, ?_, ?_, ?_⟩
  · rw [setFrame_other _ _ hvpid]
    exact he1
  · rw [setFrame_other _ _ hvpid, he2, hCv, hBv]
    rfl
  · rw [setFrame_other _ _ hvpid]
    exact he3
  · rw [setFrame_other _ _ hvpid, he4, hCv]
    show (sB.frames v).data = (s.frames v).data
    rw [hBv]
  · rw [setFrame_same]
  · rw [setFrame_same]
    show some (evictFrame sC v).nextAlloc = some s.nextAlloc
    rw [he9]
    rfl
  · intro q hqpid hqv
    rw [setFrame_other _ _ hqpid, he5 q hqv]
    show (setFrame sB v { sB.frames v with pageLatch := .exclusive }).frames q = s.frames q
    rw [setFrame_other _ _ hqv]
    exact hframesB q hqpid
  · show (evictFrame sC v).fifoList = s.fifoList ++ [pid]
    rw [he6]
    rfl
  · show (evictFrame sC v).lruList = l1 ++ l2
    rw [he7]
  · show (evictFrame sC v).flushed = _
    rw [he10]
    have hdirty : (sC.frames v).isDirty = (s.frames v).isDirty := by
      rw [hCv, hBv]
    rw [hdirty]
    show (if (s.frames v).isDirty then s.flushed ++ [v] else s.flushed) = _
    rfl

theorem lockEvictableFrame_some_decomp (s : BMState) :
    ∀ (L : List Nat) {v : Nat} {rest : List Nat},
      lockEvictableFrame s L = some (v, rest) →
      ∃ l1 l2, L = l1 ++ v :: l2 ∧ rest = l1 ++ l2 ∧
        (∀ q ∈ l1, (s.frames q).pageLatch ≠ .free) ∧ (s.frames v).pageLatch = .free := by
  intro L
  induction L with
  | nil => intro v rest h; simp [lockEvictableFrame] at h
  | cons p ps ih =>
    intro v rest h
    by_cases hp : (s.frames p).pageLatch = .free
    · rw [lockEvictableFrame, if_pos hp] at h
      simp only [Option.some.injEq, Prod.mk.injEq] at h
      obtain ⟨rfl, rfl⟩ := h
      exact ⟨[], ps, rfl, rfl, by simp, hp⟩
    · rw [lockEvictableFrame, if_neg hp] at h
      cases hrec : lockEvictableFrame s ps with
      | some vr =>
        obtain ⟨v2, rest2⟩ := vr
        rw [hrec] at h
        simp only [Option.some.injEq, Prod.mk.injEq] at h
        obtain ⟨rfl, rfl⟩ := h
        obtain ⟨l1, l2, hL, hrest, hl1, hv⟩ := ih hrec
        refine ⟨p :: l1, l2, by rw [hL]; rfl, by rw [hrest]; rfl, ?_, hv⟩
        intro q hq
        rcases List.mem_cons.mp hq with rfl | hq'
        · exact hp
        · exact hl1 q hq'
      | none =>
        rw [hrec] at h
        simp at h

/-! ### The queue/state – data invariant (C8) -/

/-- The C8 invariant, in the direction the code actually maintains: a
frame whose state is `IN_FIFO` or `IN_LRU` has a non-null `data` pointer. -/
def QueueDataInv (s : BMState) : Prop :=
  ∀ p, ((s.frames p).pageState = .IN_FIFO ∨ (s.frames p).pageState = .IN_LRU) →
    (s.frames p).data.isSome = true

theorem insertBufferFrame_frames (s : BMState) (pid : Nat) {s' : BMState}
    (h : insertBufferFrame s pid = some s') :
    ∀ q, s'.frames q = s.frames q ∨
      ((s'.frames q).pageState = .NOT_LOADED ∧ (s'.frames q).data = (s.frames q).data) := by
  unfold insertBufferFrame at h
  by_cases hsize : s.fifoList.length + s.lruList.length < s.pageCount
  · rw [if_pos hsize] at h
    obtain rfl := Option.some.inj h
    intro q
    exact Or.inl rfl
  · rw [if_neg hsize] at h
    cases hf : lockEvictableFrame s s.fifoList with
    | some vr =>
      obtain ⟨v, rest⟩ := vr
      rw [hf] at h
      simp only at h
      obtain rfl := Option.some.inj h
      intro q
      set sC : BMState :=
        { setFrame s v { s.frames v with pageLatch := .exclusive } with
          fifoList := rest ++ [pid] } with hsC
      obtain ⟨he1, he2, he3, he4, he5, he6, he7, he8, he9, he10⟩ := evictFrame_desc sC v
      by_cases hq : q = v
      · subst hq
        have hCv : sC.frames q = { s.frames q with pageLatch := .exclusive } := by
          rw [hsC]
          exact setFrame_same _ _ _
        refine Or.inr ⟨he1, ?_⟩
        rw [he4, hCv]
      · left
        rw [he5 q hq]
        show (setFrame s v { s.frames v with pageLatch := .exclusive }).frames q = s.frames q
        rw [setFrame_other _ _ hq]
    | none =>
      rw [hf] at h
      cases hl : lockEvictableFrame s s.lruList with
      | some vr =>
        obtain ⟨v, rest⟩ := vr
        rw [hl] at h
        simp only at h
        obtain rfl := Option.some.inj h
        intro q
        set sC : BMState :=
          { setFrame s v { s.frames v with pageLatch := .exclusive } with
            lruList := rest
            fifoList := s.fifoList ++ [pid] } with hsC
        obtain ⟨he1, he2, he3, he4, he5, he6, he7, he8, he9, he10⟩ := evictFrame_desc sC v
        by_cases hq : q = v
        · subst hq
          have hCv : sC.frames q = { s.frames q with pageLatch := .exclusive } := by
            rw [hsC]
            exact setFrame_same _ _ _
          refine Or.inr ⟨he1, ?_⟩
          rw [he4, hCv]
        · left
          rw [he5 q hq]
          show (setFrame s v { s.frames v with pageLatch := .exclusive }).frames q = s.frames q
          rw [setFrame_other _ _ hq]
      | none =>
        rw [hl] at h
        simp at h

theorem loadPage_inv (s : BMState) (pid : Nat) (hinv : QueueDataInv s) :
    QueueDataInv (loadPage s pid).1 := by
  unfold loadPage
  by_cases hres : (s.frames pid).pageState = .IN_FIFO ∨ (s.frames pid).pageState = .IN_LRU
  · rw [if_pos hres]
    exact hinv
  · rw [if_neg hres]
    set sB := setFrame s pid { s.frames pid with pageState := .LOADING } with hsB
    have hinvB : QueueDataInv sB := by
      intro p hp
      by_cases hppid : p = pid
      · subst hppid
        rw [hsB, setFrame_same] at hp
        simp at hp
      · rw [hsB, setFrame_other _ _ hppid] at hp ⊢
        exact hinv p hp
    cases hins : insertBufferFrame sB pid with
    | none =>
      simp only [hins]
      intro p hp
      by_cases hppid : p = pid
      · subst hppid
        rw [setFrame_same] at hp
        simp at hp
      · rw [setFrame_other _ _ hppid] at hp ⊢
        exact hinv p hp
    | some s2 =>
      simp only [hins]
      intro p hp
      by_cases hppid : p = pid
      · subst hppid
        rw [setFrame_same]
        rfl
      · rw [setFrame_other _ _ hppid] at hp ⊢
        rcases insertBufferFrame_frames sB pid hins p with he | ⟨hst, _⟩
        · show (s2.frames p).data.isSome = true
          rw [he]
          apply hinvB p
          show (sB.frames p).pageState = .IN_FIFO ∨ (sB.frames p).pageState = .IN_LRU
          rw [← he]
          exact hp
        · show (s2.frames p).data.isSome = true
          have hp' : (s2.frames p).pageState = .IN_FIFO ∨ (s2.frames p).pageState = .IN_LRU := hp
          rw [hst] at hp'
          simp at hp'

theorem fix_page_inv (s : BMState) (pid : Nat) (ex : Bool) (hinv : QueueDataInv s) :
    QueueDataInv ((fix_page s pid ex).state s) := by
  unfold fix_page
  set s0 := getBufferFrame s pid with hs0
  have hframes0 : s0.frames = s.frames := (getBufferFrame_fields s pid).1
  have hinv0 : QueueDataInv s0 := by
    intro p hp
    rw [hframes0] at hp ⊢
    exact hinv p hp
  unfold fix_page_latched
  cases hacq : (if ex then tryLockExclusive (s0.frames pid).pageLatch
               else lockShared (s0.frames pid).pageLatch) with
  | none =>
    simp only [FixResult.state]
    exact hinv
  | some lat =>
    cases hps : (s0.frames pid).pageState with
    | IN_FIFO =>
      simp only [FixResult.state]
      intro p hp
      by_cases hppid : p = pid
      · subst hppid
        rw [setFrame_same] at hp ⊢
        exact hinv0 p (Or.inl hps)
      · rw [setFrame_other _ _ hppid] at hp ⊢
        exact hinv0 p hp
    | IN_LRU =>
      simp only [FixResult.state]
      intro p hp
      by_cases hppid : p = pid
      · subst hppid
        rw [setFrame_same] at hp ⊢
        exact hinv0 p (Or.inr hps)
      · rw [setFrame_other _ _ hppid] at hp ⊢
        exact hinv0 p hp
    | NOT_LOADED =>
      have hinvA : QueueDataInv (setFrame s0 pid { s0.frames pid with pageLatch := lat }) := by
        intro p hp
        by_cases hppid : p = pid
        · subst hppid
          rw [setFrame_same] at hp ⊢
          exact hinv0 p hp
        · rw [setFrame_other _ _ hppid] at hp ⊢
          exact hinv0 p hp
      dsimp only
      split
      · rename_i s2 heq
        simp only [FixResult.state]
        have hs2 : s2 = (loadPage (setFrame s0 pid { s0.frames pid with pageLatch := lat }) pid).1 := by
          rw [heq]
        rw [hs2]
        exact loadPage_inv _ pid hinvA
      · rename_i s2 heq
        simp only [FixResult.state]
        have hs2 : s2 = (loadPage (setFrame s0 pid { s0.frames pid with pageLatch := lat }) pid).1 := by
          rw [heq]
        have hload : QueueDataInv s2 := by
          rw [hs2]
          exact loadPage_inv _ pid hinvA
        intro p hp
        by_cases hppid : p = pid
        · subst hppid
          rw [setFrame_same] at hp ⊢
          exact hload p hp
        · rw [setFrame_other _ _ hppid] at hp ⊢
          exact hload p hp
    | LOADING =>
      simp only [FixResult.state]
      intro p hp
      by_cases hppid : p = pid
      · subst hppid
        rw [setFrame_same] at hp ⊢
        exact hinv0 p hp
      · rw [setFrame_other _ _ hppid] at hp ⊢
        exact hinv0 p hp

theorem unfix_page_inv (s : BMState) (pid : Nat) (d : Bool) (hinv : QueueDataInv s) :
    QueueDataInv (unfix_page s pid d) := by
  intro p hp
  unfold unfix_page at hp ⊢
  by_cases hppid : p = pid
  · subst hppid
    rw [setFrame_same] at hp ⊢
    exact hinv p hp
  · rw [setFrame_other _ _ hppid] at hp ⊢
    exact hinv p hp

theorem BMReachable_queueDataInv {s : BMState} (h : BMReachable s) : QueueDataInv s := by
  induction h with
  | init pageCount => intro p hp; simp [initBM, initFrame] at hp
  | fix s pid ex _ ih => exact fix_page_inv s pid ex ih
  | unfix s pid d _ ih => exact unfix_page_inv s pid d ih

theorem append_split_middle {α : Type} (A : List α) (B l1 l2 : List α) (v : α)
    (h : A ++ B = l1 ++ v :: l2) :
    (∃ l2a, A = l1 ++ v :: l2a ∧ l2 = l2a ++ B) ∨
    (∃ l1b, B = l1b ++ v :: l2 ∧ l1 = A ++ l1b) := by
  induction A generalizing l1 with
  | nil =>
    right
    exact ⟨l1, by simpa using h, by simp⟩
  | cons a A ih =>
    cases l1 with
    | nil =>
      left
      simp only [List.nil_append, List.cons_append] at h ⊢
      obtain ⟨rfl, rfl⟩ : a = v ∧ A ++ B = l2 := by
        have h1 := List.head_eq_of_cons_eq h
        have h2 := List.tail_eq_of_cons_eq h
        exact ⟨h1, h2⟩
      exact ⟨A, rfl, rfl⟩
    | cons b l1 =>
      simp only [List.cons_append] at h
      obtain ⟨rfl, h2⟩ : a = b ∧ A ++ B = l1 ++ v :: l2 := by
        have h1 := List.head_eq_of_cons_eq h
        have h2 := List.tail_eq_of_cons_eq h
        exact ⟨h1, h2⟩
      rcases ih l1 h2 with ⟨l2a, hA, hl2⟩ | ⟨l1b, hB, hl1⟩
      · exact Or.inl ⟨l2a, by rw [hA]; rfl, hl2⟩
      · exact Or.inr ⟨l1b, hB, by rw [hl1]; rfl⟩

/-! ## Claims C7 and C8 -/

/-- **C7 (amended).** On a non-resident page (`NOT_LOADED` frame with a
free page latch, not queued), `fix_page` throws `buffer_full_error` exactly
when the two queues together already hold `page_count` frames and no queued
frame's `page_latch` can be acquired without blocking; on the throwing path
the page latch is released before the exception propagates.  Otherwise the
fix succeeds: with a free slot nothing is evicted and nothing is flushed,
and with full queues the first try-lockable frame in FIFO-then-LRU
front-to-back scan order is evicted, flushed first if dirty. -/
theorem C7_fix_page_eviction_amended (s : BMState) (pid : Nat) (ex : Bool)
    (hstate : (s.frames pid).pageState = .NOT_LOADED)
    (hlatch : (s.frames pid).pageLatch = .free)
    (hfifo : pid ∉ s.fifoList) (hlru : pid ∉ s.lruList)
    (hsize : s.fifoList.length + s.lruList.length ≤ s.pageCount) :
    ((fix_page s pid ex).isBufferFull = true ↔
      (s.fifoList.length + s.lruList.length = s.pageCount ∧
       ∀ q ∈ s.fifoList ++ s.lruList, (s.frames q).pageLatch ≠ .free)) ∧
    (∀ s', fix_page s pid ex = .bufferFull s' →
      (s'.frames pid).pageLatch = .free ∧ (s'.frames pid).pageState = .NOT_LOADED) ∧
    (s.fifoList.length + s.lruList.length < s.pageCount →
      ∃ s', fix_page s pid ex = .ok s' ∧ s'.flushed = s.flushed ∧
        s'.fifoList = s.fifoList ++ [pid] ∧ s'.lruList = s.lruList ∧
        (∀ q, q ≠ pid → s'.frames q = s.frames q)) ∧
    (∀ l1 v l2, s.fifoList ++ s.lruList = l1 ++ v :: l2 →
      (∀ q ∈ l1, (s.frames q).pageLatch ≠ .free) →
      (s.frames v).pageLatch = .free →
      ¬ s.fifoList.length + s.lruList.length < s.pageCount →
      ∃ s', fix_page s pid ex = .ok s' ∧
        (s'.frames v).pageState = .NOT_LOADED ∧
        (s'.frames v).isDirty = false ∧
        (s'.frames v).data = (s.frames v).data ∧
        (s'.frames pid).pageState = .IN_FIFO ∧
        s'.flushed = (if (s.frames v).isDirty then s.flushed ++ [v] else s.flushed)) := by
  obtain ⟨hF, hFi, hLr, hPc, hFl, hNa⟩ := getBufferFrame_fields s pid
  set s0 := getBufferFrame s pid with hs0
  have hstate0 : (s0.frames pid).pageState = .NOT_LOADED := by rw [hF]; exact hstate
  have hlatch0 : (s0.frames pid).pageLatch = .free := by rw [hF]; exact hlatch
  have hfifo0 : pid ∉ s0.fifoList := by rw [hFi]; exact hfifo
  have hlru0 : pid ∉ s0.lruList := by rw [hLr]; exact hlru
  have heq : fix_page s pid ex = fix_page_latched s0 pid ex := rfl
  -- the free-slot branch
  have hfree : s.fifoList.length + s.lruList.length < s.pageCount →
      ∃ s', fix_page s pid ex = .ok s' ∧ s'.flushed = s.flushed ∧
        s'.fifoList = s.fifoList ++ [pid] ∧ s'.lruList = s.lruList ∧
        (∀ q, q ≠ pid → s'.frames q = s.frames q) := by
    intro hlt
    have hlt0 : s0.fifoList.length + s0.lruList.length < s0.pageCount := by
      rw [hFi, hLr, hPc]; exact hlt
    obtain ⟨s', h1, h2, h3, h4, _, _, h7⟩ := fix_latched_free_slot s0 pid ex hstate0 hlatch0 hlt0
    refine ⟨s', heq ▸ h1, ?_, ?_, ?_, ?_⟩
    · rw [h4, hFl]
    · rw [h2, hFi]
    · rw [h3, hLr]
    · intro q hq
      rw [h7 q hq, hF]
  -- the eviction branch
  have hevict : ∀ l1 v l2, s.fifoList ++ s.lruList = l1 ++ v :: l2 →
      (∀ q ∈ l1, (s.frames q).pageLatch ≠ .free) →
      (s.frames v).pageLatch = .free →
      ¬ s.fifoList.length + s.lruList.length < s.pageCount →
      ∃ s', fix_page s pid ex = .ok s' ∧
        (s'.frames v).pageState = .NOT_LOADED ∧
        (s'.frames v).isDirty = false ∧
        (s'.frames v).data = (s.frames v).data ∧
        (s'.frames pid).pageState = .IN_FIFO ∧
        s'.flushed = (if (s.frames v).isDirty then s.flushed ++ [v] else s.flushed) := by
    intro l1 v l2 hdec h1 hv hfull
    have hfull0 : ¬ s0.fifoList.length + s0.lruList.length < s0.pageCount := by
      rw [hFi, hLr, hPc]; exact hfull
    have hv0 : (s0.frames v).pageLatch = .free := by rw [hF]; exact hv
    rcases append_split_middle s.fifoList s.lruList l1 l2 v hdec with
      ⟨l2a, hA, _⟩ | ⟨l1b, hB, hl1⟩
    · have hA0 : s0.fifoList = l1 ++ v :: l2a := by rw [hFi]; exact hA
      have h10 : ∀ q ∈ l1, (s0.frames q).pageLatch ≠ .free := by
        intro q hq; rw [hF]; exact h1 q hq
      obtain ⟨s', k1, k2, k3, k4, k5, k6, _, _, _, _, k11⟩ :=
        fix_latched_evict_fifo s0 pid ex hstate0 hlatch0 hfifo0 hfull0 l1 v l2a hA0 h10 hv0
      refine ⟨s', heq ▸ k1, k2, k4, ?_, k6, ?_⟩
      · rw [k5, hF]
      · rw [k11, hF, hFl]
    · have hB0 : s0.lruList = l1b ++ v :: l2 := by rw [hLr]; exact hB
      have hfifoAll0 : ∀ q ∈ s0.fifoList, (s0.frames q).pageLatch ≠ .free := by
        intro q hq
        rw [hF]
        rw [hFi] at hq
        exact h1 q (hl1 ▸ List.mem_append_left _ hq)
      have h10 : ∀ q ∈ l1b, (s0.frames q).pageLatch ≠ .free := by
        intro q hq
        rw [hF]
        exact h1 q (hl1 ▸ List.mem_append_right _ hq)
      obtain ⟨s', k1, k2, k3, k4, k5, k6, _, _, _, _, k11⟩ :=
        fix_latched_evict_lru s0 pid ex hstate0 hlatch0 hfifo0 hlru0 hfull0 hfifoAll0
          l1b v l2 hB0 h10 hv0
      refine ⟨s', heq ▸ k1, k2, k4, ?_, k6, ?_⟩
      · rw [k5, hF]
      · rw [k11, hF, hFl]
  -- the throwing branch
  have hthrow : (s.fifoList.length + s.lruList.length = s.pageCount ∧
      ∀ q ∈ s.fifoList ++ s.lruList, (s.frames q).pageLatch ≠ .free) →
      ∃ s', fix_page s pid ex = .bufferFull s' ∧
        (s'.frames pid).pageState = .NOT_LOADED ∧
        (s'.frames pid).pageLatch = .free := by
    rintro ⟨hfull, hall⟩
    have hfull0 : ¬ s0.fifoList.length + s0.lruList.length < s0.pageCount := by
      rw [hFi, hLr, hPc]; omega
    have hall0 : ∀ q ∈ s0.fifoList ++ s0.lruList, (s0.frames q).pageLatch ≠ .free := by
      intro q hq
      rw [hF]
      rw [hFi, hLr] at hq
      exact hall q hq
    obtain ⟨s', k1, k2, k3, _⟩ :=
      fix_latched_throws s0 pid ex hstate0 hlatch0 hfifo0 hlru0 hfull0 hall0
    exact ⟨s', heq ▸ k1, k2, k3⟩
  have hfwd : (fix_page s pid ex).isBufferFull = true →
      (s.fifoList.length + s.lruList.length = s.pageCount ∧
       ∀ q ∈ s.fifoList ++ s.lruList, (s.frames q).pageLatch ≠ .free) := by
    intro hbf
    by_cases hlt : s.fifoList.length + s.lruList.length < s.pageCount
    · obtain ⟨s', h1, _⟩ := hfree hlt
      rw [h1] at hbf
      simp [FixResult.isBufferFull] at hbf
    · refine ⟨by omega, ?_⟩
      by_contra hex
      push_neg at hex
      obtain ⟨q, hqL, hqfree⟩ := hex
      cases hf : lockEvictableFrame s s.fifoList with
      | some vr =>
        obtain ⟨v, rest⟩ := vr
        obtain ⟨l1, l2a, hA, _, h1, hv⟩ := lockEvictableFrame_some_decomp s s.fifoList hf
        obtain ⟨s', k1, _⟩ := hevict l1 v (l2a ++ s.lruList)
          (by rw [hA]; simp) h1 hv hlt
        rw [k1] at hbf
        simp [FixResult.isBufferFull] at hbf
      | none =>
        have hfifoAll := (lockEvictableFrame_none_iff s s.fifoList).mp hf
        cases hl : lockEvictableFrame s s.lruList with
        | some vr =>
          obtain ⟨v, rest⟩ := vr
          obtain ⟨l1, l2a, hB, _, h1, hv⟩ := lockEvictableFrame_some_decomp s s.lruList hl
          obtain ⟨s', k1, _⟩ := hevict (s.fifoList ++ l1) v l2a
            (by rw [hB]; simp)
            (by
              intro r hr
              rcases List.mem_append.mp hr with hr | hr
              · exact hfifoAll r hr
              · exact h1 r hr) hv hlt
          rw [k1] at hbf
          simp [FixResult.isBufferFull] at hbf
        | none =>
          have hlruAll := (lockEvictableFrame_none_iff s s.lruList).mp hl
          rcases List.mem_append.mp hqL with hq | hq
          · exact absurd hqfree (hfifoAll q hq)
          · exact absurd hqfree (hlruAll q hq)
  refine ⟨⟨hfwd, ?_⟩, ?_, hfree, hevict⟩
  · -- full and all latched implies throw
    intro hcond
    obtain ⟨s', h1, _, _⟩ := hthrow hcond
    rw [h1]
    rfl
  · -- the thrown state releases the caller's latch
    intro s' hs'
    have hbf : (fix_page s pid ex).isBufferFull = true := by
      rw [hs']
      rfl
    obtain ⟨s'', h1, h2, h3⟩ := hthrow (hfwd hbf)
    rw [hs'] at h1
    have hss : s'' = s' := FixResult.bufferFull.inj h1.symm
    rw [← hss]
    exact ⟨h3, h2⟩

/-- A reachable two-frame buffer-manager state: `page_count = 2`, page `0`
fixed once and unfixed (so its frame sits in the FIFO queue, latch free). -/
def c7state : BMState :=
  unfix_page ((fix_page (initBM 2) 0 true).state (initBM 2)) 0 false

/-- **C7 counterexample.**  In `c7state` the queues are not full (1 < 2)
and frame `0` sits in the FIFO queue with a free (try-lockable) latch.
Fixing the non-resident page `1` succeeds without throwing — but nothing
is evicted: frame `0` stays `IN_FIFO`, stays in the FIFO queue, and
nothing is flushed.  The claim's "otherwise the first such try-lockable
frame in that scan order is evicted" is false on states with a free
slot. -/
theorem C7_counterexample :
    BMReachable c7state ∧
    (c7state.frames 1).pageState = .NOT_LOADED ∧
    (c7state.frames 0).pageLatch = .free ∧
    c7state.fifoList = [0] ∧ c7state.lruList = [] ∧ c7state.pageCount = 2 ∧
    (fix_page c7state 1 true).isOk = true ∧
    (((fix_page c7state 1 true).state c7state).frames 0).pageState = .IN_FIFO ∧
    0 ∈ ((fix_page c7state 1 true).state c7state).fifoList ∧
    ((fix_page c7state 1 true).state c7state).flushed = [] := by
  refine ⟨?_, by decide, by decide, by decide, by decide, by decide,
    by decide, by decide, by decide, by decide⟩
  exact BMReachable.unfix _ 0 false (BMReachable.fix (initBM 2) 0 true (BMReachable.init 2))

theorem C7_witness :
    ((c7state.frames 1).pageState = .NOT_LOADED ∧
     (c7state.frames 1).pageLatch = .free ∧
     1 ∉ c7state.fifoList ∧ 1 ∉ c7state.lruList ∧
     c7state.fifoList.length + c7state.lruList.length ≤ c7state.pageCount) ∧
    ((fix_page c7state 1 true).isBufferFull = true ↔
      (c7state.fifoList.length + c7state.lruList.length = c7state.pageCount ∧
       ∀ q ∈ c7state.fifoList ++ c7state.lruList, (c7state.frames q).pageLatch ≠ .free)) :=
  ⟨⟨by decide, by decide, by decide, by decide, by decide⟩,
   (C7_fix_page_eviction_amended c7state 1 true (by decide) (by decide) (by decide)
      (by decide) (by decide)).1⟩

/-- A reachable one-frame buffer-manager state in which page `0` was
loaded, unfixed, and then evicted to make room for page `1`. -/
def c8state : BMState :=
  (fix_page (unfix_page ((fix_page (initBM 1) 0 true).state (initBM 1)) 0 false) 1 true).state
    (unfix_page ((fix_page (initBM 1) 0 true).state (initBM 1)) 0 false)

/-- **C8 counterexample.**  After frame `0` is evicted its `data` pointer
is *not* null again: `free(bf->data)` in `insertBufferFrame` never clears
the field, so the evicted frame is `NOT_LOADED` with a stale non-null
pointer.  The claim's "a frame in any other state has a null data
pointer — in particular after a frame is evicted its data pointer is null
again" is false. -/
theorem C8_counterexample :
    BMReachable c8state ∧
    (c8state.frames 0).pageState = .NOT_LOADED ∧
    (c8state.frames 0).data ≠ none := by
  refine ⟨?_, by decide, by decide⟩
  exact BMReachable.fix _ 1 true
    (BMReachable.unfix _ 0 false (BMReachable.fix (initBM 1) 0 true (BMReachable.init 1)))

/-- **C8 (amended).**  In every state reachable by buffer-manager
operations, a frame whose state is `InFifo` or `InLru` has a non-null
`data` pointer.  The converse direction of the claim fails: an evicted
frame is `NOT_LOADED` but keeps its stale non-null pointer, because the
source frees the buffer without clearing the field. -/
theorem C8_queue_frames_have_data {s : BMState} (h : BMReachable s) :
    ∀ p, ((s.frames p).pageState = .IN_FIFO ∨ (s.frames p).pageState = .IN_LRU) →
      (s.frames p).data ≠ none := by
  intro p hp
  have := BMReachable_queueDataInv h p hp
  intro hnone
  rw [hnone] at this
  simp at this

theorem C8_witness :
    BMReachable ((fix_page (initBM 1) 0 true).state (initBM 1)) ∧
    (((fix_page (initBM 1) 0 true).state (initBM 1)).frames 0).pageState = .IN_FIFO ∧
    (((fix_page (initBM 1) 0 true).state (initBM 1)).frames 0).data ≠ none := by
  have hreach : BMReachable ((fix_page (initBM 1) 0 true).state (initBM 1)) :=
    BMReachable.fix (initBM 1) 0 true (BMReachable.init 1)
  exact ⟨hreach, by decide,
    C8_queue_frames_have_data hreach 0 (Or.inl (by decide))⟩

/-! ## `btree.h`: the tree operations over the page store

Single-threaded semantics.  The buffer manager is abstracted to the page
store itself: `fix_page(pid, ·)` hands out the page bytes at `pid`,
`unfix_page` publishes them; latching is irrelevant sequentially (the
`root != rootPid` restart guard can never fire).  A page never written
holds the zero bytes of the freshly resized segment file, which read back
as a `Node` with `level = 0, count = 0` — the `zeroLeaf` below.  At the
test instantiation (`KeyT = ValueT = uint64_t`) leaf and inner pages have
identical layout `[level; count; 8-byte array; 8-byte array]`, so
reinterpreting one as the other (`asLeaf` / `asInner`) is the exact
byte-level cast performed by `reinterpret_cast` in the source. -/

def zeroLeaf : LeafNode :=
  { level := 0, count := 0, keys := fun _ => 0, values := fun _ => 0 }

inductive NodeData
  | leaf (l : LeafNode)
  | inner (n : InnerNode)

def NodeData.level : NodeData → Nat
  | .leaf l => l.level
  | .inner n => n.level

def NodeData.count : NodeData → Nat
  | .leaf l => l.count
  | .inner n => n.count

/-- `Node::is_leaf(): level == 0`. -/
def NodeData.is_leaf (d : NodeData) : Bool := d.level == 0

/-- `reinterpret_cast<LeafNode*>`: keys stay keys, children become values. -/
def NodeData.asLeaf : NodeData → LeafNode
  | .leaf l => l
  | .inner n => { level := n.level, count := n.count, keys := n.keys, values := n.children }

/-- `reinterpret_cast<InnerNode*>`: keys stay keys, values become children. -/
def NodeData.asInner : NodeData → InnerNode
  | .inner n => n
  | .leaf l => { level := l.level, count := l.count, keys := l.keys, children := l.values }

structure BTreeState where
  segment_id : Nat
  pages : Nat → NodeData
  root : Nat
  nodeCount : Nat
  treeHeight : Nat

def writePage (pages : Nat → NodeData) (pid : Nat) (d : NodeData) : Nat → NodeData :=
  fun q => if q = pid then d else pages q

/-- `create_new_node()` mints `(segment_id << 48) ^ nodeCount`; the state
with the incremented counter is threaded by the callers. -/
def create_new_node_pid (s : BTreeState) : Nat :=
  (s.segment_id <<< 48) ^^^ s.nodeCount

/-- `BTree(segment_id, buffer_manager)`: one fresh page, placement-`new`ed
as an empty leaf (the page bytes are already zero). -/
def mkBTree (segment_id : Nat) : BTreeState :=
  { segment_id := segment_id
    pages := writePage (fun _ => .leaf zeroLeaf) ((segment_id <<< 48) ^^^ 0) (.leaf zeroLeaf)
    root := (segment_id <<< 48) ^^^ 0
    nodeCount := 1
    treeHeight := 1 }

namespace BTree

/-- `BTree::grow_root`: a fresh inner root with two children; `root` and
`treeHeight` are updated.  The fresh page's bytes serve as the array
backing store. -/
def grow_root (s : BTreeState) (level sep_key left_child right_child : Nat) : BTreeState :=
  { s with
    pages := writePage s.pages (create_new_node_pid s)
      (.inner
        { level := level
          count := 2
          keys := aset ((s.pages (create_new_node_pid s)).asInner.keys) 0 sep_key
          children := aset (aset ((s.pages (create_new_node_pid s)).asInner.children) 0 left_child)
            1 right_child })
    root := create_new_node_pid s
    nodeCount := s.nodeCount + 1
    treeHeight := s.treeHeight + 1 }

/-- The descent loop of `BTree::lookup`; the fuel bounds the loop (the
level drops by one per step, so `treeHeight + 1` suffices on well-formed
trees; `none` marks fuel exhaustion). -/
def lookupLoop (s : BTreeState) (key : Nat) : Nat → Nat → Option (Option Nat)
  | 0, _ => none
  | fuel + 1, pid =>
    if (s.pages pid).is_leaf then
      some (if ((s.pages pid).asLeaf.lower_bound key).2 then
          some ((s.pages pid).asLeaf.values (((s.pages pid).asLeaf.lower_bound key)).1)
        else none)
    else
      lookupLoop s key fuel
        ((s.pages pid).asInner.children (((s.pages pid).asInner.lower_bound key).1))

/-- `BTree::lookup`. -/
def lookup (s : BTreeState) (key : Nat) : Option (Option Nat) :=
  lookupLoop s key (s.treeHeight + 1) s.root

/-- The descent loop of `BTree::erase`: at the leaf, `LeafNode::erase`
runs in place (a miss leaves the leaf's contents unchanged). -/
def eraseLoop (s : BTreeState) (key : Nat) : Nat → Nat → Option BTreeState
  | 0, _ => none
  | fuel + 1, pid =>
    if (s.pages pid).is_leaf then
      some { s with pages := writePage s.pages pid (.leaf ((s.pages pid).asLeaf.erase key).1) }
    else
      eraseLoop s key fuel
        ((s.pages pid).asInner.children (((s.pages pid).asInner.lower_bound key).1))

/-- `BTree::erase`. -/
def erase (s : BTreeState) (key : Nat) : Option BTreeState :=
  eraseLoop s key (s.treeHeight + 1) s.root

/-- The page writes of a leaf split: the fresh right page is written with
the upper half (its previous bytes serve as the buffer), the left leaf is
rewritten in place, the node counter is bumped. -/
def splitLeafPages (s : BTreeState) (pid : Nat) : BTreeState :=
  { s with
    nodeCount := s.nodeCount + 1
    pages :=
      writePage
        (writePage s.pages pid
          (.leaf ((s.pages pid).asLeaf.split ((s.pages (create_new_node_pid s)).asLeaf)).1))
        (create_new_node_pid s)
        (.leaf ((s.pages pid).asLeaf.split ((s.pages (create_new_node_pid s)).asLeaf)).2.1) }

/-- The leaf-split arm of `BTree::insert`: split, then either
`insert_split` of the separator into the (already latched) parent, or
`grow_root` when the leaf was the root. -/
def splitLeafAt (s : BTreeState) (pid : Nat) (parent : Option Nat) : BTreeState :=
  match parent with
  | some ppid =>
      { splitLeafPages s pid with
        pages := writePage (splitLeafPages s pid).pages ppid
          (.inner (((splitLeafPages s pid).pages ppid).asInner.insert_split
            ((s.pages pid).asLeaf.split ((s.pages (create_new_node_pid s)).asLeaf)).2.2
            (create_new_node_pid s))) }
  | none =>
      grow_root (splitLeafPages s pid) ((s.pages pid).asLeaf.level + 1)
        ((s.pages pid).asLeaf.split ((s.pages (create_new_node_pid s)).asLeaf)).2.2
        pid (create_new_node_pid s)

/-- The page writes of an inner split, mirroring `splitLeafPages`. -/
def splitInnerPages (s : BTreeState) (pid : Nat) : BTreeState :=
  { s with
    nodeCount := s.nodeCount + 1
    pages :=
      writePage
        (writePage s.pages pid
          (.inner ((s.pages pid).asInner.split ((s.pages (create_new_node_pid s)).asInner)).1))
        (create_new_node_pid s)
        (.inner ((s.pages pid).asInner.split ((s.pages (create_new_node_pid s)).asInner)).2.1) }

/-- The inner-split arm of `BTree::insert`. -/
def splitInnerAt (s : BTreeState) (pid : Nat) (parent : Option Nat) : BTreeState :=
  match parent with
  | some ppid =>
      { splitInnerPages s pid with
        pages := writePage (splitInnerPages s pid).pages ppid
          (.inner (((splitInnerPages s pid).pages ppid).asInner.insert_split
            ((s.pages pid).asInner.split ((s.pages (create_new_node_pid s)).asInner)).2.2
            (create_new_node_pid s))) }
  | none =>
      grow_root (splitInnerPages s pid) ((s.pages pid).asInner.level + 1)
        ((s.pages pid).asInner.split ((s.pages (create_new_node_pid s)).asInner)).2.2
        pid (create_new_node_pid s)

/-- The outcome of one descent of `BTree::insert` from the root:
the insert completed in place (`done`), a full node was found while not
exclusive (`goExclusive`: release everything, set `exclusive = true`,
`goto restart`), a split was performed (`splitDone`: release everything,
set `exclusive = false`, `goto restart`), or the descent fuel ran out. -/
inductive AttemptResult
  | done (s : BTreeState)
  | goExclusive
  | splitDone (s : BTreeState)
  | outOfFuel

/-- The descent of `BTree::insert`: at each inner node the full check
precedes `lower_bound`; at the leaf the full check precedes
`LeafNode::insert`. -/
def insertLoop (cap key value : Nat) (exclusive : Bool) :
    Nat → BTreeState → Nat → Option Nat → AttemptResult
  | 0, _, _, _ => .outOfFuel
  | fuel + 1, s, pid, parent =>
    if (s.pages pid).is_leaf then
      if (s.pages pid).asLeaf.has_space cap then
        .done { s with
          pages := writePage s.pages pid (.leaf ((s.pages pid).asLeaf.insert key value)) }
      else if exclusive then .splitDone (splitLeafAt s pid parent)
      else .goExclusive
    else
      if (s.pages pid).asInner.has_space cap then
        insertLoop cap key value exclusive fuel s
          ((s.pages pid).asInner.children (((s.pages pid).asInner.lower_bound key).1))
          (some pid)
      else if exclusive then .splitDone (splitInnerAt s pid parent)
      else .goExclusive

/-- The `goto restart` structure of `BTree::insert`: re-descend after
`goExclusive` (now exclusive) or after a split (shared again). -/
def insertRestart (cap key value : Nat) : Nat → Bool → BTreeState → Option BTreeState
  | 0, _, _ => none
  | fuel + 1, exclusive, s =>
    match insertLoop cap key value exclusive (s.treeHeight + 1) s s.root none with
    | .done s' => some s'
    | .goExclusive => insertRestart cap key value fuel true s
    | .splitDone s' => insertRestart cap key value fuel false s'
    | .outOfFuel => none

/-- `BTree::insert`, with `exclusive = false` initially. -/
def insert (cap key value : Nat) (s : BTreeState) (fuel : Nat) : Option BTreeState :=
  insertRestart cap key value fuel false s

/-- The modes requested from `fix_page` during the first, optimistic
descent of `BTree::insert` (pass 1, `exclusive = false`), in order: the
root is fixed with `exclusive || treeHeight == 1`, each child with
`exclusive || innerNode.level == 1`; the descent stops at the leaf or at
the first full inner node. -/
def insertPass1FixLoop (cap : Nat) (s : BTreeState) (key : Nat) : Nat → Nat → List (Nat × Bool)
  | 0, _ => []
  | fuel + 1, pid =>
    if (s.pages pid).is_leaf then []
    else
      if (s.pages pid).asInner.has_space cap then
        ((s.pages pid).asInner.children (((s.pages pid).asInner.lower_bound key).1),
          (s.pages pid).asInner.level == 1) ::
        insertPass1FixLoop cap s key fuel
          ((s.pages pid).asInner.children (((s.pages pid).asInner.lower_bound key).1))
      else []

def insertPass1Fixes (cap : Nat) (s : BTreeState) (key : Nat) : List (Nat × Bool) :=
  (s.root, s.treeHeight == 1) :: insertPass1FixLoop cap s key (s.treeHeight + 1) s.root

end BTree

/-- A single-threaded tree operation. -/
inductive Op
  | insert (k v : Nat)
  | erase (k : Nat)

/-- A termination measure for the restart loop of `BTree::insert`: the sum
of `count²` over the nodes of the subtree (each split strictly decreases
it when the node capacity is at least 4). -/
def subtreeWeight (s : BTreeState) : Nat → Nat → Nat
  | 0, pid => (s.pages pid).count * (s.pages pid).count
  | lev + 1, pid =>
      (s.pages pid).count * (s.pages pid).count +
      ((List.range (s.pages pid).asInner.count).map
        (fun i => subtreeWeight s lev ((s.pages pid).asInner.children i))).sum

def phi (s : BTreeState) : Nat := subtreeWeight s (s.treeHeight - 1) s.root

/-- Restart fuel that provably suffices for one `BTree::insert`. -/
def insertFuel (s : BTreeState) : Nat := 2 * phi s + 4

def execOp (cap : Nat) (s : BTreeState) : Op → Option BTreeState
  | .insert k v => BTree.insert cap k v s (insertFuel s)
  | .erase k => BTree.erase s k

def execOps (cap segment_id : Nat) (ops : List Op) : Option BTreeState :=
  ops.foldl
    (fun acc op =>
      match acc with
      | none => none
      | some s => execOp cap s op)
    (some (mkBTree segment_id))

/-- The specification map of an operation sequence: the last
`insert(k, v)` not followed by an `erase(k)` determines `lookup(k)`. -/
def opsMap (ops : List Op) : Nat → Option Nat :=
  ops.foldl
    (fun m op =>
      match op with
      | .insert k v => fun q => if q = k then some v else m q
      | .erase k => fun q => if q = k then none else m q)
    (fun _ => none)

/-- Checks that the nodes of a pass-1 fix trace sit at consecutively
decreasing levels, starting from a given expected level. -/
def levelsDescend (s : BTreeState) : List (Nat × Bool) → Nat → Bool
  | [], _ => true
  | (pid, _) :: rest, lev => ((s.pages pid).level == lev) && levelsDescend s rest (lev - 1)

/-- Five inserts at capacity 4: the root leaf splits once, leaving a
height-2 tree whose root is a level-1 inner node. -/
def c9ops : List Op :=
  [.insert 5 50, .insert 3 30, .insert 8 80, .insert 1 10, .insert 9 90]

def c9state : BTreeState := (execOps 4 1 c9ops).getD (mkBTree 1)

/-- A single full leaf (capacity 4) that already contains key 20. -/
def c10state : BTreeState :=
  { segment_id := 1
    pages := writePage (fun _ => .leaf zeroLeaf) ((1 <<< 48) ^^^ 0)
      (.leaf
        { level := 0
          count := 4
          keys := fun j => List.getD [10, 20, 30, 40] j 0
          values := fun j => List.getD [11, 21, 31, 41] j 0 })
    root := (1 <<< 48) ^^^ 0
    nodeCount := 1
    treeHeight := 1 }

/-! ## Claims C2 – C6 -/

/-- **C2.** For every sorted range `S` of length `len` (sorted under the
comparator) and every query value `v`, `lower_bound_branchless(S, v)`
returns the smallest index `i` in `[0, len]` such that `S[i] ≥ v`,
returning `len` when no such element exists; i.e. it equals a reference
lower bound on every input, including `len = 0`. -/
theorem C2_lower_bound_branchless_matches_reference (f : Nat → Nat) (len v : Nat)
    (hs : SortedLe f len) :
    lower_bound_branchless f len v = reference_lower_bound f len v :=
  lower_bound_branchless_eq_reference f len v hs

theorem C2_witness :
    SortedLe (fun j => 2 * j) 5 ∧
    lower_bound_branchless (fun j => 2 * j) 5 3 = reference_lower_bound (fun j => 2 * j) 5 3 :=
  ⟨by decide, C2_lower_bound_branchless_matches_reference (fun j => 2 * j) 5 3 (by decide)⟩

/-- **C3.** For every leaf node with `2 ≤ count ≤ capacity` and strictly
increasing keys, `LeafNode::split` leaves the original leaf with
`count − count/2` entries (the lower half, in place), produces a new leaf
of the same level holding the upper `count/2` entries, returns as
separator the largest key retained in the left leaf
(`keys[new_count − 1]`), and the concatenation of the left and right
key/value pairs equals the pre-split contents. -/
theorem C3_leaf_split (n buffer : LeafNode) (cap : Nat)
    (h2 : 2 ≤ n.count) (hcap : n.count ≤ cap) (hs : SortedLt n.keys n.count) :
    (n.split buffer).1.count = n.count - n.count / 2 ∧
    (n.split buffer).1.keys = n.keys ∧
    (n.split buffer).1.values = n.values ∧
    (n.split buffer).2.1.count = n.count / 2 ∧
    (n.split buffer).2.1.level = n.level ∧
    (∀ j, j < n.count / 2 →
      (n.split buffer).2.1.keys j = n.keys (n.count - n.count / 2 + j) ∧
      (n.split buffer).2.1.values j = n.values (n.count - n.count / 2 + j)) ∧
    (n.split buffer).2.2 = (n.split buffer).1.keys ((n.split buffer).1.count - 1) ∧
    (∀ j, j < (n.split buffer).1.count → (n.split buffer).1.keys j ≤ (n.split buffer).2.2) ∧
    (n.split buffer).1.entries ++ (n.split buffer).2.1.entries = n.entries := by
  obtain ⟨hc1, _, hk1, hv1, hc2, hl2, hdesc, _⟩ := n.split_desc buffer
  obtain ⟨hsep1, hsep2, _⟩ := n.split_separator buffer hs h2
  exact ⟨hc1, hk1, hv1, hc2, hl2, hdesc, hsep1, hsep2, n.split_entries buffer⟩

theorem C3_witness :
    (2 ≤ 4 ∧ 4 ≤ 4 ∧ SortedLt (fun j => 10 * (j + 1)) 4) ∧
    ((LeafNode.mk 0 4 (fun j => 10 * (j + 1)) (fun j => j)).split
        (LeafNode.mk 0 0 (fun _ => 0) (fun _ => 0))).1.count = 2 := by
  refine ⟨⟨by decide, by decide, by decide⟩, ?_⟩
  have h := C3_leaf_split (LeafNode.mk 0 4 (fun j => 10 * (j + 1)) (fun j => j))
    (LeafNode.mk 0 0 (fun _ => 0) (fun _ => 0)) 4 (by decide) (by decide) (by decide)
  exact h.1

/-- **C4 counterexample.** On a concrete inner node with 4 children and
strictly increasing separators `[10, 20, 30]`, the separator returned by
`InnerNode::split` is `20`, but the left node's logical separator keys
after the split are `[10]`: the separator does not remain among the left
node's logical separator keys (it is pushed up instead). -/
theorem C4_counterexample :
    2 ≤ (InnerNode.mk 1 4 (fun j => 10 * (j + 1)) (fun j => j)).count ∧
    SortedLt (InnerNode.mk 1 4 (fun j => 10 * (j + 1)) (fun j => j)).keys
      ((InnerNode.mk 1 4 (fun j => 10 * (j + 1)) (fun j => j)).count - 1) ∧
    ((InnerNode.mk 1 4 (fun j => 10 * (j + 1)) (fun j => j)).split
        (InnerNode.mk 0 0 (fun _ => 0) (fun _ => 0))).2.2 = 20 ∧
    ((InnerNode.mk 1 4 (fun j => 10 * (j + 1)) (fun j => j)).split
        (InnerNode.mk 0 0 (fun _ => 0) (fun _ => 0))).1.keyList = [10] ∧
    ((InnerNode.mk 1 4 (fun j => 10 * (j + 1)) (fun j => j)).split
        (InnerNode.mk 0 0 (fun _ => 0) (fun _ => 0))).2.2 ∉
      ((InnerNode.mk 1 4 (fun j => 10 * (j + 1)) (fun j => j)).split
        (InnerNode.mk 0 0 (fun _ => 0) (fun _ => 0))).1.keyList := by
  refine ⟨by decide, by decide, by decide, ?_, ?_⟩
  · show tabulate (fun j => 10 * (j + 1)) (2 - 1) = [10]
    decide
  · show (20 : Nat) ∉ tabulate (fun j => 10 * (j + 1)) (2 - 1)
    decide

/-- **C4 (amended).** For every inner node with `c ≥ 2` children and
strictly increasing separator keys, `InnerNode::split` leaves the original
node with `c − c/2` children, produces a new inner node of the same level
holding the upper `c/2` children, and the returned separator is
`keys[newCount − 1]`: it is strictly greater than every logical separator
key remaining on the left node and strictly smaller than every logical
separator key of the right node (it is pushed up rather than retained),
and the pre-split logical keys are exactly the left keys, the separator,
then the right keys. -/
theorem C4_inner_split_amended (n buffer : InnerNode)
    (h2 : 2 ≤ n.count) (hs : SortedLt n.keys (n.count - 1)) :
    (n.split buffer).1.count = n.count - n.count / 2 ∧
    (n.split buffer).2.1.count = n.count / 2 ∧
    (n.split buffer).2.1.level = n.level ∧
    (∀ j, j < n.count / 2 →
      (n.split buffer).2.1.children j = n.children (n.count - n.count / 2 + j)) ∧
    (n.split buffer).1.childList ++ (n.split buffer).2.1.childList = n.childList ∧
    (n.split buffer).2.2 = n.keys (n.count - n.count / 2 - 1) ∧
    (∀ k ∈ (n.split buffer).1.keyList, k < (n.split buffer).2.2) ∧
    (∀ k ∈ (n.split buffer).2.1.keyList, (n.split buffer).2.2 < k) ∧
    n.keyList = (n.split buffer).1.keyList ++ (n.split buffer).2.2 :: (n.split buffer).2.1.keyList := by
  obtain ⟨hc1, _, hk1, hch1, hc2, hl2, hdesc, hsep⟩ := n.inner_split_desc buffer
  obtain ⟨hs1, hs2, hlt, hgt⟩ := n.inner_split_sorted buffer hs h2
  refine ⟨hc1, hc2, hl2, fun j hj => (hdesc j hj).2, n.split_children buffer, hsep,
    ?_, ?_, n.split_keyList buffer h2⟩
  · intro k hk
    obtain ⟨j, hj, rfl⟩ := mem_tabulate.mp hk
    exact hlt j hj
  · intro k hk
    obtain ⟨j, hj, rfl⟩ := mem_tabulate.mp hk
    exact hgt j hj

theorem C4_amended_witness :
    (2 ≤ 4 ∧ SortedLt (fun j => 10 * (j + 1)) (4 - 1)) ∧
    ((InnerNode.mk 1 4 (fun j => 10 * (j + 1)) (fun j => j)).split
        (InnerNode.mk 0 0 (fun _ => 0) (fun _ => 0))).1.count = 2 := by
  refine ⟨⟨by decide, by decide⟩, ?_⟩
  have h := C4_inner_split_amended (InnerNode.mk 1 4 (fun j => 10 * (j + 1)) (fun j => j))
    (InnerNode.mk 0 0 (fun _ => 0) (fun _ => 0)) (by decide) (by decide)
  exact h.1

/-- **C5.** For every inner node with `k ≥ 1` children whose `k − 1`
separator keys are strictly increasing, `InnerNode::lower_bound(key)`
returns `(i, found)` where `i` is the smallest index in `[0, k−1]` with
`keys[i] ≥ key` (`i = k−1` when every separator is `< key`, so the
rightmost child is chosen) and `found` holds iff `i < k−1` and
`keys[i] = key`; for `k = 0` it returns `(0, false)`.  Descent at
`children[i]` respects the child-range invariant: `keys[i−1] < key` when
`i > 0`, and `key ≤ keys[i]` when `i < k−1`. -/
theorem C5_inner_lower_bound (n : InnerNode) (key : Nat)
    (hs : SortedLt n.keys (n.count - 1)) :
    (n.count = 0 → n.lower_bound key = (0, false)) ∧
    (1 ≤ n.count →
      (n.lower_bound key).1 ≤ n.count - 1 ∧
      (∀ j < (n.lower_bound key).1, n.keys j < key) ∧
      ((n.lower_bound key).1 < n.count - 1 → key ≤ n.keys (n.lower_bound key).1) ∧
      ((∀ j < n.count - 1, n.keys j < key) → (n.lower_bound key).1 = n.count - 1) ∧
      ((n.lower_bound key).2 = true ↔
        (n.lower_bound key).1 < n.count - 1 ∧ n.keys (n.lower_bound key).1 = key) ∧
      (0 < (n.lower_bound key).1 → n.keys ((n.lower_bound key).1 - 1) < key)) := by
  obtain ⟨h0, hpos⟩ := n.inner_lower_bound_spec key hs.le
  refine ⟨h0, ?_⟩
  intro h1
  obtain ⟨ha, hb, hc, hd⟩ := hpos (by omega)
  refine ⟨ha, hb, hc, ?_, hd, ?_⟩
  · intro hall
    by_contra hne
    have hlt : (n.lower_bound key).1 < n.count - 1 := by omega
    have := hall _ hlt
    have := hc hlt
    omega
  · intro hposlt
    exact hb _ (by omega)

theorem C5_witness :
    SortedLt (InnerNode.mk 1 3 (fun j => 10 * (j + 1)) (fun j => j)).keys
      ((InnerNode.mk 1 3 (fun j => 10 * (j + 1)) (fun j => j)).count - 1) ∧
    (∀ j < ((InnerNode.mk 1 3 (fun j => 10 * (j + 1)) (fun j => j)).lower_bound 15).1,
      (InnerNode.mk 1 3 (fun j => 10 * (j + 1)) (fun j => j)).keys j < 15) :=
  ⟨by decide,
   ((C5_inner_lower_bound (InnerNode.mk 1 3 (fun j => 10 * (j + 1)) (fun j => j)) 15
      (by decide)).2 (by decide)).2.1⟩

/-- **C6.** Strictly increasing key order is preserved by every node
mutator: `LeafNode::insert` (given space or an already-present key),
`LeafNode::erase`, `InnerNode::insert_split` (given space and an absent
separator), and both `split` operations. -/
theorem C6_keys_strictly_increasing (cap : Nat) :
    (∀ (l : LeafNode) (k v : Nat), SortedLt l.keys l.count →
      (l.has_space cap = true ∨ (l.lower_bound k).2 = true) →
      SortedLt (l.insert k v).keys (l.insert k v).count) ∧
    (∀ (l : LeafNode) (k : Nat), SortedLt l.keys l.count →
      SortedLt (l.erase k).1.keys (l.erase k).1.count) ∧
    (∀ (n : InnerNode) (k p : Nat), SortedLt n.keys (n.count - 1) →
      n.has_space cap = true → (∀ j < n.count - 1, n.keys j ≠ k) →
      SortedLt (n.insert_split k p).keys ((n.insert_split k p).count - 1)) ∧
    (∀ (l buffer : LeafNode), SortedLt l.keys l.count →
      SortedLt (l.split buffer).1.keys (l.split buffer).1.count ∧
      SortedLt (l.split buffer).2.1.keys (l.split buffer).2.1.count) ∧
    (∀ (n buffer : InnerNode), SortedLt n.keys (n.count - 1) →
      SortedLt (n.split buffer).1.keys ((n.split buffer).1.count - 1) ∧
      SortedLt (n.split buffer).2.1.keys ((n.split buffer).2.1.count - 1)) := by
  refine ⟨?_, ?_, ?_, ?_, ?_⟩
  · intro l k v hs _
    exact l.insert_sorted k v hs
  · intro l k hs
    exact l.erase_sorted k hs
  · intro n k p hs _ habs
    exact n.insert_split_sorted k p hs habs
  · intro l buffer hs
    exact l.split_sorted buffer hs
  · intro n buffer hs
    obtain ⟨hc1, _, hk1, _, hc2, _, hdesc, _⟩ := n.inner_split_desc buffer
    constructor
    · rw [hc1, hk1]
      intro j hj i hij
      exact hs.strictMono hij (by omega)
    · rw [hc2]
      intro j hj i hij
      rw [(hdesc j (by omega)).1, (hdesc i (by omega)).1]
      exact hs.strictMono (by omega) (by omega)

theorem C6_witness :
    (SortedLt (fun j => 10 * (j + 1)) 2 ∧
     (LeafNode.has_space (LeafNode.mk 0 2 (fun j => 10 * (j + 1)) (fun j => j)) 4) = true) ∧
    SortedLt ((LeafNode.mk 0 2 (fun j => 10 * (j + 1)) (fun j => j)).insert 15 0).keys
      ((LeafNode.mk 0 2 (fun j => 10 * (j + 1)) (fun j => j)).insert 15 0).count := by
  refine ⟨⟨by decide, by decide⟩, ?_⟩
  exact (C6_keys_strictly_increasing 4).1 (LeafNode.mk 0 2 (fun j => 10 * (j + 1)) (fun j => j))
    15 0 (by decide) (Or.inl (by decide))

/-! ## Claims C9 and C10 -/

theorem asInner_level (d : NodeData) : d.asInner.level = d.level := by
  cases d <;> rfl

theorem insertPass1FixLoop_nil_of_leaf (cap : Nat) (s : BTreeState) (key fuel pid : Nat)
    (h : (s.pages pid).is_leaf = true) :
    BTree.insertPass1FixLoop cap s key fuel pid = [] := by
  cases fuel with
  | zero => rfl
  | succ fuel => rw [BTree.insertPass1FixLoop, if_pos h]

theorem insertPass1FixLoop_modes (cap : Nat) (s : BTreeState) (key : Nat) :
    ∀ fuel pid, (s.pages pid).is_leaf = false →
      levelsDescend s (BTree.insertPass1FixLoop cap s key fuel pid)
        ((s.pages pid).level - 1) = true →
      ∀ p ∈ BTree.insertPass1FixLoop cap s key fuel pid,
        (p.2 = true ↔ (s.pages p.1).level = 0) := by
  intro fuel
  induction fuel with
  | zero =>
    intro pid _ _ p hp
    simp only [BTree.insertPass1FixLoop, List.not_mem_nil] at hp
  | succ fuel ih =>
    intro pid hleaf hlev p hp
    rw [BTree.insertPass1FixLoop,
      if_neg (by rw [hleaf]; exact Bool.false_ne_true)] at hp hlev
    rw [NodeData.is_leaf, beq_eq_false_iff_ne] at hleaf
    by_cases hsp : (s.pages pid).asInner.has_space cap = true
    · rw [if_pos hsp] at hp hlev
      simp only [levelsDescend, Bool.and_eq_true, beq_iff_eq] at hlev
      obtain ⟨hchild, htail⟩ := hlev
      rcases List.mem_cons.mp hp with heq | hmem
      · subst heq
        dsimp only
        simp only [asInner_level, beq_iff_eq]
        omega
      · by_cases hcl :
          (s.pages ((s.pages pid).asInner.children
            (((s.pages pid).asInner.lower_bound key).1))).is_leaf = true
        · rw [insertPass1FixLoop_nil_of_leaf cap s key fuel _ hcl] at hmem
          exact absurd hmem (List.not_mem_nil p)
        · refine ih _ (Bool.not_eq_true _ ▸ hcl) ?_ p hmem
          rw [hchild]
          exact htail
    · rw [if_neg hsp] at hp
      exact absurd hp (List.not_mem_nil p)

/-- C9 (amended): during the first, optimistic descent of `BTree::insert`
(pass 1, `exclusive = false`), a `fix_page` call requests exclusive mode
exactly when the fixed node is the leaf (level 0): the root is fixed with
`treeHeight == 1` and each child with `innerNode.level == 1`, the guard
naming the level of the PARENT, so the leaf is fixed exclusive while every
inner node — including the level-1 parent of the leaf — is fixed shared.
The hypothesis `levelsDescend` states that the nodes met by the descent sit
at consecutively decreasing levels starting at `treeHeight - 1` (true on
every well-formed tree). -/
theorem C9_pass1_fix_modes_amended (cap : Nat) (s : BTreeState) (key : Nat)
    (hh : 1 ≤ s.treeHeight)
    (hlev : levelsDescend s (BTree.insertPass1Fixes cap s key) (s.treeHeight - 1) = true) :
    ∀ p ∈ BTree.insertPass1Fixes cap s key, (p.2 = true ↔ (s.pages p.1).level = 0) := by
  intro p hp
  rw [BTree.insertPass1Fixes] at hp hlev
  simp only [levelsDescend, Bool.and_eq_true, beq_iff_eq] at hlev
  obtain ⟨hroot, htail⟩ := hlev
  rcases List.mem_cons.mp hp with heq | hmem
  · subst heq
    dsimp only
    simp only [beq_iff_eq]
    omega
  · by_cases hrl : (s.pages s.root).is_leaf = true
    · rw [insertPass1FixLoop_nil_of_leaf cap s key _ _ hrl] at hmem
      exact absurd hmem (List.not_mem_nil p)
    · refine insertPass1FixLoop_modes cap s key _ s.root (Bool.not_eq_true _ ▸ hrl) ?_ p hmem
      rw [hroot]
      exact htail

/-- C9 witness: on the reachable height-2 tree `c9state`, pass 1 fixes the
root shared and the leaf exclusive, as the amended statement predicts. -/
theorem C9_amended_witness :
    (1 ≤ c9state.treeHeight ∧
      levelsDescend c9state (BTree.insertPass1Fixes 4 c9state 2) (c9state.treeHeight - 1) = true) ∧
    (∀ p ∈ BTree.insertPass1Fixes 4 c9state 2, (p.2 = true ↔ (c9state.pages p.1).level = 0)) :=
  ⟨⟨by decide, by decide⟩, C9_pass1_fix_modes_amended 4 c9state 2 (by decide) (by decide)⟩

/-- C9 counterexample: `c9state` is reached from a fresh tree by five
inserts at capacity 4; its root is a level-1 inner node (the parent of a
leaf), yet pass 1 of `insert(2, ·)` fixes it with mode `false` (shared) —
only the leaf child is fixed exclusively.  This refutes the claim that
every pass-1 `fix_page` call on a level-1 inner node requests exclusive
mode. -/
theorem C9_counterexample :
    (c9state.pages c9state.root).is_leaf = false ∧
    (c9state.pages c9state.root).level = 1 ∧
    BTree.insertPass1Fixes 4 c9state 2 =
      [(c9state.root, false), ((c9state.pages c9state.root).asInner.children 0, true)] := by
  decide

/-- C10: if the leaf holding `key` is full (`has_space = false`), `insert`
splits it before any overwrite — even when `key` is already present in the
leaf: the exclusive descent returns `splitDone`, minting a new page id
(the node counter grows by 1, or by 2 when the root is grown), pushing the
separator into the parent via `insert_split` (or growing the root); the
non-exclusive descent returns `goExclusive`; and the eventual overwrite by
`LeafNode::insert` of a present key never changes the leaf count. -/
theorem C10_full_leaf_splits_before_overwrite (cap key value : Nat) (s : BTreeState)
    (pid : Nat) (parent : Option Nat) (fuel : Nat)
    (hleaf : (s.pages pid).is_leaf = true)
    (hfull : (s.pages pid).asLeaf.has_space cap = false)
    (hfound : ((s.pages pid).asLeaf.lower_bound key).2 = true) :
    BTree.insertLoop cap key value true (fuel + 1) s pid parent =
      .splitDone (BTree.splitLeafAt s pid parent) ∧
    BTree.insertLoop cap key value false (fuel + 1) s pid parent = .goExclusive ∧
    (BTree.splitLeafAt s pid parent).nodeCount =
      (match parent with | some _ => s.nodeCount + 1 | none => s.nodeCount + 2) ∧
    (∀ ppid, parent = some ppid →
      (BTree.splitLeafAt s pid parent).pages ppid =
        .inner (((BTree.splitLeafPages s pid).pages ppid).asInner.insert_split
          ((s.pages pid).asLeaf.split ((s.pages (create_new_node_pid s)).asLeaf)).2.2
          (create_new_node_pid s))) ∧
    (parent = none →
      (BTree.splitLeafAt s pid parent).root = create_new_node_pid (BTree.splitLeafPages s pid) ∧
      (BTree.splitLeafAt s pid parent).treeHeight = s.treeHeight + 1) ∧
    ((s.pages pid).asLeaf.insert key value).count = (s.pages pid).asLeaf.count := by
  refine ⟨?_, ?_, ?_, ?_, ?_, ?_⟩
  · rw [BTree.insertLoop, if_pos hleaf, if_neg (by rw [hfull]; exact Bool.false_ne_true),
      if_pos rfl]
  · rw [BTree.insertLoop, if_pos hleaf, if_neg (by rw [hfull]; exact Bool.false_ne_true),
      if_neg Bool.false_ne_true]
  · cases parent with
    | some ppid => rfl
    | none => rfl
  · intro ppid hpp
    subst hpp
    show writePage (BTree.splitLeafPages s pid).pages ppid _ ppid = _
    rw [writePage, if_pos rfl]
  · intro hpp
    subst hpp
    exact ⟨rfl, rfl⟩
  · exact ((s.pages pid).asLeaf.insert_desc_found key value hfound).1

/-- C10 witness: the full single-leaf tree `c10state` already holds key 20;
the exclusive descent splits (growing the root, node counter 1 → 3), the
shared descent restarts exclusively, and the overwrite keeps the count. -/
theorem C10_witness :
    ((c10state.pages c10state.root).is_leaf = true ∧
      (c10state.pages c10state.root).asLeaf.has_space 4 = false ∧
      ((c10state.pages c10state.root).asLeaf.lower_bound 20).2 = true) ∧
    (BTree.insertLoop 4 20 99 true (0 + 1) c10state c10state.root none =
        .splitDone (BTree.splitLeafAt c10state c10state.root none) ∧
      BTree.insertLoop 4 20 99 false (0 + 1) c10state c10state.root none = .goExclusive ∧
      (BTree.splitLeafAt c10state c10state.root none).nodeCount =
        (match (none : Option Nat) with
          | some _ => c10state.nodeCount + 1
          | none => c10state.nodeCount + 2) ∧
      (∀ ppid, (none : Option Nat) = some ppid →
        (BTree.splitLeafAt c10state c10state.root none).pages ppid =
          .inner (((BTree.splitLeafPages c10state c10state.root).pages ppid).asInner.insert_split
            ((c10state.pages c10state.root).asLeaf.split
              ((c10state.pages (create_new_node_pid c10state)).asLeaf)).2.2
            (create_new_node_pid c10state))) ∧
      ((none : Option Nat) = none →
        (BTree.splitLeafAt c10state c10state.root none).root =
          create_new_node_pid (BTree.splitLeafPages c10state c10state.root) ∧
        (BTree.splitLeafAt c10state c10state.root none).treeHeight = c10state.treeHeight + 1) ∧
      ((c10state.pages c10state.root).asLeaf.insert 20 99).count =
        (c10state.pages c10state.root).asLeaf.count) :=
  ⟨⟨by decide, by decide, by decide⟩,
    C10_full_leaf_splits_before_overwrite 4 20 99 c10state c10state.root none 0
      (by decide) (by decide) (by decide)⟩

end Simpledb
namespace Simpledb
open BTree

/-! ### C1 support: well-formed trees and their abstraction -/

theorem writePage_same (pages : Nat → NodeData) (pid : Nat) (d : NodeData) :
    writePage pages pid d pid = d := by
  unfold writePage
  rw [if_pos rfl]

theorem writePage_other (pages : Nat → NodeData) {pid q : Nat} (d : NodeData) (h : q ≠ pid) :
    writePage pages pid d q = pages q := by
  unfold writePage
  rw [if_neg h]

theorem asLeaf_level (d : NodeData) : d.asLeaf.level = d.level := by
  cases d <;> rfl

theorem asLeaf_count (d : NodeData) : d.asLeaf.count = d.count := by
  cases d <;> rfl

theorem asInner_count (d : NodeData) : d.asInner.count = d.count := by
  cases d <;> rfl

/-- `(segment_id << 48) ^ n`, the page id minted for the `n`-th node. -/
def mintedPid (segid n : Nat) : Nat := (segid <<< 48) ^^^ n

theorem mintedPid_inj {segid m n : Nat} (h : mintedPid segid m = mintedPid segid n) :
    m = n := by
  unfold mintedPid at h
  have := congrArg (fun x => (segid <<< 48) ^^^ x) h
  simpa [← Nat.xor_assoc] using this

theorem create_new_node_pid_eq (s : BTreeState) :
    create_new_node_pid s = mintedPid s.segment_id s.nodeCount := rfl

/-- `lo < k` for an optional (exclusive) lower window bound. -/
def loLt : Option Nat → Nat → Prop
  | none, _ => True
  | some a, k => a < k

/-- `k ≤ hi` for an optional (inclusive) upper window bound. -/
def leHi : Nat → Option Nat → Prop
  | _, none => True
  | k, some b => k ≤ b

theorem loLt_none (k : Nat) : loLt none k := trivial

theorem leHi_none (k : Nat) : leHi k none := trivial

theorem loLt_some {a k : Nat} (h : a < k) : loLt (some a) k := h

theorem leHi_some {k b : Nat} (h : k ≤ b) : leHi k (some b) := h

theorem loLt_mono {lo : Option Nat} {j k : Nat} (h : loLt lo j) (hjk : j ≤ k) :
    loLt lo k := by
  cases lo with
  | none => trivial
  | some a => exact Nat.lt_of_lt_of_le h hjk

theorem leHi_mono {hi : Option Nat} {j k : Nat} (h : leHi j hi) (hkj : k ≤ j) :
    leHi k hi := by
  cases hi with
  | none => trivial
  | some b => exact Nat.le_trans hkj h

/-- The key lies in the half-open window `(lo, hi]`. -/
def kWin (key : Nat) (lo hi : Option Nat) : Prop := loLt lo key ∧ leHi key hi

/-- The window lower bound of the `j`-th child of an inner node. -/
def childLo (lo : Option Nat) (n : InnerNode) (j : Nat) : Option Nat :=
  if j = 0 then lo else some (n.keys (j - 1))

/-- The window upper bound of the `j`-th child of an inner node. -/
def childHi (hi : Option Nat) (n : InnerNode) (j : Nat) : Option Nat :=
  if j = n.count - 1 then hi else some (n.keys j)

/-- The page ids of the subtree rooted at `pid`, read at level `lev`. -/
def subtreePids (s : BTreeState) : Nat → Nat → List Nat
  | 0, pid => [pid]
  | lev + 1, pid =>
      pid :: (tabulate (fun j => subtreePids s lev ((s.pages pid).asInner.children j))
        (s.pages pid).asInner.count).flatten

/-- The key/value pairs stored in the leaves of the subtree at `pid`, in
key order on well-formed trees. -/
def subtreeEntries (s : BTreeState) : Nat → Nat → List (Nat × Nat)
  | 0, pid => (s.pages pid).asLeaf.entries
  | lev + 1, pid =>
      (tabulate (fun j => subtreeEntries s lev ((s.pages pid).asInner.children j))
        (s.pages pid).asInner.count).flatten

/-- Well-formedness of the subtree rooted at `pid` at level `lev` over the
window `(lo, hi]`: counts are capped (inner nodes hold 2 to `cap`
children), keys are strictly sorted, all keys lie in the window, and each
child is well-formed over its separator-delimited subwindow. -/
def SubtreeWF (cap : Nat) (s : BTreeState) : Nat → Nat → Option Nat → Option Nat → Prop
  | 0, pid, lo, hi =>
      (s.pages pid).level = 0 ∧
      (s.pages pid).asLeaf.count ≤ cap ∧
      SortedLt (s.pages pid).asLeaf.keys (s.pages pid).asLeaf.count ∧
      (∀ j, j < (s.pages pid).asLeaf.count →
        loLt lo ((s.pages pid).asLeaf.keys j) ∧ leHi ((s.pages pid).asLeaf.keys j) hi)
  | lev + 1, pid, lo, hi =>
      (s.pages pid).level = lev + 1 ∧
      2 ≤ (s.pages pid).asInner.count ∧
      (s.pages pid).asInner.count ≤ cap ∧
      SortedLt (s.pages pid).asInner.keys ((s.pages pid).asInner.count - 1) ∧
      (∀ j, j < (s.pages pid).asInner.count - 1 →
        loLt lo ((s.pages pid).asInner.keys j) ∧ leHi ((s.pages pid).asInner.keys j) hi) ∧
      (∀ j, j < (s.pages pid).asInner.count →
        SubtreeWF cap s lev ((s.pages pid).asInner.children j)
          (childLo lo (s.pages pid).asInner j) (childHi hi (s.pages pid).asInner j))

/-- The sum of squared node counts over a subtree, the termination measure
for the splitting loop of `BTree::insert`. -/
def subtreeWeightT (s : BTreeState) : Nat → Nat → Nat
  | 0, pid => (s.pages pid).count * (s.pages pid).count
  | lev + 1, pid =>
      (s.pages pid).count * (s.pages pid).count +
      (tabulate (fun j => subtreeWeightT s lev ((s.pages pid).asInner.children j))
        (s.pages pid).asInner.count).sum

theorem subtreeWeight_eq (s : BTreeState) : ∀ lev pid,
    subtreeWeight s lev pid = subtreeWeightT s lev pid := by
  intro lev
  induction lev with
  | zero => intro pid; rfl
  | succ lev ih =>
    intro pid
    show _ + List.sum (List.map _ _) = _ + List.sum (tabulate _ _)
    congr 1
    unfold tabulate
    exact congrArg List.sum (List.map_congr_left (fun j _ => ih _))

/-- The global tree invariant. -/
structure TreeWF (cap : Nat) (s : BTreeState) : Prop where
  hroot : SubtreeWF cap s (s.treeHeight - 1) s.root none none
  hheight : 1 ≤ s.treeHeight
  hminted : ∀ q ∈ subtreePids s (s.treeHeight - 1) s.root,
    ∃ n, n < s.nodeCount ∧ q = mintedPid s.segment_id n
  hnodup : (subtreePids s (s.treeHeight - 1) s.root).Nodup

/-- The association map abstracted from a tree state. -/
def abstractLookup (s : BTreeState) (q : Nat) : Option Nat :=
  List.lookup q (subtreeEntries s (s.treeHeight - 1) s.root)

end Simpledb
namespace Simpledb
open BTree

theorem flatten_tabulate_succ {α : Type} (f : Nat → List α) (n : Nat) :
    (tabulate f (n + 1)).flatten = (tabulate f n).flatten ++ f n := by
  rw [tabulate_succ, List.flatten_append]
  simp

theorem flatten_tabulate_add {α : Type} (f : Nat → List α) (a b : Nat) :
    (tabulate f (a + b)).flatten =
      (tabulate f a).flatten ++ (tabulate (fun j => f (a + j)) b).flatten := by
  rw [tabulate_add, List.flatten_append]

theorem flatten_tabulate_congr {α : Type} {f g : Nat → List α} {n : Nat}
    (h : ∀ j, j < n → f j = g j) :
    (tabulate f n).flatten = (tabulate g n).flatten := by
  rw [tabulate_congr h]

theorem mem_flatten_tabulate {α : Type} {f : Nat → List α} {n : Nat} {x : α} :
    x ∈ (tabulate f n).flatten ↔ ∃ j, j < n ∧ x ∈ f j := by
  rw [List.mem_flatten]
  constructor
  · rintro ⟨l, hl, hx⟩
    obtain ⟨j, hj, rfl⟩ := mem_tabulate.mp hl
    exact ⟨j, hj, hx⟩
  · rintro ⟨j, hj, hx⟩
    exact ⟨f j, mem_tabulate.mpr ⟨j, hj, rfl⟩, hx⟩

theorem sum_tabulate_congr {f g : Nat → Nat} {n : Nat}
    (h : ∀ j, j < n → f j = g j) :
    (tabulate f n).sum = (tabulate g n).sum := by
  rw [tabulate_congr h]

theorem sum_tabulate_add (f : Nat → Nat) (a b : Nat) :
    (tabulate f (a + b)).sum = (tabulate f a).sum + (tabulate (fun j => f (a + j)) b).sum := by
  rw [tabulate_add, List.sum_append]

theorem sum_tabulate_one_change {f g : Nat → Nat} {n j0 d : Nat}
    (hj0 : j0 < n) (hother : ∀ j, j < n → j ≠ j0 → f j = g j)
    (hj : f j0 + d ≤ g j0) :
    (tabulate f n).sum + d ≤ (tabulate g n).sum := by
  induction n with
  | zero => omega
  | succ n ih =>
    rw [tabulate_succ, tabulate_succ, List.sum_append, List.sum_append]
    by_cases hn : j0 = n
    · subst hn
      have : (tabulate f j0).sum = (tabulate g j0).sum :=
        sum_tabulate_congr (fun j hj => hother j (by omega) (by omega))
      simp only [List.sum_cons, List.sum_nil]
      omega
    · have hj0n : j0 < n := by omega
      have h1 := ih hj0n (fun j hjn hne => hother j (by omega) hne)
      have h2 : f n = g n := hother n (by omega) (fun he => hn he.symm)
      simp only [List.sum_cons, List.sum_nil]
      omega

theorem lookup_append_congr {l1 l1' l2 l2' : List (Nat × Nat)} {q : Nat}
    (h1 : List.lookup q l1 = List.lookup q l1')
    (h2 : List.lookup q l2 = List.lookup q l2') :
    List.lookup q (l1 ++ l2) = List.lookup q (l1' ++ l2') := by
  cases hv : List.lookup q l1 with
  | some v =>
    rw [lookup_append_of_some hv, lookup_append_of_some (h1 ▸ hv)]
  | none =>
    rw [lookup_append_of_none hv, lookup_append_of_none (h1 ▸ hv), h2]

theorem lookup_flatten_congr {f g : Nat → List (Nat × Nat)} {n q : Nat}
    (h : ∀ j, j < n → List.lookup q (f j) = List.lookup q (g j)) :
    List.lookup q ((tabulate f n).flatten) = List.lookup q ((tabulate g n).flatten) := by
  induction n with
  | zero => rfl
  | succ n ih =>
    rw [flatten_tabulate_succ, flatten_tabulate_succ]
    exact lookup_append_congr (ih (fun j hj => h j (by omega))) (h n (by omega))

theorem lookup_flatten_none {f : Nat → List (Nat × Nat)} {n q : Nat}
    (h : ∀ j, j < n → List.lookup q (f j) = none) :
    List.lookup q ((tabulate f n).flatten) = none := by
  induction n with
  | zero => rfl
  | succ n ih =>
    rw [flatten_tabulate_succ, lookup_append_of_none (ih (fun j hj => h j (by omega)))]
    exact h n (by omega)

theorem lookup_flatten_single {f : Nat → List (Nat × Nat)} {n j0 q : Nat}
    (hj0 : j0 < n)
    (hother : ∀ j, j < n → j ≠ j0 → List.lookup q (f j) = none) :
    List.lookup q ((tabulate f n).flatten) = List.lookup q (f j0) := by
  induction n with
  | zero => omega
  | succ n ih =>
    rw [flatten_tabulate_succ]
    by_cases hn : j0 = n
    · subst hn
      rw [lookup_append_of_none
        (lookup_flatten_none (fun j hj => hother j (by omega) (by omega)))]
    · have h1 := ih (by omega) (fun j hjn hne => hother j (by omega) hne)
      cases hv : List.lookup q (f j0) with
      | some v => rw [lookup_append_of_some (h1.trans hv)]
      | none =>
        rw [lookup_append_of_none (h1.trans hv), hother n (by omega) (fun he => hn he.symm)]

end Simpledb
namespace Simpledb
open BTree

theorem get_tabulate {α : Type} (f : Nat → α) {n i : Nat} (h : i < (tabulate f n).length) :
    (tabulate f n).get ⟨i, h⟩ = f i := by
  unfold tabulate at *
  rw [List.get_map]
  congr 1
  exact List.get_range i _

theorem mem_subtreePids_self (s : BTreeState) (lev pid : Nat) :
    pid ∈ subtreePids s lev pid := by
  cases lev with
  | zero => exact List.mem_singleton.mpr rfl
  | succ lev => exact List.mem_cons_self _ _

theorem mem_subtreePids_child (s : BTreeState) {lev pid j : Nat} {q : Nat}
    (hj : j < (s.pages pid).asInner.count)
    (hq : q ∈ subtreePids s lev ((s.pages pid).asInner.children j)) :
    q ∈ subtreePids s (lev + 1) pid := by
  show q ∈ _ :: _
  exact List.mem_cons_of_mem _ (mem_flatten_tabulate.mpr ⟨j, hj, hq⟩)

theorem subtreePids_succ_nodup {s : BTreeState} {lev pid : Nat}
    (h : (subtreePids s (lev + 1) pid).Nodup) :
    ∀ j, j < (s.pages pid).asInner.count →
      (subtreePids s lev ((s.pages pid).asInner.children j)).Nodup := by
  intro j hj
  have h2 := (List.nodup_cons.mp h).2
  exact (List.nodup_flatten.mp h2).1 _ (mem_tabulate.mpr ⟨j, hj, rfl⟩)

theorem subtreePids_root_not_mem_child {s : BTreeState} {lev pid : Nat}
    (h : (subtreePids s (lev + 1) pid).Nodup) :
    ∀ j, j < (s.pages pid).asInner.count →
      pid ∉ subtreePids s lev ((s.pages pid).asInner.children j) := by
  intro j hj hmem
  exact (List.nodup_cons.mp h).1 (mem_flatten_tabulate.mpr ⟨j, hj, hmem⟩)

theorem subtreePids_sibling_disjoint {s : BTreeState} {lev pid : Nat}
    (h : (subtreePids s (lev + 1) pid).Nodup) :
    ∀ i j, i < (s.pages pid).asInner.count → j < (s.pages pid).asInner.count → i ≠ j →
      ∀ q, q ∈ subtreePids s lev ((s.pages pid).asInner.children i) →
        q ∉ subtreePids s lev ((s.pages pid).asInner.children j) := by
  have h2 := (List.nodup_cons.mp h).2
  have hpw := (List.nodup_flatten.mp h2).2
  rw [List.pairwise_iff_get] at hpw
  intro i j hi hj hij q hqi hqj
  have hlen : ∀ m, m < (s.pages pid).asInner.count →
      m < (tabulate (fun j => subtreePids s lev ((s.pages pid).asInner.children j))
        (s.pages pid).asInner.count).length := by
    intro m hm
    rw [length_tabulate]
    exact hm
  rcases Nat.lt_or_ge i j with hlt | hge
  · have := hpw ⟨i, hlen i hi⟩ ⟨j, hlen j hj⟩ hlt
    rw [get_tabulate _ (hlen i hi), get_tabulate _ (hlen j hj)] at this
    exact this hqi hqj
  · have hjlt : j < i := by omega
    have := hpw ⟨j, hlen j hj⟩ ⟨i, hlen i hi⟩ hjlt
    rw [get_tabulate _ (hlen j hj), get_tabulate _ (hlen i hi)] at this
    exact this hqj hqi

theorem subtreePids_congr {s s' : BTreeState} : ∀ {lev pid : Nat},
    (∀ q ∈ subtreePids s lev pid, s'.pages q = s.pages q) →
    subtreePids s' lev pid = subtreePids s lev pid := by
  intro lev
  induction lev with
  | zero => intro pid _; rfl
  | succ lev ih =>
    intro pid hpages
    have hpid : s'.pages pid = s.pages pid := hpages pid (mem_subtreePids_self s _ pid)
    show pid :: _ = pid :: _
    rw [hpid]
    congr 1
    apply flatten_tabulate_congr
    intro j hj
    exact ih (fun q hq => hpages q (mem_subtreePids_child s hj hq))

theorem subtreeEntries_congr {s s' : BTreeState} : ∀ {lev pid : Nat},
    (∀ q ∈ subtreePids s lev pid, s'.pages q = s.pages q) →
    subtreeEntries s' lev pid = subtreeEntries s lev pid := by
  intro lev
  induction lev with
  | zero =>
    intro pid hpages
    show (s'.pages pid).asLeaf.entries = _
    rw [hpages pid (mem_subtreePids_self s _ pid)]
    rfl
  | succ lev ih =>
    intro pid hpages
    have hpid : s'.pages pid = s.pages pid := hpages pid (mem_subtreePids_self s _ pid)
    show (tabulate _ (s'.pages pid).asInner.count).flatten = _
    rw [hpid]
    apply flatten_tabulate_congr
    intro j hj
    exact ih (fun q hq => hpages q (mem_subtreePids_child s hj hq))

theorem subtreeWeightT_congr {s s' : BTreeState} : ∀ {lev pid : Nat},
    (∀ q ∈ subtreePids s lev pid, s'.pages q = s.pages q) →
    subtreeWeightT s' lev pid = subtreeWeightT s lev pid := by
  intro lev
  induction lev with
  | zero =>
    intro pid hpages
    show (s'.pages pid).count * _ = _
    rw [hpages pid (mem_subtreePids_self s _ pid)]
    rfl
  | succ lev ih =>
    intro pid hpages
    have hpid : s'.pages pid = s.pages pid := hpages pid (mem_subtreePids_self s _ pid)
    show (s'.pages pid).count * _ + (tabulate _ (s'.pages pid).asInner.count).sum = _
    rw [hpid]
    congr 1
    apply sum_tabulate_congr
    intro j hj
    exact ih (fun q hq => hpages q (mem_subtreePids_child s hj hq))

theorem SubtreeWF_congr {cap : Nat} {s s' : BTreeState} : ∀ {lev pid : Nat}
    {lo hi : Option Nat},
    (∀ q ∈ subtreePids s lev pid, s'.pages q = s.pages q) →
    SubtreeWF cap s lev pid lo hi → SubtreeWF cap s' lev pid lo hi := by
  intro lev
  induction lev with
  | zero =>
    intro pid lo hi hpages hwf
    show (s'.pages pid).level = 0 ∧ _
    rw [hpages pid (mem_subtreePids_self s _ pid)]
    exact hwf
  | succ lev ih =>
    intro pid lo hi hpages hwf
    obtain ⟨hl, h2, hc, hs, hw, hch⟩ := hwf
    have hpid : s'.pages pid = s.pages pid := hpages pid (mem_subtreePids_self s _ pid)
    refine ⟨?_, ?_, ?_, ?_, ?_, ?_⟩ <;> rw [hpid]
    · exact hl
    · exact h2
    · exact hc
    · exact hs
    · exact hw
    · intro j hj
      exact ih (fun q hq => hpages q (mem_subtreePids_child s hj hq)) (hch j hj)

/-- All keys stored in a well-formed subtree lie inside its window. -/
theorem subtreeEntries_window {cap : Nat} {s : BTreeState} : ∀ {lev pid : Nat}
    {lo hi : Option Nat},
    SubtreeWF cap s lev pid lo hi →
    ∀ p ∈ subtreeEntries s lev pid, loLt lo p.1 ∧ leHi p.1 hi := by
  intro lev
  induction lev with
  | zero =>
    intro pid lo hi hwf p hp
    obtain ⟨-, -, -, hw⟩ := hwf
    obtain ⟨j, hj, rfl⟩ := mem_tabulate.mp hp
    exact hw j hj
  | succ lev ih =>
    intro pid lo hi hwf p hp
    obtain ⟨-, h2, hc, hs, hw, hch⟩ := hwf
    obtain ⟨j, hj, hpj⟩ := mem_flatten_tabulate.mp hp
    obtain ⟨hplo, hphi⟩ := ih (hch j hj) p hpj
    constructor
    · by_cases hj0 : j = 0
      · rw [childLo, if_pos hj0] at hplo
        exact hplo
      · rw [childLo, if_neg hj0] at hplo
        exact loLt_mono ((hw (j - 1) (by omega)).1) (Nat.le_of_lt hplo)
    · by_cases hjl : j = (s.pages pid).asInner.count - 1
      · rw [childHi, if_pos hjl] at hphi
        exact hphi
      · rw [childHi, if_neg hjl] at hphi
        exact leHi_mono ((hw j (by omega)).2) hphi

end Simpledb
namespace Simpledb
open BTree

theorem is_leaf_of_level_zero {d : NodeData} (h : d.level = 0) : d.is_leaf = true := by
  rw [NodeData.is_leaf, h]
  rfl

theorem is_leaf_false_of_level_succ {d : NodeData} {lev : Nat} (h : d.level = lev + 1) :
    d.is_leaf = false := by
  rw [NodeData.is_leaf, h]
  exact beq_eq_false_iff_ne.mpr (by omega)

/-- The child selected by `lower_bound` during a descent: the search key
lies in its window, and no other child's entries can contain it. -/
theorem descend_child_spec {cap : Nat} {s : BTreeState} {lev pid : Nat}
    {lo hi : Option Nat} {key : Nat}
    (hwf : SubtreeWF cap s (lev + 1) pid lo hi) (hk : kWin key lo hi) :
    ((s.pages pid).asInner.lower_bound key).1 < (s.pages pid).asInner.count ∧
    kWin key
      (childLo lo (s.pages pid).asInner ((s.pages pid).asInner.lower_bound key).1)
      (childHi hi (s.pages pid).asInner ((s.pages pid).asInner.lower_bound key).1) ∧
    (∀ j, j < (s.pages pid).asInner.count →
      j ≠ ((s.pages pid).asInner.lower_bound key).1 →
      ∀ p ∈ subtreeEntries s lev ((s.pages pid).asInner.children j), p.1 ≠ key) := by
  obtain ⟨hl, h2, hc, hs, hw, hch⟩ := hwf
  obtain ⟨-, hspec⟩ := (s.pages pid).asInner.inner_lower_bound_spec key hs.le
  obtain ⟨hb1, hb2, hb3, -⟩ := hspec (by omega)
  refine ⟨by omega, ⟨?_, ?_⟩, ?_⟩
  · by_cases hj0 : ((s.pages pid).asInner.lower_bound key).1 = 0
    · rw [childLo, if_pos hj0]
      exact hk.1
    · rw [childLo, if_neg hj0]
      exact hb2 _ (by omega)
  · by_cases hjl : ((s.pages pid).asInner.lower_bound key).1 = (s.pages pid).asInner.count - 1
    · rw [childHi, if_pos hjl]
      exact hk.2
    · rw [childHi, if_neg hjl]
      exact hb3 (by omega)
  · intro j hj hne p hp
    obtain ⟨hplo, hphi⟩ := subtreeEntries_window (hch j hj) p hp
    rcases Nat.lt_or_ge j ((s.pages pid).asInner.lower_bound key).1 with hlt | hge
    · have hjne : j ≠ (s.pages pid).asInner.count - 1 := by omega
      rw [childHi, if_neg hjne] at hphi
      have h1 : (s.pages pid).asInner.keys j < key := hb2 j (by omega)
      intro he
      rw [he] at hphi
      exact absurd hphi (by rw [leHi]; omega)
    · have hgt : ((s.pages pid).asInner.lower_bound key).1 < j := by omega
      have hj0 : j ≠ 0 := by omega
      rw [childLo, if_neg hj0] at hplo
      have hmono : (s.pages pid).asInner.keys ((s.pages pid).asInner.lower_bound key).1 ≤
          (s.pages pid).asInner.keys (j - 1) :=
        hs.le.mono (by omega) (by omega)
      have hkey : key ≤ (s.pages pid).asInner.keys ((s.pages pid).asInner.lower_bound key).1 :=
        hb3 (by omega)
      intro he
      rw [he] at hplo
      rw [loLt] at hplo
      omega

theorem subtreeEntries_zero (s : BTreeState) (pid : Nat) :
    subtreeEntries s 0 pid = (s.pages pid).asLeaf.entries := rfl

theorem subtreeEntries_succ (s : BTreeState) (lev pid : Nat) :
    subtreeEntries s (lev + 1) pid =
      (tabulate (fun j => subtreeEntries s lev ((s.pages pid).asInner.children j))
        (s.pages pid).asInner.count).flatten := rfl

theorem subtreePids_zero (s : BTreeState) (pid : Nat) :
    subtreePids s 0 pid = [pid] := rfl

theorem subtreePids_succ (s : BTreeState) (lev pid : Nat) :
    subtreePids s (lev + 1) pid =
      pid :: (tabulate (fun j => subtreePids s lev ((s.pages pid).asInner.children j))
        (s.pages pid).asInner.count).flatten := rfl

theorem subtreeWeightT_zero (s : BTreeState) (pid : Nat) :
    subtreeWeightT s 0 pid = (s.pages pid).count * (s.pages pid).count := rfl

theorem subtreeWeightT_succ (s : BTreeState) (lev pid : Nat) :
    subtreeWeightT s (lev + 1) pid =
      (s.pages pid).count * (s.pages pid).count +
      (tabulate (fun j => subtreeWeightT s lev ((s.pages pid).asInner.children j))
        (s.pages pid).asInner.count).sum := rfl

theorem lookupLoop_correct {cap : Nat} {s : BTreeState} {key : Nat} : ∀ {lev pid : Nat}
    {lo hi : Option Nat} {fuel : Nat},
    SubtreeWF cap s lev pid lo hi → kWin key lo hi → lev + 1 ≤ fuel →
    lookupLoop s key fuel pid = some (List.lookup key (subtreeEntries s lev pid)) := by
  intro lev
  induction lev with
  | zero =>
    intro pid lo hi fuel hwf hk hfuel
    obtain ⟨hl, hc, hs, hw⟩ := hwf
    cases fuel with
    | zero => omega
    | succ fuel =>
      rw [lookupLoop, if_pos (is_leaf_of_level_zero hl)]
      rw [subtreeEntries_zero, (s.pages pid).asLeaf.lookup_entries key hs]
  | succ lev ih =>
    intro pid lo hi fuel hwf hk hfuel
    obtain ⟨hj0, hkwin, hother⟩ := descend_child_spec hwf hk
    obtain ⟨hl, h2, hc, hs, hw, hch⟩ := hwf
    cases fuel with
    | zero => omega
    | succ fuel =>
      rw [lookupLoop, if_neg (by rw [is_leaf_false_of_level_succ hl]; exact Bool.false_ne_true)]
      rw [ih (hch _ hj0) hkwin (by omega), subtreeEntries_succ]
      refine congrArg some (Eq.symm
        (@lookup_flatten_single (fun j => subtreeEntries s lev ((s.pages pid).asInner.children j))
          (s.pages pid).asInner.count _ key hj0 ?_))
      intro j hj hne
      rw [lookup_eq_none_iff]
      exact hother j hj hne

/-- `BTree::lookup` on a well-formed tree returns the abstract map. -/
theorem lookup_correct {cap : Nat} {s : BTreeState} (hwf : TreeWF cap s) (key : Nat) :
    BTree.lookup s key = some (abstractLookup s key) := by
  have hh := hwf.hheight
  exact lookupLoop_correct hwf.hroot ⟨trivial, trivial⟩ (by omega)

/-- A freshly constructed tree is well-formed and empty. -/
theorem treeWF_init (cap segid : Nat) :
    TreeWF cap (mkBTree segid) ∧ ∀ q, abstractLookup (mkBTree segid) q = none := by
  have hpage : (mkBTree segid).pages ((mkBTree segid).root) = .leaf zeroLeaf :=
    writePage_same (fun _ => NodeData.leaf zeroLeaf) ((segid <<< 48) ^^^ 0) (NodeData.leaf zeroLeaf)
  have hlev : (mkBTree segid).treeHeight - 1 = 0 := rfl
  constructor
  · refine ⟨?_, by exact Nat.le_refl 1, ?_, ?_⟩
    · rw [hlev]
      refine ⟨?_, ?_, ?_, ?_⟩
      · rw [hpage]
        rfl
      · rw [hpage]
        exact Nat.zero_le _
      · rw [hpage]
        intro j hj
        exact absurd hj (Nat.not_lt_zero j)
      · rw [hpage]
        intro j hj
        exact absurd hj (Nat.not_lt_zero j)
    · rw [hlev, subtreePids_zero]
      intro q hq
      rw [List.mem_singleton] at hq
      exact ⟨0, Nat.zero_lt_one, hq⟩
    · rw [hlev, subtreePids_zero]
      exact List.nodup_singleton _
  · intro q
    rw [abstractLookup, hlev, subtreeEntries_zero, hpage]
    rfl

end Simpledb
namespace Simpledb
open BTree

namespace LeafNode

/-- Static description of `LeafNode::erase`, found or not: the level is
kept, the count does not grow, and every remaining key was present. -/
theorem erase_desc_general (n : LeafNode) (key : Nat) :
    (n.erase key).1.level = n.level ∧ (n.erase key).1.count ≤ n.count ∧
    (∀ j, j < (n.erase key).1.count → ∃ i, i < n.count ∧ (n.erase key).1.keys j = n.keys i) := by
  by_cases hf : (n.lower_bound key).2 = true
  · obtain ⟨-, hc, hlvl, hlo, hhi⟩ := n.erase_desc_found key hf
    refine ⟨hlvl, by omega, ?_⟩
    intro j hj
    rw [hc] at hj
    rcases Nat.lt_or_ge j (n.lower_bound key).1 with h | h
    · exact ⟨j, by omega, (hlo j h).1⟩
    · exact ⟨j + 1, by omega, (hhi j h (by omega)).1⟩
  · have hf' : (n.lower_bound key).2 = false := by simpa using hf
    rw [n.erase_eq_not_found key hf']
    exact ⟨rfl, Nat.le_refl _, fun j hj => ⟨j, hj, rfl⟩⟩

end LeafNode

/-- The descent of `BTree::erase` on a well-formed subtree: it terminates,
touches only the leaf it descends to, preserves well-formedness and
removes exactly `key` from the association map. -/
theorem eraseLoop_spec {cap : Nat} {s : BTreeState} {key : Nat} : ∀ {lev pid : Nat}
    {lo hi : Option Nat} {fuel : Nat},
    SubtreeWF cap s lev pid lo hi → kWin key lo hi →
    (subtreePids s lev pid).Nodup → lev + 1 ≤ fuel →
    ∃ s', eraseLoop s key fuel pid = some s' ∧
      s'.segment_id = s.segment_id ∧ s'.root = s.root ∧ s'.nodeCount = s.nodeCount ∧
      s'.treeHeight = s.treeHeight ∧
      (∀ q, q ∉ subtreePids s lev pid → s'.pages q = s.pages q) ∧
      SubtreeWF cap s' lev pid lo hi ∧
      subtreePids s' lev pid = subtreePids s lev pid ∧
      (∀ q, List.lookup q (subtreeEntries s' lev pid) =
        if q = key then none else List.lookup q (subtreeEntries s lev pid)) := by
  intro lev
  induction lev with
  | zero =>
    intro pid lo hi fuel hwf hk hnd hfuel
    obtain ⟨hl, hc, hs, hw⟩ := hwf
    cases fuel with
    | zero => omega
    | succ fuel =>
      rw [eraseLoop, if_pos (is_leaf_of_level_zero hl)]
      refine ⟨_, rfl, rfl, rfl, rfl, rfl, ?_, ?_, ?_, ?_⟩
      · intro q hq
        rw [subtreePids_zero, List.mem_singleton] at hq
        exact writePage_other _ _ hq
      · have hpg : (writePage s.pages pid (.leaf ((s.pages pid).asLeaf.erase key).1)) pid =
          .leaf ((s.pages pid).asLeaf.erase key).1 := writePage_same _ _ _
        obtain ⟨he1, he2, he3⟩ := (s.pages pid).asLeaf.erase_desc_general key
        refine ⟨?_, ?_, ?_, ?_⟩
        · show (writePage _ _ _ pid).level = 0
          rw [hpg]
          show ((s.pages pid).asLeaf.erase key).1.level = 0
          rw [he1, asLeaf_level, hl]
        · show (writePage _ _ _ pid).asLeaf.count ≤ cap
          rw [hpg]
          show ((s.pages pid).asLeaf.erase key).1.count ≤ cap
          omega
        · show SortedLt (writePage _ _ _ pid).asLeaf.keys (writePage _ _ _ pid).asLeaf.count
          rw [hpg]
          exact (s.pages pid).asLeaf.erase_sorted key hs
        · intro j hj
          dsimp only at hj ⊢
          rw [hpg] at hj ⊢
          obtain ⟨i, hilt, hik⟩ := he3 j hj
          show loLt lo (((s.pages pid).asLeaf.erase key).1.keys j) ∧
            leHi (((s.pages pid).asLeaf.erase key).1.keys j) hi
          rw [hik]
          exact hw i hilt
      · rw [subtreePids_zero, subtreePids_zero]
      · intro q
        rw [subtreeEntries_zero, subtreeEntries_zero]
        have hpg : (writePage s.pages pid (.leaf ((s.pages pid).asLeaf.erase key).1)) pid =
          .leaf ((s.pages pid).asLeaf.erase key).1 := writePage_same _ _ _
        show List.lookup q ((writePage _ _ _ pid).asLeaf.entries) = _
        rw [hpg]
        show List.lookup q (((s.pages pid).asLeaf.erase key).1.entries) = _
        exact (s.pages pid).asLeaf.erase_lookup key hs q
  | succ lev ih =>
    intro pid lo hi fuel hwf hk hnd hfuel
    obtain ⟨hj0, hkwin, hother⟩ := descend_child_spec hwf hk
    obtain ⟨hl, h2, hc, hs, hw, hch⟩ := hwf
    cases fuel with
    | zero => omega
    | succ fuel =>
      rw [eraseLoop, if_neg (by rw [is_leaf_false_of_level_succ hl]; exact Bool.false_ne_true)]
      have hfe : lev + 1 ≤ fuel := by omega
      obtain ⟨s', heq, hseg, hroot, hnc, hth, hframe, hwf', hpids', hlook⟩ :=
        ih (hch _ hj0) hkwin (subtreePids_succ_nodup hnd _ hj0) hfe
      have hpid_frame : s'.pages pid = s.pages pid :=
        hframe pid (subtreePids_root_not_mem_child hnd _ hj0)
      have hsib : ∀ j, j < (s.pages pid).asInner.count →
          j ≠ ((s.pages pid).asInner.lower_bound key).1 →
          ∀ q ∈ subtreePids s lev ((s.pages pid).asInner.children j),
            s'.pages q = s.pages q := by
        intro j hj hne q hq
        exact hframe q (subtreePids_sibling_disjoint hnd j _ hj hj0
          (fun he => hne he) q hq)
      refine ⟨s', heq, hseg, hroot, hnc, hth, ?_, ?_, ?_, ?_⟩
      · intro q hq
        refine hframe q (fun hmem => hq ?_)
        exact mem_subtreePids_child s hj0 hmem
      · refine ⟨?_, ?_, ?_, ?_, ?_, ?_⟩ <;> rw [hpid_frame]
        · exact hl
        · exact h2
        · exact hc
        · exact hs
        · exact hw
        · intro j hj
          by_cases hje : j = ((s.pages pid).asInner.lower_bound key).1
          · subst hje
            exact hwf'
          · exact SubtreeWF_congr (hsib j hj hje) (hch j hj)
      · rw [subtreePids_succ, subtreePids_succ, hpid_frame]
        congr 1
        apply flatten_tabulate_congr
        intro j hj
        by_cases hje : j = ((s.pages pid).asInner.lower_bound key).1
        · subst hje
          exact hpids'
        · exact subtreePids_congr (hsib j hj hje)
      · intro q
        rw [subtreeEntries_succ, subtreeEntries_succ, hpid_frame]
        by_cases hq : q = key
        · subst hq
          rw [if_pos rfl]
          apply lookup_flatten_none
          intro j hj
          by_cases hje : j = ((s.pages pid).asInner.lower_bound q).1
          · subst hje
            rw [hlook q, if_pos rfl]
          · rw [subtreeEntries_congr (hsib j hj hje), lookup_eq_none_iff]
            exact hother j hj hje
        · rw [if_neg hq]
          apply lookup_flatten_congr
          intro j hj
          by_cases hje : j = ((s.pages pid).asInner.lower_bound key).1
          · subst hje
            rw [hlook q, if_neg hq]
          · rw [subtreeEntries_congr (hsib j hj hje)]

/-- `BTree::erase` on a well-formed tree: it succeeds, preserves the
invariant and removes exactly `key` from the abstract map. -/
theorem erase_correct {cap : Nat} {s : BTreeState} (hwf : TreeWF cap s) (key : Nat) :
    ∃ s', BTree.erase s key = some s' ∧ TreeWF cap s' ∧
      (∀ q, abstractLookup s' q = if q = key then none else abstractLookup s q) := by
  have hh := hwf.hheight
  obtain ⟨s', heq, hseg, hroot, hnc, hth, hframe, hwf', hpids', hlook⟩ :=
    @eraseLoop_spec cap s key (s.treeHeight - 1) s.root none none (s.treeHeight + 1)
      hwf.hroot ⟨trivial, trivial⟩ hwf.hnodup (by omega)
  refine ⟨s', heq, ⟨?_, ?_, ?_, ?_⟩, ?_⟩
  · rw [hth, hroot]
    exact hwf'
  · omega
  · rw [hth, hroot, hnc, hseg, hpids']
    exact hwf.hminted
  · rw [hth, hroot, hpids']
    exact hwf.hnodup
  · intro q
    rw [abstractLookup, abstractLookup, hth, hroot]
    exact hlook q

end Simpledb
namespace Simpledb
open BTree

/-- The split performed by `BTree::insert` at a node of level `lev`:
page writes only (node + fresh right sibling + node counter). -/
def splitNodePages (lev : Nat) (s : BTreeState) (pid : Nat) : BTreeState :=
  match lev with
  | 0 => BTree.splitLeafPages s pid
  | _ + 1 => BTree.splitInnerPages s pid

/-- The full split arm (including the parent update or root growth). -/
def splitNodeAt (lev : Nat) (s : BTreeState) (pid : Nat) (par : Option Nat) : BTreeState :=
  match lev with
  | 0 => BTree.splitLeafAt s pid par
  | _ + 1 => BTree.splitInnerAt s pid par

/-- The separator pushed up by the split at a node of level `lev`. -/
def splitNodeSep (lev : Nat) (s : BTreeState) (pid : Nat) : Nat :=
  match lev with
  | 0 => ((s.pages pid).asLeaf.split ((s.pages (create_new_node_pid s)).asLeaf)).2.2
  | _ + 1 => ((s.pages pid).asInner.split ((s.pages (create_new_node_pid s)).asInner)).2.2

theorem splitNodeAt_some (lev : Nat) (s : BTreeState) (pid ppid : Nat) :
    splitNodeAt lev s pid (some ppid) =
      { splitNodePages lev s pid with
        pages := writePage (splitNodePages lev s pid).pages ppid
          (.inner (((splitNodePages lev s pid).pages ppid).asInner.insert_split
            (splitNodeSep lev s pid) (create_new_node_pid s))) } := by
  cases lev <;> rfl

theorem splitNodeAt_none (lev : Nat) (s : BTreeState) (pid : Nat) :
    splitNodeAt lev s pid none =
      grow_root (splitNodePages lev s pid) ((s.pages pid).level + 1)
        (splitNodeSep lev s pid) pid (create_new_node_pid s) := by
  cases lev with
  | zero =>
    show grow_root _ ((s.pages pid).asLeaf.level + 1) _ _ _ = _
    rw [asLeaf_level]
    rfl
  | succ lev =>
    show grow_root _ ((s.pages pid).asInner.level + 1) _ _ _ = _
    rw [asInner_level]
    rfl

theorem split_count_arith {cap : Nat} (h : 4 ≤ cap) :
    (cap - cap / 2) * (cap - cap / 2) + cap / 2 * (cap / 2) + 2 * cap ≤ cap * cap := by
  have ha : 2 ≤ cap / 2 := by omega
  have hb : 2 ≤ cap - cap / 2 := by omega
  set a := cap / 2 with hadef
  set b := cap - cap / 2 with hbdef
  have hkey : a + b ≤ a * b := by
    rcases le_or_lt a b with hle | hlt
    · calc a + b ≤ b + b := by omega
        _ = 2 * b := by omega
        _ ≤ a * b := Nat.mul_le_mul_right b ha
    · calc a + b ≤ a + a := by omega
        _ = a * 2 := by omega
        _ ≤ a * b := Nat.mul_le_mul_left a hb
  calc b * b + a * a + 2 * cap
      = b * b + a * a + 2 * (a + b) := by omega
    _ ≤ b * b + a * a + 2 * (a * b) := by omega
    _ = (b + a) * (b + a) := by ring
    _ = cap * cap := by rw [show b + a = cap from by omega]

end Simpledb
namespace Simpledb
open BTree

/-- The page-level effect of the split of a full node at level `lev`: the
node keeps the lower half over `(lo, sep]`, the freshly minted right
sibling takes the upper half over `(sep, hi]`, the separator lies strictly
inside the window, the entries are exactly redistributed, one fresh page
id joins the subtree and the weight drops by at least `2 * cap`. -/
theorem splitNodePages_spec {cap : Nat} {s : BTreeState} {lev pid : Nat}
    {lo hi : Option Nat}
    (hwf : SubtreeWF cap s lev pid lo hi)
    (hfull : (s.pages pid).count = cap)
    (hcap : 4 ≤ cap)
    (hnd : (subtreePids s lev pid).Nodup)
    (hfresh : create_new_node_pid s ∉ subtreePids s lev pid) :
    (splitNodePages lev s pid).segment_id = s.segment_id ∧
    (splitNodePages lev s pid).root = s.root ∧
    (splitNodePages lev s pid).treeHeight = s.treeHeight ∧
    (splitNodePages lev s pid).nodeCount = s.nodeCount + 1 ∧
    (∀ q, q ≠ pid → q ≠ create_new_node_pid s →
      (splitNodePages lev s pid).pages q = s.pages q) ∧
    SubtreeWF cap (splitNodePages lev s pid) lev pid lo (some (splitNodeSep lev s pid)) ∧
    SubtreeWF cap (splitNodePages lev s pid) lev (create_new_node_pid s)
      (some (splitNodeSep lev s pid)) hi ∧
    loLt lo (splitNodeSep lev s pid) ∧
    (∀ b, hi = some b → splitNodeSep lev s pid < b) ∧
    subtreeEntries (splitNodePages lev s pid) lev pid ++
      subtreeEntries (splitNodePages lev s pid) lev (create_new_node_pid s) =
      subtreeEntries s lev pid ∧
    List.Perm
      (subtreePids (splitNodePages lev s pid) lev pid ++
        subtreePids (splitNodePages lev s pid) lev (create_new_node_pid s))
      (create_new_node_pid s :: subtreePids s lev pid) ∧
    subtreeWeightT (splitNodePages lev s pid) lev pid +
      subtreeWeightT (splitNodePages lev s pid) lev (create_new_node_pid s) + 2 * cap ≤
      subtreeWeightT s lev pid := by
  have hpf : pid ≠ create_new_node_pid s :=
    fun he => hfresh (he ▸ mem_subtreePids_self s lev pid)
  cases lev with
  | zero =>
    rw [show splitNodePages 0 s pid = BTree.splitLeafPages s pid from rfl,
      show splitNodeSep 0 s pid =
        ((s.pages pid).asLeaf.split ((s.pages (create_new_node_pid s)).asLeaf)).2.2 from rfl]
    obtain ⟨hl, hc, hs, hw⟩ := hwf
    have hcnt : (s.pages pid).asLeaf.count = cap := by
      rw [asLeaf_count]
      exact hfull
    have h2 : 2 ≤ (s.pages pid).asLeaf.count := by omega
    have hpg1 : (BTree.splitLeafPages s pid).pages pid =
        .leaf ((s.pages pid).asLeaf.split ((s.pages (create_new_node_pid s)).asLeaf)).1 := by
      show writePage (writePage s.pages pid _) (create_new_node_pid s) _ pid = _
      rw [writePage_other _ _ hpf, writePage_same]
    have hpg2 : (BTree.splitLeafPages s pid).pages (create_new_node_pid s) =
        .leaf ((s.pages pid).asLeaf.split ((s.pages (create_new_node_pid s)).asLeaf)).2.1 := by
      show writePage (writePage s.pages pid _) (create_new_node_pid s) _ (create_new_node_pid s) = _
      rw [writePage_same]
    have hframe : ∀ q, q ≠ pid → q ≠ create_new_node_pid s →
        (BTree.splitLeafPages s pid).pages q = s.pages q := by
      intro q h1 h2x
      show writePage (writePage s.pages pid _) (create_new_node_pid s) _ q = _
      rw [writePage_other _ _ h2x, writePage_other _ _ h1]
    obtain ⟨hc1, hlvl1, hk1, hv1, hc2, hlvl2, hdesc, hsep⟩ :=
      (s.pages pid).asLeaf.split_desc ((s.pages (create_new_node_pid s)).asLeaf)
    obtain ⟨hs1, hs2⟩ :=
      (s.pages pid).asLeaf.split_sorted ((s.pages (create_new_node_pid s)).asLeaf) hs
    obtain ⟨hsepeq, hseple, hsepgt⟩ :=
      (s.pages pid).asLeaf.split_separator ((s.pages (create_new_node_pid s)).asLeaf) hs h2
    refine ⟨rfl, rfl, rfl, rfl, hframe, ?_, ?_, ?_, ?_, ?_, ?_, ?_⟩
    · refine ⟨?_, ?_, ?_, ?_⟩
      · show ((BTree.splitLeafPages s pid).pages pid).level = 0
        rw [hpg1]
        show ((s.pages pid).asLeaf.split _).1.level = 0
        rw [hlvl1, asLeaf_level, hl]
      · show ((BTree.splitLeafPages s pid).pages pid).asLeaf.count ≤ cap
        rw [hpg1]
        show ((s.pages pid).asLeaf.split _).1.count ≤ cap
        omega
      · show SortedLt ((BTree.splitLeafPages s pid).pages pid).asLeaf.keys
          ((BTree.splitLeafPages s pid).pages pid).asLeaf.count
        rw [hpg1]
        exact hs1
      · intro j hj
        rw [hpg1] at hj ⊢
        have hj1 : j < ((s.pages pid).asLeaf.split
            ((s.pages (create_new_node_pid s)).asLeaf)).1.count := hj
        have hj2 : j < (s.pages pid).asLeaf.count - (s.pages pid).asLeaf.count / 2 := by
          rw [hc1] at hj1
          exact hj1
        constructor
        · show loLt lo (((s.pages pid).asLeaf.split _).1.keys j)
          rw [hk1]
          exact (hw j (by omega)).1
        · exact leHi_some (hseple j hj1)
    · refine ⟨?_, ?_, ?_, ?_⟩
      · show ((BTree.splitLeafPages s pid).pages (create_new_node_pid s)).level = 0
        rw [hpg2]
        show ((s.pages pid).asLeaf.split _).2.1.level = 0
        rw [hlvl2, asLeaf_level, hl]
      · show ((BTree.splitLeafPages s pid).pages (create_new_node_pid s)).asLeaf.count ≤ cap
        rw [hpg2]
        show ((s.pages pid).asLeaf.split _).2.1.count ≤ cap
        omega
      · rw [hpg2]
        exact hs2
      · intro j hj
        rw [hpg2] at hj ⊢
        constructor
        · exact loLt_some (hsepgt j hj)
        · show leHi (((s.pages pid).asLeaf.split _).2.1.keys j) hi
          have hj1 : j < ((s.pages pid).asLeaf.split
              ((s.pages (create_new_node_pid s)).asLeaf)).2.1.count := hj
          have hj2 : j < (s.pages pid).asLeaf.count / 2 := by
            rw [hc2] at hj1
            exact hj1
          rw [(hdesc j hj2).1]
          exact (hw _ (by omega)).2
    · show loLt lo (((s.pages pid).asLeaf.split _).2.2)
      rw [hsep]
      exact (hw _ (by omega)).1
    · intro b hb
      show ((s.pages pid).asLeaf.split _).2.2 < b
      rw [hsep]
      have hlast : (s.pages pid).asLeaf.keys ((s.pages pid).asLeaf.count - 1) ≤ b := by
        have := (hw ((s.pages pid).asLeaf.count - 1) (by omega)).2
        rw [hb] at this
        exact this
      have hlt : (s.pages pid).asLeaf.keys ((s.pages pid).asLeaf.count -
          (s.pages pid).asLeaf.count / 2 - 1) <
          (s.pages pid).asLeaf.keys ((s.pages pid).asLeaf.count - 1) :=
        hs.strictMono (by omega) (by omega)
      omega
    · rw [subtreeEntries_zero, subtreeEntries_zero, subtreeEntries_zero, hpg1, hpg2]
      exact (s.pages pid).asLeaf.split_entries ((s.pages (create_new_node_pid s)).asLeaf)
    · rw [subtreePids_zero, subtreePids_zero, subtreePids_zero]
      exact List.Perm.swap (create_new_node_pid s) pid []
    · rw [subtreeWeightT_zero, subtreeWeightT_zero, subtreeWeightT_zero, hpg1, hpg2, hfull]
      show ((s.pages pid).asLeaf.split _).1.count * ((s.pages pid).asLeaf.split _).1.count +
        ((s.pages pid).asLeaf.split _).2.1.count * ((s.pages pid).asLeaf.split _).2.1.count +
        2 * cap ≤ cap * cap
      rw [hc1, hc2, hcnt]
      exact split_count_arith hcap
  | succ lev =>
    rw [show splitNodePages (lev + 1) s pid = BTree.splitInnerPages s pid from rfl,
      show splitNodeSep (lev + 1) s pid =
        ((s.pages pid).asInner.split ((s.pages (create_new_node_pid s)).asInner)).2.2 from rfl]
    obtain ⟨hl, h2c, hc, hs, hw, hch⟩ := hwf
    have hcnt : (s.pages pid).asInner.count = cap := by
      rw [asInner_count]
      exact hfull
    have h2 : 2 ≤ (s.pages pid).asInner.count := by omega
    have hpg1 : (BTree.splitInnerPages s pid).pages pid =
        .inner ((s.pages pid).asInner.split ((s.pages (create_new_node_pid s)).asInner)).1 := by
      show writePage (writePage s.pages pid _) (create_new_node_pid s) _ pid = _
      rw [writePage_other _ _ hpf, writePage_same]
    have hpg2 : (BTree.splitInnerPages s pid).pages (create_new_node_pid s) =
        .inner ((s.pages pid).asInner.split ((s.pages (create_new_node_pid s)).asInner)).2.1 := by
      show writePage (writePage s.pages pid _) (create_new_node_pid s) _ (create_new_node_pid s) = _
      rw [writePage_same]
    have hframe : ∀ q, q ≠ pid → q ≠ create_new_node_pid s →
        (BTree.splitInnerPages s pid).pages q = s.pages q := by
      intro q h1 h2x
      show writePage (writePage s.pages pid _) (create_new_node_pid s) _ q = _
      rw [writePage_other _ _ h2x, writePage_other _ _ h1]
    obtain ⟨hc1, hlvl1, hk1, hch1, hc2, hlvl2, hdesc, hsep⟩ :=
      (s.pages pid).asInner.inner_split_desc ((s.pages (create_new_node_pid s)).asInner)
    obtain ⟨hs1, hs2, hltsep, hgtsep⟩ :=
      (s.pages pid).asInner.inner_split_sorted ((s.pages (create_new_node_pid s)).asInner) hs h2
    have hchframe : ∀ j, j < (s.pages pid).asInner.count →
        ∀ q ∈ subtreePids s lev ((s.pages pid).asInner.children j),
          (BTree.splitInnerPages s pid).pages q = s.pages q := by
      intro j hj q hq
      refine hframe q (fun he => ?_) (fun he => ?_)
      · exact subtreePids_root_not_mem_child hnd j hj (he ▸ hq)
      · exact hfresh (he ▸ mem_subtreePids_child s hj hq)
    refine ⟨rfl, rfl, rfl, rfl, hframe, ?_, ?_, ?_, ?_, ?_, ?_, ?_⟩
    · refine ⟨?_, ?_, ?_, ?_, ?_, ?_⟩
      · show ((BTree.splitInnerPages s pid).pages pid).level = lev + 1
        rw [hpg1]
        show ((s.pages pid).asInner.split _).1.level = lev + 1
        rw [hlvl1, asInner_level, hl]
      · show 2 ≤ ((BTree.splitInnerPages s pid).pages pid).asInner.count
        rw [hpg1]
        show 2 ≤ ((s.pages pid).asInner.split _).1.count
        omega
      · show ((BTree.splitInnerPages s pid).pages pid).asInner.count ≤ cap
        rw [hpg1]
        show ((s.pages pid).asInner.split _).1.count ≤ cap
        omega
      · show SortedLt ((BTree.splitInnerPages s pid).pages pid).asInner.keys
          (((BTree.splitInnerPages s pid).pages pid).asInner.count - 1)
        rw [hpg1]
        exact hs1
      · intro j hj
        rw [hpg1] at hj ⊢
        have hj1 : j < ((s.pages pid).asInner.split
            ((s.pages (create_new_node_pid s)).asInner)).1.count - 1 := hj
        have hj2 : j < (s.pages pid).asInner.count - (s.pages pid).asInner.count / 2 - 1 := by
          rw [hc1] at hj1
          exact hj1
        constructor
        · show loLt lo (((s.pages pid).asInner.split _).1.keys j)
          rw [hk1]
          exact (hw j (by omega)).1
        · exact leHi_some (Nat.le_of_lt (hltsep j hj1))
      · intro j hj
        rw [hpg1] at hj ⊢
        have hj1 : j < ((s.pages pid).asInner.split
            ((s.pages (create_new_node_pid s)).asInner)).1.count := hj
        have hj2 : j < (s.pages pid).asInner.count - (s.pages pid).asInner.count / 2 := by
          rw [hc1] at hj1
          exact hj1
        show SubtreeWF cap _ lev (((s.pages pid).asInner.split _).1.children j)
          (childLo lo ((s.pages pid).asInner.split _).1 j)
          (childHi (some (((s.pages pid).asInner.split _).2.2)) ((s.pages pid).asInner.split _).1 j)
        have hwlo : childLo lo ((s.pages pid).asInner.split
            ((s.pages (create_new_node_pid s)).asInner)).1 j =
            childLo lo (s.pages pid).asInner j := by
          unfold childLo
          by_cases hj0 : j = 0
          · rw [if_pos hj0, if_pos hj0]
          · rw [if_neg hj0, if_neg hj0, hk1]
        have hwhi : childHi (some (((s.pages pid).asInner.split
              ((s.pages (create_new_node_pid s)).asInner)).2.2)) ((s.pages pid).asInner.split
            ((s.pages (create_new_node_pid s)).asInner)).1 j =
            childHi hi (s.pages pid).asInner j := by
          unfold childHi
          by_cases hjl : j = ((s.pages pid).asInner.split
              ((s.pages (create_new_node_pid s)).asInner)).1.count - 1
          · rw [if_pos hjl, if_neg (by rw [hc1] at hjl; omega), hsep]
            congr 2
            rw [hc1] at hjl
            omega
          · rw [if_neg hjl, if_neg (by rw [hc1] at hjl; omega), hk1]
        rw [hwlo, hwhi, hch1]
        exact SubtreeWF_congr (hchframe j (by omega)) (hch j (by omega))
    · refine ⟨?_, ?_, ?_, ?_, ?_, ?_⟩
      · show ((BTree.splitInnerPages s pid).pages (create_new_node_pid s)).level = lev + 1
        rw [hpg2]
        show ((s.pages pid).asInner.split _).2.1.level = lev + 1
        rw [hlvl2, asInner_level, hl]
      · show 2 ≤ ((BTree.splitInnerPages s pid).pages (create_new_node_pid s)).asInner.count
        rw [hpg2]
        show 2 ≤ ((s.pages pid).asInner.split _).2.1.count
        omega
      · show ((BTree.splitInnerPages s pid).pages (create_new_node_pid s)).asInner.count ≤ cap
        rw [hpg2]
        show ((s.pages pid).asInner.split _).2.1.count ≤ cap
        omega
      · rw [hpg2]
        exact hs2
      · intro j hj
        rw [hpg2] at hj ⊢
        have hj1 : j < ((s.pages pid).asInner.split
            ((s.pages (create_new_node_pid s)).asInner)).2.1.count - 1 := hj
        have hj2 : j < (s.pages pid).asInner.count / 2 - 1 := by
          rw [hc2] at hj1
          exact hj1
        constructor
        · exact loLt_some (hgtsep j hj1)
        · show leHi (((s.pages pid).asInner.split _).2.1.keys j) hi
          rw [(hdesc j (by omega)).1]
          exact (hw _ (by omega)).2
      · intro j hj
        rw [hpg2] at hj ⊢
        have hj1 : j < ((s.pages pid).asInner.split
            ((s.pages (create_new_node_pid s)).asInner)).2.1.count := hj
        have hj2 : j < (s.pages pid).asInner.count / 2 := by
          rw [hc2] at hj1
          exact hj1
        show SubtreeWF cap _ lev (((s.pages pid).asInner.split _).2.1.children j)
          (childLo (some (((s.pages pid).asInner.split _).2.2)) ((s.pages pid).asInner.split _).2.1 j)
          (childHi hi ((s.pages pid).asInner.split _).2.1 j)
        have hwlo : childLo (some (((s.pages pid).asInner.split
              ((s.pages (create_new_node_pid s)).asInner)).2.2)) ((s.pages pid).asInner.split
            ((s.pages (create_new_node_pid s)).asInner)).2.1 j =
            childLo lo (s.pages pid).asInner
              ((s.pages pid).asInner.count - (s.pages pid).asInner.count / 2 + j) := by
          unfold childLo
          by_cases hj0 : j = 0
          · rw [if_pos hj0, if_neg (by omega), hsep]
            congr 2
            omega
          · rw [if_neg hj0, if_neg (by omega), (hdesc (j - 1) (by omega)).1]
            congr 2
            omega
        have hwhi : childHi hi ((s.pages pid).asInner.split
            ((s.pages (create_new_node_pid s)).asInner)).2.1 j =
            childHi hi (s.pages pid).asInner
              ((s.pages pid).asInner.count - (s.pages pid).asInner.count / 2 + j) := by
          unfold childHi
          by_cases hjl : j = ((s.pages pid).asInner.split
              ((s.pages (create_new_node_pid s)).asInner)).2.1.count - 1
          · rw [if_pos hjl, if_pos (by rw [hc2] at hjl; omega)]
          · rw [if_neg hjl, if_neg (by rw [hc2] at hjl; omega), (hdesc j hj2).1]
        rw [hwlo, hwhi, (hdesc j hj2).2]
        exact SubtreeWF_congr (hchframe _ (by omega)) (hch _ (by omega))
    · show loLt lo (((s.pages pid).asInner.split _).2.2)
      rw [hsep]
      exact (hw _ (by omega)).1
    · intro b hb
      show ((s.pages pid).asInner.split _).2.2 < b
      rw [hsep]
      have hlast : (s.pages pid).asInner.keys ((s.pages pid).asInner.count - 2) ≤ b := by
        have := (hw ((s.pages pid).asInner.count - 2) (by omega)).2
        rw [hb] at this
        exact this
      have hlt : (s.pages pid).asInner.keys ((s.pages pid).asInner.count -
          (s.pages pid).asInner.count / 2 - 1) <
          (s.pages pid).asInner.keys ((s.pages pid).asInner.count - 2) :=
        hs.strictMono (by omega) (by omega)
      omega
    · have hab : (s.pages pid).asInner.count =
          ((s.pages pid).asInner.count - (s.pages pid).asInner.count / 2) +
          (s.pages pid).asInner.count / 2 := by omega
      have hleft : subtreeEntries (BTree.splitInnerPages s pid) (lev + 1) pid =
          (tabulate (fun j => subtreeEntries s lev ((s.pages pid).asInner.children j))
            ((s.pages pid).asInner.count - (s.pages pid).asInner.count / 2)).flatten := by
        rw [subtreeEntries_succ, hpg1]
        show (tabulate (fun j => subtreeEntries _ lev
          (((s.pages pid).asInner.split _).1.children j))
          ((s.pages pid).asInner.split _).1.count).flatten = _
        rw [hch1, hc1]
        apply flatten_tabulate_congr
        intro j hj
        exact subtreeEntries_congr (hchframe j (by omega))
      have hright : subtreeEntries (BTree.splitInnerPages s pid) (lev + 1) (create_new_node_pid s) =
          (tabulate (fun j => subtreeEntries s lev ((s.pages pid).asInner.children
            ((s.pages pid).asInner.count - (s.pages pid).asInner.count / 2 + j)))
            ((s.pages pid).asInner.count / 2)).flatten := by
        rw [subtreeEntries_succ, hpg2]
        show (tabulate (fun j => subtreeEntries _ lev
          (((s.pages pid).asInner.split _).2.1.children j))
          ((s.pages pid).asInner.split _).2.1.count).flatten = _
        rw [hc2]
        apply flatten_tabulate_congr
        intro j hj
        rw [(hdesc j hj).2]
        exact subtreeEntries_congr (hchframe _ (by omega))
      have hflat : (tabulate (fun j => subtreeEntries s lev ((s.pages pid).asInner.children j))
            ((s.pages pid).asInner.count)).flatten =
          (tabulate (fun j => subtreeEntries s lev ((s.pages pid).asInner.children j))
            ((s.pages pid).asInner.count - (s.pages pid).asInner.count / 2)).flatten ++
          (tabulate (fun j => subtreeEntries s lev ((s.pages pid).asInner.children
            ((s.pages pid).asInner.count - (s.pages pid).asInner.count / 2 + j)))
            ((s.pages pid).asInner.count / 2)).flatten := by
        conv_lhs => rw [hab]
        rw [flatten_tabulate_add]
      rw [hleft, hright, subtreeEntries_succ, hflat]
    · have hab : (s.pages pid).asInner.count =
          ((s.pages pid).asInner.count - (s.pages pid).asInner.count / 2) +
          (s.pages pid).asInner.count / 2 := by omega
      have hleft : subtreePids (BTree.splitInnerPages s pid) (lev + 1) pid =
          pid :: (tabulate (fun j => subtreePids s lev ((s.pages pid).asInner.children j))
            ((s.pages pid).asInner.count - (s.pages pid).asInner.count / 2)).flatten := by
        rw [subtreePids_succ, hpg1]
        show pid :: (tabulate (fun j => subtreePids _ lev
          (((s.pages pid).asInner.split _).1.children j))
          ((s.pages pid).asInner.split _).1.count).flatten = _
        rw [hch1, hc1]
        congr 1
        apply flatten_tabulate_congr
        intro j hj
        exact subtreePids_congr (hchframe j (by omega))
      have hright : subtreePids (BTree.splitInnerPages s pid) (lev + 1) (create_new_node_pid s) =
          create_new_node_pid s :: (tabulate (fun j => subtreePids s lev
            ((s.pages pid).asInner.children
              ((s.pages pid).asInner.count - (s.pages pid).asInner.count / 2 + j)))
            ((s.pages pid).asInner.count / 2)).flatten := by
        rw [subtreePids_succ, hpg2]
        show create_new_node_pid s :: (tabulate (fun j => subtreePids _ lev
          (((s.pages pid).asInner.split _).2.1.children j))
          ((s.pages pid).asInner.split _).2.1.count).flatten = _
        rw [hc2]
        congr 1
        apply flatten_tabulate_congr
        intro j hj
        rw [(hdesc j hj).2]
        exact subtreePids_congr (hchframe _ (by omega))
      have hflat : (tabulate (fun j => subtreePids s lev ((s.pages pid).asInner.children j))
            ((s.pages pid).asInner.count)).flatten =
          (tabulate (fun j => subtreePids s lev ((s.pages pid).asInner.children j))
            ((s.pages pid).asInner.count - (s.pages pid).asInner.count / 2)).flatten ++
          (tabulate (fun j => subtreePids s lev ((s.pages pid).asInner.children
            ((s.pages pid).asInner.count - (s.pages pid).asInner.count / 2 + j)))
            ((s.pages pid).asInner.count / 2)).flatten := by
        conv_lhs => rw [hab]
        rw [flatten_tabulate_add]
      rw [hleft, hright, subtreePids_succ, hflat]
      show List.Perm (pid :: (_ ++ create_new_node_pid s :: _)) _
      exact (List.Perm.cons pid List.perm_middle).trans (List.Perm.swap _ _ _)
    · have hab : (s.pages pid).asInner.count =
          ((s.pages pid).asInner.count - (s.pages pid).asInner.count / 2) +
          (s.pages pid).asInner.count / 2 := by omega
      have hleft : subtreeWeightT (BTree.splitInnerPages s pid) (lev + 1) pid =
          ((s.pages pid).asInner.count - (s.pages pid).asInner.count / 2) *
            ((s.pages pid).asInner.count - (s.pages pid).asInner.count / 2) +
          (tabulate (fun j => subtreeWeightT s lev ((s.pages pid).asInner.children j))
            ((s.pages pid).asInner.count - (s.pages pid).asInner.count / 2)).sum := by
        rw [subtreeWeightT_succ, hpg1]
        show ((s.pages pid).asInner.split _).1.count * ((s.pages pid).asInner.split _).1.count +
          (tabulate (fun j => subtreeWeightT _ lev
            (((s.pages pid).asInner.split _).1.children j))
            ((s.pages pid).asInner.split _).1.count).sum = _
        rw [hch1, hc1]
        congr 1
        apply sum_tabulate_congr
        intro j hj
        exact subtreeWeightT_congr (hchframe j (by omega))
      have hright : subtreeWeightT (BTree.splitInnerPages s pid) (lev + 1) (create_new_node_pid s) =
          (s.pages pid).asInner.count / 2 * ((s.pages pid).asInner.count / 2) +
          (tabulate (fun j => subtreeWeightT s lev ((s.pages pid).asInner.children
            ((s.pages pid).asInner.count - (s.pages pid).asInner.count / 2 + j)))
            ((s.pages pid).asInner.count / 2)).sum := by
        rw [subtreeWeightT_succ, hpg2]
        show ((s.pages pid).asInner.split _).2.1.count * ((s.pages pid).asInner.split _).2.1.count +
          (tabulate (fun j => subtreeWeightT _ lev
            (((s.pages pid).asInner.split _).2.1.children j))
            ((s.pages pid).asInner.split _).2.1.count).sum = _
        rw [hc2]
        congr 1
        apply sum_tabulate_congr
        intro j hj
        rw [(hdesc j hj).2]
        exact subtreeWeightT_congr (hchframe _ (by omega))
      have hsum : (tabulate (fun j => subtreeWeightT s lev ((s.pages pid).asInner.children j))
            ((s.pages pid).asInner.count)).sum =
          (tabulate (fun j => subtreeWeightT s lev ((s.pages pid).asInner.children j))
            ((s.pages pid).asInner.count - (s.pages pid).asInner.count / 2)).sum +
          (tabulate (fun j => subtreeWeightT s lev ((s.pages pid).asInner.children
            ((s.pages pid).asInner.count - (s.pages pid).asInner.count / 2 + j)))
            ((s.pages pid).asInner.count / 2)).sum := by
        conv_lhs => rw [hab]
        rw [sum_tabulate_add]
      rw [hleft, hright, subtreeWeightT_succ, hsum, hfull, hcnt]
      have harith := split_count_arith hcap
      omega

end Simpledb
namespace Simpledb
open BTree

theorem tabulate_one {α : Type} (g : Nat → α) : tabulate g 1 = [g 0] := rfl

theorem tabulate_two {α : Type} (g : Nat → α) : tabulate g 2 = [g 0, g 1] := rfl

theorem tabulate_eq_append_of_lt {α : Type} (g : Nat → α) {cnt j0 : Nat} (h : j0 < cnt) :
    tabulate g cnt = tabulate g j0 ++ g j0 :: tabulate (fun i => g (j0 + 1 + i)) (cnt - j0 - 1) := by
  have h1 : cnt = j0 + (1 + (cnt - j0 - 1)) := by omega
  conv_lhs => rw [h1]
  rw [tabulate_add, tabulate_add, tabulate_one, List.singleton_append]
  show tabulate g j0 ++ g j0 :: tabulate (fun i => g (j0 + (1 + i))) (cnt - j0 - 1) = _
  rw [show (fun i => g (j0 + (1 + i))) = (fun i => g (j0 + 1 + i)) from funext fun i => by
    congr 1
    omega]

/-- Decomposition of a `tabulate` whose generator inserts one slot at
`j0 + 1` and shifts the tail (the shape of `insert_split`). -/
theorem tabulate_insert_decomp {α : Type} {F F' : Nat → α} {cnt j0 : Nat}
    (hj : j0 < cnt)
    (hpre : ∀ j, j < j0 → F' j = F j)
    (hpost : ∀ j, j0 + 2 ≤ j → j ≤ cnt → F' j = F (j - 1)) :
    tabulate F' (cnt + 1) =
      tabulate F j0 ++ F' j0 :: F' (j0 + 1) :: tabulate (fun i => F (j0 + 1 + i)) (cnt - j0 - 1) := by
  rw [tabulate_eq_append_of_lt F' (show j0 < cnt + 1 from by omega)]
  congr 1
  · exact tabulate_congr hpre
  congr 1
  rw [show cnt + 1 - j0 - 1 = cnt - j0 from by omega,
    tabulate_eq_append_of_lt (fun i => F' (j0 + 1 + i)) (show 0 < cnt - j0 from by omega),
    tabulate_zero, List.nil_append]
  show F' (j0 + 1) :: _ = _
  congr 1
  rw [show cnt - j0 - 0 - 1 = cnt - j0 - 1 from by omega]
  apply tabulate_congr
  intro i hi
  show F' (j0 + 1 + (0 + 1 + i)) = F (j0 + 1 + i)
  rw [hpost (j0 + 1 + (0 + 1 + i)) (by omega) (by omega)]
  congr 1
  omega

theorem flatten_tabulate_eq_insert {F F' : Nat → List (Nat × Nat)} {cnt j0 : Nat}
    (hj : j0 < cnt)
    (hpre : ∀ j, j < j0 → F' j = F j)
    (hmid : F' j0 ++ F' (j0 + 1) = F j0)
    (hpost : ∀ j, j0 + 2 ≤ j → j ≤ cnt → F' j = F (j - 1)) :
    (tabulate F' (cnt + 1)).flatten = (tabulate F cnt).flatten := by
  rw [tabulate_insert_decomp hj hpre hpost, tabulate_eq_append_of_lt F hj,
    List.flatten_append, List.flatten_append, List.flatten_cons, List.flatten_cons,
    List.flatten_cons, ← List.append_assoc (F' j0) (F' (j0 + 1)), hmid]

theorem flatten_tabulate_perm_insert {F F' : Nat → List Nat} {cnt j0 x : Nat}
    (hj : j0 < cnt)
    (hpre : ∀ j, j < j0 → F' j = F j)
    (hmid : List.Perm (F' j0 ++ F' (j0 + 1)) (x :: F j0))
    (hpost : ∀ j, j0 + 2 ≤ j → j ≤ cnt → F' j = F (j - 1)) :
    List.Perm ((tabulate F' (cnt + 1)).flatten) (x :: (tabulate F cnt).flatten) := by
  rw [tabulate_insert_decomp hj hpre hpost, tabulate_eq_append_of_lt F hj,
    List.flatten_append, List.flatten_append, List.flatten_cons, List.flatten_cons,
    List.flatten_cons]
  rw [← List.append_assoc (F' j0) (F' (j0 + 1))]
  refine List.Perm.trans (List.Perm.append_left _ (List.Perm.append_right _ hmid)) ?_
  show List.Perm ((tabulate F j0).flatten ++ x ::
    (F j0 ++ (tabulate (fun i => F (j0 + 1 + i)) (cnt - j0 - 1)).flatten)) _
  exact List.perm_middle

theorem sum_tabulate_insert {F F' : Nat → Nat} {cnt j0 : Nat}
    (hj : j0 < cnt)
    (hpre : ∀ j, j < j0 → F' j = F j)
    (hpost : ∀ j, j0 + 2 ≤ j → j ≤ cnt → F' j = F (j - 1)) :
    (tabulate F' (cnt + 1)).sum + F j0 =
      (tabulate F cnt).sum + F' j0 + F' (j0 + 1) := by
  rw [tabulate_insert_decomp hj hpre hpost, tabulate_eq_append_of_lt F hj,
    List.sum_append, List.sum_append, List.sum_cons, List.sum_cons, List.sum_cons]
  omega

theorem flatten_tabulate_perm_update {g g' : Nat → List Nat} {cnt j0 x : Nat}
    (hj : j0 < cnt)
    (hsame : ∀ j, j < cnt → j ≠ j0 → g' j = g j)
    (hperm : List.Perm (g' j0) (x :: g j0)) :
    List.Perm ((tabulate g' cnt).flatten) (x :: (tabulate g cnt).flatten) := by
  rw [tabulate_eq_append_of_lt g' hj, tabulate_eq_append_of_lt g hj,
    List.flatten_append, List.flatten_append, List.flatten_cons, List.flatten_cons]
  have hpre : (tabulate g' j0).flatten = (tabulate g j0).flatten :=
    flatten_tabulate_congr (fun j hjx => hsame j (by omega) (by omega))
  have hpost : (tabulate (fun i => g' (j0 + 1 + i)) (cnt - j0 - 1)).flatten =
      (tabulate (fun i => g (j0 + 1 + i)) (cnt - j0 - 1)).flatten :=
    flatten_tabulate_congr (fun j hjx => hsame _ (by omega) (by omega))
  rw [hpre, hpost]
  refine List.Perm.trans (List.Perm.append_left _ (List.Perm.append_right _ hperm)) ?_
  show List.Perm ((tabulate g j0).flatten ++ x ::
    (g j0 ++ (tabulate (fun i => g (j0 + 1 + i)) (cnt - j0 - 1)).flatten)) _
  exact List.perm_middle

/-- Where `InnerNode::lower_bound` lands when the probe lies strictly
between the separators around position `j0`. -/
theorem inner_lower_bound_pos_eq (n : InnerNode) (x : Nat)
    (hs : SortedLt n.keys (n.count - 1)) (h2 : 2 ≤ n.count) {j0 : Nat}
    (hj : j0 < n.count)
    (hlo : j0 ≠ 0 → n.keys (j0 - 1) < x)
    (hhi : j0 < n.count - 1 → x < n.keys j0) :
    (n.lower_bound x).1 = j0 ∧ (n.lower_bound x).2 = false := by
  obtain ⟨-, hspec⟩ := n.inner_lower_bound_spec x hs.le
  obtain ⟨hb1, hb2, hb3, hb4⟩ := hspec (by omega)
  have hpos : (n.lower_bound x).1 = j0 := by
    rcases Nat.lt_trichotomy (n.lower_bound x).1 j0 with hlt | heq | hgt
    · exfalso
      have hxle : x ≤ n.keys (n.lower_bound x).1 := hb3 (by omega)
      have hkle : n.keys (n.lower_bound x).1 ≤ n.keys (j0 - 1) :=
        hs.le.mono (by omega) (by omega)
      have := hlo (by omega)
      omega
    · exact heq
    · exfalso
      have hklt : n.keys j0 < x := hb2 j0 hgt
      have := hhi (by omega)
      omega
  refine ⟨hpos, ?_⟩
  rcases Bool.eq_false_or_eq_true (n.lower_bound x).2 with hf | hf
  swap
  · exact hf
  · exfalso
    obtain ⟨hlt, heq⟩ := hb4.mp hf
    rw [hpos] at hlt heq
    have := hhi (by omega)
    omega

namespace LeafNode

/-- Static description of `LeafNode::insert`: the level is kept, the count
grows by at most one, and every key afterwards is the new key or an old
one. -/
theorem insert_desc_general (n : LeafNode) (key value : Nat) :
    (n.insert key value).level = n.level ∧
    (n.insert key value).count ≤ n.count + 1 ∧
    (∀ j, j < (n.insert key value).count →
      (n.insert key value).keys j = key ∨
      ∃ i, i < n.count ∧ (n.insert key value).keys j = n.keys i) := by
  by_cases hf : (n.lower_bound key).2 = true
  · obtain ⟨hc, hlvl, hk, -, -⟩ := n.insert_desc_found key value hf
    rw [hk, hc]
    exact ⟨hlvl, by omega, fun j hj => Or.inr ⟨j, hj, rfl⟩⟩
  · have hf' : (n.lower_bound key).2 = false := by simpa using hf
    obtain ⟨hc, hlvl, hlow, ⟨hkey, hval⟩, hhigh⟩ := n.insert_desc_not_found key value hf'
    refine ⟨hlvl, by omega, ?_⟩
    intro j hj
    rw [hc] at hj
    rcases Nat.lt_trichotomy j (n.lower_bound key).1 with h | h | h
    · exact Or.inr ⟨j, by have := n.lower_bound_le key; omega, (hlow j h).1⟩
    · rw [h, hkey]
      exact Or.inl rfl
    · exact Or.inr ⟨j - 1, by omega, (hhigh j h (by omega)).1⟩

end LeafNode

end Simpledb
namespace Simpledb
open BTree

/-- One descent of `BTree::insert` over a well-formed subtree: it either
completes in place (`done`), requests exclusivity (`goExclusive`), splits
this very node (which the caller handles), or has split a node strictly
below, restoring well-formedness, preserving the entries, minting exactly
one page id and strictly decreasing the weight. -/
theorem insertLoop_spec {cap : Nat} {s : BTreeState} {key value : Nat} : ∀ {lev pid : Nat}
    {lo hi : Option Nat} (fuel : Nat) (exclusive : Bool) (par : Option Nat),
    SubtreeWF cap s lev pid lo hi → kWin key lo hi →
    (subtreePids s lev pid).Nodup →
    (∀ q ∈ subtreePids s lev pid, ∃ n, n < s.nodeCount ∧ q = mintedPid s.segment_id n) →
    4 ≤ cap → lev + 1 ≤ fuel →
    ((∃ s', BTree.insertLoop cap key value exclusive fuel s pid par = .done s' ∧
      s'.segment_id = s.segment_id ∧ s'.root = s.root ∧ s'.nodeCount = s.nodeCount ∧
      s'.treeHeight = s.treeHeight ∧
      (∀ q, q ∉ subtreePids s lev pid → s'.pages q = s.pages q) ∧
      SubtreeWF cap s' lev pid lo hi ∧
      subtreePids s' lev pid = subtreePids s lev pid ∧
      (∀ q, List.lookup q (subtreeEntries s' lev pid) =
        if q = key then some value else List.lookup q (subtreeEntries s lev pid))) ∨
    (exclusive = false ∧
      BTree.insertLoop cap key value exclusive fuel s pid par = .goExclusive) ∨
    (exclusive = true ∧ (s.pages pid).count = cap ∧
      BTree.insertLoop cap key value exclusive fuel s pid par =
        .splitDone (splitNodeAt lev s pid par)) ∨
    (exclusive = true ∧ ∃ s',
      BTree.insertLoop cap key value exclusive fuel s pid par = .splitDone s' ∧
      s'.segment_id = s.segment_id ∧ s'.root = s.root ∧
      s'.nodeCount = s.nodeCount + 1 ∧ s'.treeHeight = s.treeHeight ∧
      (∀ q, q ∉ subtreePids s lev pid → q ≠ mintedPid s.segment_id s.nodeCount →
        s'.pages q = s.pages q) ∧
      SubtreeWF cap s' lev pid lo hi ∧
      List.Perm (subtreePids s' lev pid)
        (mintedPid s.segment_id s.nodeCount :: subtreePids s lev pid) ∧
      subtreeEntries s' lev pid = subtreeEntries s lev pid ∧
      subtreeWeightT s' lev pid + 1 ≤ subtreeWeightT s lev pid)) := by
  intro lev
  induction lev with
  | zero =>
    intro pid lo hi fuel exclusive par hwf hk hnd hmint hcap hfuel
    obtain ⟨hl, hc, hs, hw⟩ := hwf
    cases fuel with
    | zero => omega
    | succ fuel =>
      rw [BTree.insertLoop, if_pos (is_leaf_of_level_zero hl)]
      by_cases hsp : (s.pages pid).asLeaf.has_space cap = true
      · rw [if_pos hsp]
        have hcnt : (s.pages pid).asLeaf.count < cap := by
          rw [LeafNode.has_space, decide_eq_true_eq] at hsp
          exact hsp
        obtain ⟨hil, hic, hik⟩ := (s.pages pid).asLeaf.insert_desc_general key value
        have hpg : (writePage s.pages pid
            (.leaf ((s.pages pid).asLeaf.insert key value))) pid =
            .leaf ((s.pages pid).asLeaf.insert key value) := writePage_same _ _ _
        refine Or.inl ⟨_, rfl, rfl, rfl, rfl, rfl, ?_, ?_, ?_, ?_⟩
        · intro q hq
          rw [subtreePids_zero, List.mem_singleton] at hq
          exact writePage_other _ _ hq
        · refine ⟨?_, ?_, ?_, ?_⟩
          · show (writePage _ _ _ pid).level = 0
            rw [hpg]
            show ((s.pages pid).asLeaf.insert key value).level = 0
            rw [hil, asLeaf_level, hl]
          · show (writePage _ _ _ pid).asLeaf.count ≤ cap
            rw [hpg]
            show ((s.pages pid).asLeaf.insert key value).count ≤ cap
            omega
          · show SortedLt (writePage _ _ _ pid).asLeaf.keys (writePage _ _ _ pid).asLeaf.count
            rw [hpg]
            exact (s.pages pid).asLeaf.insert_sorted key value hs
          · intro j hj
            dsimp only at hj ⊢
            rw [hpg] at hj ⊢
            rcases hik j hj with hknew | ⟨i, hilt, hiold⟩
            · show loLt lo (((s.pages pid).asLeaf.insert key value).keys j) ∧
                leHi (((s.pages pid).asLeaf.insert key value).keys j) hi
              rw [hknew]
              exact hk
            · show loLt lo (((s.pages pid).asLeaf.insert key value).keys j) ∧
                leHi (((s.pages pid).asLeaf.insert key value).keys j) hi
              rw [hiold]
              exact hw i hilt
        · rw [subtreePids_zero, subtreePids_zero]
        · intro q
          rw [subtreeEntries_zero, subtreeEntries_zero]
          show List.lookup q ((writePage _ _ _ pid).asLeaf.entries) = _
          rw [hpg]
          show List.lookup q (((s.pages pid).asLeaf.insert key value).entries) = _
          exact (s.pages pid).asLeaf.insert_lookup key value hs q
      · rw [if_neg hsp]
        cases exclusive with
        | false =>
          rw [if_neg Bool.false_ne_true]
          exact Or.inr (Or.inl ⟨rfl, rfl⟩)
        | true =>
          rw [if_pos rfl]
          refine Or.inr (Or.inr (Or.inl ⟨rfl, ?_, rfl⟩))
          rw [LeafNode.has_space] at hsp
          simp only [decide_eq_true_eq] at hsp
          rw [← asLeaf_count]
          omega
  | succ lev ih =>
    intro pid lo hi fuel exclusive par hwf hk hnd hmint hcap hfuel
    obtain ⟨hj0, hkwin, hother⟩ := descend_child_spec hwf hk
    obtain ⟨hl, h2c, hc, hsorted, hw, hch⟩ := hwf
    cases fuel with
    | zero => omega
    | succ fuel =>
      rw [BTree.insertLoop,
        if_neg (by rw [is_leaf_false_of_level_succ hl]; exact Bool.false_ne_true)]
      by_cases hsp : (s.pages pid).asInner.has_space cap = true
      · rw [if_pos hsp]
        have hroom : (s.pages pid).asInner.count < cap := by
          rw [InnerNode.has_space, decide_eq_true_eq] at hsp
          exact hsp
        have hfe : lev + 1 ≤ fuel := by omega
        have hchildnd := subtreePids_succ_nodup hnd _ hj0
        have hchildmint : ∀ q ∈ subtreePids s lev
            ((s.pages pid).asInner.children (((s.pages pid).asInner.lower_bound key).1)),
            ∃ n, n < s.nodeCount ∧ q = mintedPid s.segment_id n :=
          fun q hq => hmint q (mem_subtreePids_child s hj0 hq)
        have hsib : ∀ j, j < (s.pages pid).asInner.count →
            j ≠ ((s.pages pid).asInner.lower_bound key).1 →
            ∀ q ∈ subtreePids s lev ((s.pages pid).asInner.children j),
              q ∉ subtreePids s lev ((s.pages pid).asInner.children
                (((s.pages pid).asInner.lower_bound key).1)) :=
          fun j hj hne q hq => subtreePids_sibling_disjoint hnd j _ hj hj0
            (fun he => hne he) q hq
        have hpid_notchild : pid ∉ subtreePids s lev ((s.pages pid).asInner.children
            (((s.pages pid).asInner.lower_bound key).1)) :=
          subtreePids_root_not_mem_child hnd _ hj0
        rcases ih fuel exclusive (some pid) (hch _ hj0) hkwin hchildnd hchildmint hcap hfe with
          hdone | hgoex | hfullchild | hinner
        · -- the insert completed at a leaf below the selected child
          obtain ⟨s₂, hres, hseg, hroot, hnc, hth, hframe, hwf₂, hpids₂, hlook₂⟩ := hdone
          have hsibframe : ∀ j, j < (s.pages pid).asInner.count →
              j ≠ ((s.pages pid).asInner.lower_bound key).1 →
              ∀ q ∈ subtreePids s lev ((s.pages pid).asInner.children j),
                s₂.pages q = s.pages q :=
            fun j hj hne q hq => hframe q (hsib j hj hne q hq)
          have hpidframe : s₂.pages pid = s.pages pid := hframe pid hpid_notchild
          refine Or.inl ⟨s₂, hres, hseg, hroot, hnc, hth, ?_, ?_, ?_, ?_⟩
          · intro q hq
            exact hframe q (fun hmem => hq (mem_subtreePids_child s hj0 hmem))
          · refine ⟨?_, ?_, ?_, ?_, ?_, ?_⟩ <;> rw [hpidframe]
            · exact hl
            · exact h2c
            · exact hc
            · exact hsorted
            · exact hw
            · intro j hj
              by_cases hje : j = ((s.pages pid).asInner.lower_bound key).1
              · subst hje
                exact hwf₂
              · exact SubtreeWF_congr (hsibframe j hj hje) (hch j hj)
          · rw [subtreePids_succ, subtreePids_succ, hpidframe]
            congr 1
            apply flatten_tabulate_congr
            intro j hj
            by_cases hje : j = ((s.pages pid).asInner.lower_bound key).1
            · subst hje
              exact hpids₂
            · exact subtreePids_congr (hsibframe j hj hje)
          · intro q
            rw [subtreeEntries_succ, subtreeEntries_succ, hpidframe]
            by_cases hq : q = key
            · rw [if_pos hq]
              have hA : List.lookup q ((tabulate (fun j => subtreeEntries s₂ lev
                  ((s.pages pid).asInner.children j)) (s.pages pid).asInner.count).flatten) =
                  List.lookup q (subtreeEntries s₂ lev ((s.pages pid).asInner.children
                    (((s.pages pid).asInner.lower_bound key).1))) := by
                apply lookup_flatten_single hj0
                intro j hj hne
                rw [subtreeEntries_congr (hsibframe j hj hne), lookup_eq_none_iff]
                exact fun p hp he => (hother j hj hne p hp) (he.trans hq)
              rw [hA, hlook₂ q, if_pos hq]
            · rw [if_neg hq]
              apply lookup_flatten_congr
              intro j hj
              by_cases hje : j = ((s.pages pid).asInner.lower_bound key).1
              · subst hje
                rw [hlook₂ q, if_neg hq]
              · rw [subtreeEntries_congr (hsibframe j hj hje)]
        · exact Or.inr (Or.inl ⟨hgoex.1, hgoex.2⟩)
        · obtain ⟨hex, hcountchild, hres⟩ := hfullchild
          have hqminted : ∀ q ∈ subtreePids s (lev + 1) pid,
              q ≠ mintedPid s.segment_id s.nodeCount := by
            intro q hq he
            obtain ⟨n, hn, hqe⟩ := hmint q hq
            have : n = s.nodeCount := mintedPid_inj (hqe ▸ he)
            omega
          have hfresh_child : create_new_node_pid s ∉ subtreePids s lev
              ((s.pages pid).asInner.children (((s.pages pid).asInner.lower_bound key).1)) := by
            rw [create_new_node_pid_eq]
            intro hmem
            exact hqminted _ (mem_subtreePids_child s hj0 hmem) rfl
          have hpid_ne_f : pid ≠ create_new_node_pid s := by
            rw [create_new_node_pid_eq]
            exact hqminted pid (mem_subtreePids_self s _ pid)
          have hpid_ne_child : pid ≠ (s.pages pid).asInner.children
              (((s.pages pid).asInner.lower_bound key).1) :=
            fun he => hpid_notchild (he ▸ mem_subtreePids_self s lev _)
          obtain ⟨stg_seg, stg_root, stg_th, stg_nc, stg_frame, stg_wfL, stg_wfR, stg_lo,
            stg_hi, stg_ent, stg_perm, stg_wt⟩ :=
            splitNodePages_spec (hch _ hj0) hcountchild hcap hchildnd hfresh_child
          have hsplit_eq := splitNodeAt_some lev s
            ((s.pages pid).asInner.children (((s.pages pid).asInner.lower_bound key).1)) pid
          have hpA : (splitNodePages lev s ((s.pages pid).asInner.children
              (((s.pages pid).asInner.lower_bound key).1))).pages pid = s.pages pid :=
            stg_frame pid hpid_ne_child hpid_ne_f
          have hpg_pid : (splitNodeAt lev s ((s.pages pid).asInner.children
              (((s.pages pid).asInner.lower_bound key).1)) (some pid)).pages pid =
              .inner ((s.pages pid).asInner.insert_split
                (splitNodeSep lev s ((s.pages pid).asInner.children
                  (((s.pages pid).asInner.lower_bound key).1)))
                (create_new_node_pid s)) := by
            rw [hsplit_eq]
            show writePage _ pid _ pid = _
            rw [writePage_same, hpA]
          have hpg_other : ∀ q, q ≠ pid →
              (splitNodeAt lev s ((s.pages pid).asInner.children
                (((s.pages pid).asInner.lower_bound key).1)) (some pid)).pages q =
              (splitNodePages lev s ((s.pages pid).asInner.children
                (((s.pages pid).asInner.lower_bound key).1))).pages q := by
            intro q hq
            rw [hsplit_eq]
            show writePage _ pid _ q = _
            rw [writePage_other _ _ hq]
          obtain ⟨hpos1, hpos2⟩ := inner_lower_bound_pos_eq (s.pages pid).asInner
            (splitNodeSep lev s ((s.pages pid).asInner.children
              (((s.pages pid).asInner.lower_bound key).1)))
            hsorted h2c hj0
            (fun hne => by
              have h5 := stg_lo
              rw [childLo, if_neg hne] at h5
              exact h5)
            (fun hlt => by
              refine stg_hi _ ?_
              rw [childHi, if_neg (by omega)])
          obtain ⟨dc, dlvl, dlow, dkey, dmid, dchlow, dchkey, dchhigh⟩ :=
            (s.pages pid).asInner.insert_split_desc
              (splitNodeSep lev s ((s.pages pid).asInner.children
                (((s.pages pid).asInner.lower_bound key).1)))
              (create_new_node_pid s)
          rw [hpos1] at dlow dkey dmid dchlow dchkey dchhigh
          have hsepin : loLt lo (splitNodeSep lev s ((s.pages pid).asInner.children
              (((s.pages pid).asInner.lower_bound key).1))) ∧
              leHi (splitNodeSep lev s ((s.pages pid).asInner.children
                (((s.pages pid).asInner.lower_bound key).1))) hi := by
            constructor
            · by_cases hj0z : ((s.pages pid).asInner.lower_bound key).1 = 0
              · have h5 := stg_lo
                rw [childLo, if_pos hj0z] at h5
                exact h5
              · have h5 := stg_lo
                rw [childLo, if_neg hj0z] at h5
                exact loLt_mono (hw _ (by omega)).1 (Nat.le_of_lt h5)
            · by_cases hj0l : ((s.pages pid).asInner.lower_bound key).1 =
                  (s.pages pid).asInner.count - 1
              · cases hi with
                | none => exact trivial
                | some b =>
                  refine leHi_some (Nat.le_of_lt (stg_hi b ?_))
                  rw [childHi, if_pos hj0l]
              · have h6 := stg_hi ((s.pages pid).asInner.keys
                  (((s.pages pid).asInner.lower_bound key).1)) (by rw [childHi, if_neg hj0l])
                exact leHi_mono (hw _ (by omega)).2 (Nat.le_of_lt h6)
          have habs : ∀ i, i < (s.pages pid).asInner.count - 1 →
              (s.pages pid).asInner.keys i ≠ splitNodeSep lev s ((s.pages pid).asInner.children
                (((s.pages pid).asInner.lower_bound key).1)) := by
            intro i hi he
            rcases Nat.lt_or_ge i (((s.pages pid).asInner.lower_bound key).1) with hlt | hge
            · have h5 := stg_lo
              rw [childLo, if_neg (by omega)] at h5
              have h5x : (s.pages pid).asInner.keys
                  ((((s.pages pid).asInner.lower_bound key).1) - 1) <
                  splitNodeSep lev s ((s.pages pid).asInner.children
                    (((s.pages pid).asInner.lower_bound key).1)) := h5
              have hmono : (s.pages pid).asInner.keys i ≤ (s.pages pid).asInner.keys
                  ((((s.pages pid).asInner.lower_bound key).1) - 1) :=
                hsorted.le.mono (by omega) (by omega)
              omega
            · have h6 := stg_hi ((s.pages pid).asInner.keys
                (((s.pages pid).asInner.lower_bound key).1)) (by rw [childHi, if_neg (by omega)])
              have hmono : (s.pages pid).asInner.keys (((s.pages pid).asInner.lower_bound key).1) ≤
                  (s.pages pid).asInner.keys i := hsorted.le.mono hge hi
              omega
          have hsorted' := (s.pages pid).asInner.insert_split_sorted
            (splitNodeSep lev s ((s.pages pid).asInner.children
              (((s.pages pid).asInner.lower_bound key).1)))
            (create_new_node_pid s) hsorted habs
          have hsubframe : ∀ j, j < (s.pages pid).asInner.count →
              j ≠ ((s.pages pid).asInner.lower_bound key).1 →
              ∀ q ∈ subtreePids s lev ((s.pages pid).asInner.children j),
                (splitNodeAt lev s ((s.pages pid).asInner.children
                  (((s.pages pid).asInner.lower_bound key).1)) (some pid)).pages q =
                s.pages q := by
            intro j hj hne q hq
            have hq_ne_pid : q ≠ pid :=
              fun he => subtreePids_root_not_mem_child hnd j hj (he ▸ hq)
            rw [hpg_other q hq_ne_pid]
            refine stg_frame q (fun he => hsib j hj hne q hq
              (he ▸ mem_subtreePids_self s lev _)) (fun he => ?_)
            rw [create_new_node_pid_eq] at he
            exact hqminted q (mem_subtreePids_child s hj hq) he
          have hLR_ne_pid : ∀ q, q ∈ subtreePids (splitNodePages lev s
              ((s.pages pid).asInner.children (((s.pages pid).asInner.lower_bound key).1)))
              lev ((s.pages pid).asInner.children
                (((s.pages pid).asInner.lower_bound key).1)) ∨
              q ∈ subtreePids (splitNodePages lev s
                ((s.pages pid).asInner.children (((s.pages pid).asInner.lower_bound key).1)))
                lev (create_new_node_pid s) →
              q ≠ pid := by
            intro q hq he
            have hmem : q ∈ subtreePids (splitNodePages lev s
                ((s.pages pid).asInner.children (((s.pages pid).asInner.lower_bound key).1)))
                lev ((s.pages pid).asInner.children
                  (((s.pages pid).asInner.lower_bound key).1)) ++
                subtreePids (splitNodePages lev s ((s.pages pid).asInner.children
                  (((s.pages pid).asInner.lower_bound key).1))) lev
                (create_new_node_pid s) := by
              rcases hq with h | h
              · exact List.mem_append_left _ h
              · exact List.mem_append_right _ h
            have hql := stg_perm.mem_iff.mp hmem
            rcases List.mem_cons.mp hql with h1 | h1
            · exact hpid_ne_f (he ▸ h1)
            · exact hpid_notchild (he ▸ h1)
          have hframeL : ∀ q ∈ subtreePids (splitNodePages lev s
              ((s.pages pid).asInner.children (((s.pages pid).asInner.lower_bound key).1)))
              lev ((s.pages pid).asInner.children
                (((s.pages pid).asInner.lower_bound key).1)),
              (splitNodeAt lev s ((s.pages pid).asInner.children
                (((s.pages pid).asInner.lower_bound key).1)) (some pid)).pages q =
              (splitNodePages lev s ((s.pages pid).asInner.children
                (((s.pages pid).asInner.lower_bound key).1))).pages q :=
            fun q hq => hpg_other q (hLR_ne_pid q (Or.inl hq))
          have hframeR : ∀ q ∈ subtreePids (splitNodePages lev s
              ((s.pages pid).asInner.children (((s.pages pid).asInner.lower_bound key).1)))
              lev (create_new_node_pid s),
              (splitNodeAt lev s ((s.pages pid).asInner.children
                (((s.pages pid).asInner.lower_bound key).1)) (some pid)).pages q =
              (splitNodePages lev s ((s.pages pid).asInner.children
                (((s.pages pid).asInner.lower_bound key).1))).pages q :=
            fun q hq => hpg_other q (hLR_ne_pid q (Or.inr hq))
          have hwfL' := SubtreeWF_congr hframeL stg_wfL
          have hwfR' := SubtreeWF_congr hframeR stg_wfR
          have hpidsL := subtreePids_congr hframeL
          have hpidsR := subtreePids_congr hframeR
          have hentL := subtreeEntries_congr hframeL
          have hentR := subtreeEntries_congr hframeR
          have hwtL := subtreeWeightT_congr hframeL
          have hwtR := subtreeWeightT_congr hframeR
          refine Or.inr (Or.inr (Or.inr ⟨hex, splitNodeAt lev s
            ((s.pages pid).asInner.children (((s.pages pid).asInner.lower_bound key).1))
            (some pid), hres, ?_, ?_, ?_, ?_, ?_, ?_, ?_, ?_, ?_⟩))
          · rw [hsplit_eq]
            exact stg_seg
          · rw [hsplit_eq]
            exact stg_root
          · rw [hsplit_eq]
            exact stg_nc
          · rw [hsplit_eq]
            exact stg_th
          · intro q hq hne
            have hq_ne_pid : q ≠ pid := fun he => hq (by
              rw [he]
              exact mem_subtreePids_self s _ pid)
            rw [hpg_other q hq_ne_pid]
            refine stg_frame q (fun he => hq ?_) (fun he => ?_)
            · rw [he]
              exact mem_subtreePids_child s hj0 (mem_subtreePids_self s lev _)
            · rw [create_new_node_pid_eq] at he
              exact hne he
          · refine ⟨?_, ?_, ?_, ?_, ?_, ?_⟩
            · show ((splitNodeAt lev s ((s.pages pid).asInner.children
                (((s.pages pid).asInner.lower_bound key).1)) (some pid)).pages pid).level = lev + 1
              rw [hpg_pid]
              show ((s.pages pid).asInner.insert_split _ _).level = lev + 1
              rw [dlvl, asInner_level, hl]
            · show 2 ≤ ((splitNodeAt lev s ((s.pages pid).asInner.children
                (((s.pages pid).asInner.lower_bound key).1)) (some pid)).pages pid).asInner.count
              rw [hpg_pid]
              show 2 ≤ ((s.pages pid).asInner.insert_split _ _).count
              omega
            · show ((splitNodeAt lev s ((s.pages pid).asInner.children
                (((s.pages pid).asInner.lower_bound key).1)) (some pid)).pages
                  pid).asInner.count ≤ cap
              rw [hpg_pid]
              show ((s.pages pid).asInner.insert_split _ _).count ≤ cap
              omega
            · show SortedLt ((splitNodeAt lev s ((s.pages pid).asInner.children
                (((s.pages pid).asInner.lower_bound key).1)) (some pid)).pages pid).asInner.keys
                (((splitNodeAt lev s ((s.pages pid).asInner.children
                  (((s.pages pid).asInner.lower_bound key).1)) (some pid)).pages
                    pid).asInner.count - 1)
              rw [hpg_pid]
              exact hsorted'
            · intro i hix
              rw [hpg_pid] at hix ⊢
              have hix1 : i < ((s.pages pid).asInner.insert_split
                  (splitNodeSep lev s ((s.pages pid).asInner.children
                    (((s.pages pid).asInner.lower_bound key).1)))
                  (create_new_node_pid s)).count - 1 := hix
              have hix2 : i < (s.pages pid).asInner.count := by
                rw [dc] at hix1
                omega
              show loLt lo (((s.pages pid).asInner.insert_split _ _).keys i) ∧
                leHi (((s.pages pid).asInner.insert_split _ _).keys i) hi
              rcases Nat.lt_trichotomy i (((s.pages pid).asInner.lower_bound key).1) with
                hlt | heq | hgt
              · rw [dlow i hlt]
                exact hw i (by omega)
              · rw [heq, dkey]
                exact hsepin
              · rw [dmid i hgt (by omega)]
                exact hw (i - 1) (by omega)
            · intro j hjx
              rw [hpg_pid] at hjx ⊢
              have hjx1 : j < ((s.pages pid).asInner.insert_split
                  (splitNodeSep lev s ((s.pages pid).asInner.children
                    (((s.pages pid).asInner.lower_bound key).1)))
                  (create_new_node_pid s)).count := hjx
              have hjx2 : j < (s.pages pid).asInner.count + 1 := by
                rw [dc] at hjx1
                exact hjx1
              show SubtreeWF cap _ lev (((s.pages pid).asInner.insert_split _ _).children j)
                (childLo lo ((s.pages pid).asInner.insert_split _ _) j)
                (childHi hi ((s.pages pid).asInner.insert_split _ _) j)
              rcases Nat.lt_trichotomy j (((s.pages pid).asInner.lower_bound key).1) with
                hlt | heq | hgt
              · have hwlo : childLo lo ((s.pages pid).asInner.insert_split
                    (splitNodeSep lev s ((s.pages pid).asInner.children
                      (((s.pages pid).asInner.lower_bound key).1)))
                    (create_new_node_pid s)) j = childLo lo (s.pages pid).asInner j := by
                  by_cases hj0z : j = 0
                  · rw [childLo, childLo, if_pos hj0z, if_pos hj0z]
                  · rw [childLo, childLo, if_neg hj0z, if_neg hj0z, dlow (j - 1) (by omega)]
                have hwhi : childHi hi ((s.pages pid).asInner.insert_split
                    (splitNodeSep lev s ((s.pages pid).asInner.children
                      (((s.pages pid).asInner.lower_bound key).1)))
                    (create_new_node_pid s)) j = childHi hi (s.pages pid).asInner j := by
                  rw [childHi, childHi, if_neg (by rw [dc]; omega), if_neg (by omega),
                    dlow j hlt]
                rw [dchlow j (by omega), hwlo, hwhi]
                exact SubtreeWF_congr (hsubframe j (by omega) (by omega)) (hch j (by omega))
              · have hwlo : childLo lo ((s.pages pid).asInner.insert_split
                    (splitNodeSep lev s ((s.pages pid).asInner.children
                      (((s.pages pid).asInner.lower_bound key).1)))
                    (create_new_node_pid s)) j =
                    childLo lo (s.pages pid).asInner (((s.pages pid).asInner.lower_bound key).1) := by
                  rw [heq]
                  by_cases hj0z : (((s.pages pid).asInner.lower_bound key).1) = 0
                  · rw [childLo, childLo, if_pos hj0z, if_pos hj0z]
                  · rw [childLo, childLo, if_neg hj0z, if_neg hj0z, dlow _ (by omega)]
                have hwhi : childHi hi ((s.pages pid).asInner.insert_split
                    (splitNodeSep lev s ((s.pages pid).asInner.children
                      (((s.pages pid).asInner.lower_bound key).1)))
                    (create_new_node_pid s)) j =
                    some (splitNodeSep lev s ((s.pages pid).asInner.children
                      (((s.pages pid).asInner.lower_bound key).1))) := by
                  rw [heq, childHi, if_neg (by rw [dc]; omega), dkey]
                rw [hwlo, hwhi, heq, dchlow _ (Nat.le_refl _)]
                exact hwfL'
              · rcases Nat.lt_trichotomy j ((((s.pages pid).asInner.lower_bound key).1) + 1) with
                  h1 | h1 | h1
                · omega
                · have hwlo : childLo lo ((s.pages pid).asInner.insert_split
                      (splitNodeSep lev s ((s.pages pid).asInner.children
                        (((s.pages pid).asInner.lower_bound key).1)))
                      (create_new_node_pid s)) j =
                      some (splitNodeSep lev s ((s.pages pid).asInner.children
                        (((s.pages pid).asInner.lower_bound key).1))) := by
                    subst h1
                    rw [childLo, if_neg (by omega),
                      show (((s.pages pid).asInner.lower_bound key).1) + 1 - 1 =
                        (((s.pages pid).asInner.lower_bound key).1) from rfl, dkey]
                  have hwhi : childHi hi ((s.pages pid).asInner.insert_split
                      (splitNodeSep lev s ((s.pages pid).asInner.children
                        (((s.pages pid).asInner.lower_bound key).1)))
                      (create_new_node_pid s)) j =
                      childHi hi (s.pages pid).asInner
                        (((s.pages pid).asInner.lower_bound key).1) := by
                    subst h1
                    by_cases hj0l : (((s.pages pid).asInner.lower_bound key).1) =
                        (s.pages pid).asInner.count - 1
                    · rw [childHi, childHi, if_pos (by rw [dc]; omega), if_pos hj0l]
                    · rw [childHi, childHi, if_neg (by rw [dc]; omega), if_neg hj0l,
                        dmid _ (by omega) (by omega), Nat.add_sub_cancel]
                  rw [hwlo, hwhi, h1, dchkey]
                  exact hwfR'
                · have hwlo : childLo lo ((s.pages pid).asInner.insert_split
                      (splitNodeSep lev s ((s.pages pid).asInner.children
                        (((s.pages pid).asInner.lower_bound key).1)))
                      (create_new_node_pid s)) j = childLo lo (s.pages pid).asInner (j - 1) := by
                    rw [childLo, childLo, if_neg (by omega), if_neg (by omega),
                      dmid (j - 1) (by omega) (by omega)]
                  have hwhi : childHi hi ((s.pages pid).asInner.insert_split
                      (splitNodeSep lev s ((s.pages pid).asInner.children
                        (((s.pages pid).asInner.lower_bound key).1)))
                      (create_new_node_pid s)) j = childHi hi (s.pages pid).asInner (j - 1) := by
                    by_cases hjl : j = (s.pages pid).asInner.count
                    · rw [childHi, childHi, if_pos (by rw [dc]; omega), if_pos (by omega)]
                    · rw [childHi, childHi, if_neg (by rw [dc]; omega), if_neg (by omega),
                        dmid j (by omega) (by omega)]
                  rw [dchhigh j (by omega) (by omega), hwlo, hwhi]
                  exact SubtreeWF_congr (hsubframe (j - 1) (by omega) (by omega))
                    (hch (j - 1) (by omega))
          · rw [subtreePids_succ, subtreePids_succ, hpg_pid]
            show List.Perm (pid :: (tabulate (fun j => subtreePids (splitNodeAt lev s
                ((s.pages pid).asInner.children (((s.pages pid).asInner.lower_bound key).1))
                (some pid)) lev (((s.pages pid).asInner.insert_split
                  (splitNodeSep lev s ((s.pages pid).asInner.children
                    (((s.pages pid).asInner.lower_bound key).1)))
                  (create_new_node_pid s)).children j))
                ((s.pages pid).asInner.insert_split
                  (splitNodeSep lev s ((s.pages pid).asInner.children
                    (((s.pages pid).asInner.lower_bound key).1)))
                  (create_new_node_pid s)).count).flatten) _
            rw [dc]
            refine List.Perm.trans (List.Perm.cons pid
              (flatten_tabulate_perm_insert hj0 ?_ ?_ ?_)) (List.Perm.swap _ _ _)
            · intro j hjlt
              rw [dchlow j (by omega)]
              exact subtreePids_congr (hsubframe j (by omega) (by omega))
            · rw [dchlow _ (Nat.le_refl _), dchkey, hpidsL, hpidsR]
              have hsp2 := stg_perm
              rw [create_new_node_pid_eq] at hsp2
              exact hsp2
            · intro j hge hle
              rw [dchhigh j (by omega) (by omega)]
              exact subtreePids_congr (hsubframe (j - 1) (by omega) (by omega))
          · rw [subtreeEntries_succ, subtreeEntries_succ, hpg_pid]
            show (tabulate (fun j => subtreeEntries (splitNodeAt lev s
                ((s.pages pid).asInner.children (((s.pages pid).asInner.lower_bound key).1))
                (some pid)) lev (((s.pages pid).asInner.insert_split
                  (splitNodeSep lev s ((s.pages pid).asInner.children
                    (((s.pages pid).asInner.lower_bound key).1)))
                  (create_new_node_pid s)).children j))
                ((s.pages pid).asInner.insert_split
                  (splitNodeSep lev s ((s.pages pid).asInner.children
                    (((s.pages pid).asInner.lower_bound key).1)))
                  (create_new_node_pid s)).count).flatten = _
            rw [dc]
            refine flatten_tabulate_eq_insert hj0 ?_ ?_ ?_
            · intro j hjlt
              rw [dchlow j (by omega)]
              exact subtreeEntries_congr (hsubframe j (by omega) (by omega))
            · rw [dchlow _ (Nat.le_refl _), dchkey, hentL, hentR]
              exact stg_ent
            · intro j hge hle
              rw [dchhigh j (by omega) (by omega)]
              exact subtreeEntries_congr (hsubframe (j - 1) (by omega) (by omega))
          · rw [subtreeWeightT_succ, subtreeWeightT_succ, hpg_pid]
            show ((s.pages pid).asInner.insert_split
                (splitNodeSep lev s ((s.pages pid).asInner.children
                  (((s.pages pid).asInner.lower_bound key).1)))
                (create_new_node_pid s)).count *
              ((s.pages pid).asInner.insert_split
                (splitNodeSep lev s ((s.pages pid).asInner.children
                  (((s.pages pid).asInner.lower_bound key).1)))
                (create_new_node_pid s)).count +
              (tabulate (fun j => subtreeWeightT (splitNodeAt lev s
                ((s.pages pid).asInner.children (((s.pages pid).asInner.lower_bound key).1))
                (some pid)) lev (((s.pages pid).asInner.insert_split
                  (splitNodeSep lev s ((s.pages pid).asInner.children
                    (((s.pages pid).asInner.lower_bound key).1)))
                  (create_new_node_pid s)).children j))
                ((s.pages pid).asInner.insert_split
                  (splitNodeSep lev s ((s.pages pid).asInner.children
                    (((s.pages pid).asInner.lower_bound key).1)))
                  (create_new_node_pid s)).count).sum + 1 ≤ _
            rw [dc]
            have hpre : ∀ j, j < ((s.pages pid).asInner.lower_bound key).1 →
                subtreeWeightT (splitNodeAt lev s ((s.pages pid).asInner.children
                  (((s.pages pid).asInner.lower_bound key).1)) (some pid)) lev
                  (((s.pages pid).asInner.insert_split
                    (splitNodeSep lev s ((s.pages pid).asInner.children
                      (((s.pages pid).asInner.lower_bound key).1)))
                    (create_new_node_pid s)).children j) =
                subtreeWeightT s lev ((s.pages pid).asInner.children j) := by
              intro j hjlt
              rw [dchlow j (by omega)]
              exact subtreeWeightT_congr (hsubframe j (by omega) (by omega))
            have hpost : ∀ j, ((s.pages pid).asInner.lower_bound key).1 + 2 ≤ j →
                j ≤ (s.pages pid).asInner.count →
                subtreeWeightT (splitNodeAt lev s ((s.pages pid).asInner.children
                  (((s.pages pid).asInner.lower_bound key).1)) (some pid)) lev
                  (((s.pages pid).asInner.insert_split
                    (splitNodeSep lev s ((s.pages pid).asInner.children
                      (((s.pages pid).asInner.lower_bound key).1)))
                    (create_new_node_pid s)).children j) =
                subtreeWeightT s lev ((s.pages pid).asInner.children (j - 1)) := by
              intro j hge hle
              rw [dchhigh j (by omega) (by omega)]
              exact subtreeWeightT_congr (hsubframe (j - 1) (by omega) (by omega))
            have hsum := sum_tabulate_insert hj0 hpre hpost
            have hWj0 : subtreeWeightT (splitNodeAt lev s ((s.pages pid).asInner.children
                (((s.pages pid).asInner.lower_bound key).1)) (some pid)) lev
                (((s.pages pid).asInner.insert_split
                  (splitNodeSep lev s ((s.pages pid).asInner.children
                    (((s.pages pid).asInner.lower_bound key).1)))
                  (create_new_node_pid s)).children (((s.pages pid).asInner.lower_bound key).1)) =
                subtreeWeightT (splitNodePages lev s ((s.pages pid).asInner.children
                  (((s.pages pid).asInner.lower_bound key).1))) lev
                  ((s.pages pid).asInner.children
                    (((s.pages pid).asInner.lower_bound key).1)) := by
              rw [dchlow _ (Nat.le_refl _), hwtL]
            have hWj1 : subtreeWeightT (splitNodeAt lev s ((s.pages pid).asInner.children
                (((s.pages pid).asInner.lower_bound key).1)) (some pid)) lev
                (((s.pages pid).asInner.insert_split
                  (splitNodeSep lev s ((s.pages pid).asInner.children
                    (((s.pages pid).asInner.lower_bound key).1)))
                  (create_new_node_pid s)).children
                    (((s.pages pid).asInner.lower_bound key).1 + 1)) =
                subtreeWeightT (splitNodePages lev s ((s.pages pid).asInner.children
                  (((s.pages pid).asInner.lower_bound key).1))) lev (create_new_node_pid s) := by
              rw [dchkey, hwtR]
            rw [hWj0, hWj1] at hsum
            have hsq : ((s.pages pid).asInner.count + 1) * ((s.pages pid).asInner.count + 1) =
                (s.pages pid).asInner.count * (s.pages pid).asInner.count +
                2 * (s.pages pid).asInner.count + 1 := by ring
            rw [← asInner_count (s.pages pid)]
            omega
        · obtain ⟨hex, s₂, hres, hseg, hroot, hnc, hth, hframe, hwf₂, hperm₂, hent₂, hwt₂⟩ :=
            hinner
          have hqminted : ∀ q ∈ subtreePids s (lev + 1) pid,
              q ≠ mintedPid s.segment_id s.nodeCount := by
            intro q hq he
            obtain ⟨n, hn, hqe⟩ := hmint q hq
            have : n = s.nodeCount := mintedPid_inj (hqe ▸ he)
            omega
          have hsibframe₂ : ∀ j, j < (s.pages pid).asInner.count →
              j ≠ ((s.pages pid).asInner.lower_bound key).1 →
              ∀ q ∈ subtreePids s lev ((s.pages pid).asInner.children j),
                s₂.pages q = s.pages q :=
            fun j hj hne q hq => hframe q (hsib j hj hne q hq)
              (hqminted q (mem_subtreePids_child s hj hq))
          have hpidframe₂ : s₂.pages pid = s.pages pid :=
            hframe pid hpid_notchild (hqminted pid (mem_subtreePids_self s _ pid))
          refine Or.inr (Or.inr (Or.inr ⟨hex, s₂, hres, hseg, hroot, hnc, hth, ?_, ?_, ?_,
            ?_, ?_⟩))
          · intro q hq hne
            exact hframe q (fun hmem => hq (mem_subtreePids_child s hj0 hmem)) hne
          · refine ⟨?_, ?_, ?_, ?_, ?_, ?_⟩ <;> rw [hpidframe₂]
            · exact hl
            · exact h2c
            · exact hc
            · exact hsorted
            · exact hw
            · intro j hj
              by_cases hje : j = ((s.pages pid).asInner.lower_bound key).1
              · subst hje
                exact hwf₂
              · exact SubtreeWF_congr (hsibframe₂ j hj hje) (hch j hj)
          · rw [subtreePids_succ, subtreePids_succ, hpidframe₂]
            refine List.Perm.trans (List.Perm.cons pid (flatten_tabulate_perm_update hj0
              (fun j hj hne => subtreePids_congr (hsibframe₂ j hj hne)) hperm₂)) ?_
            exact List.Perm.swap _ _ _
          · rw [subtreeEntries_succ, subtreeEntries_succ, hpidframe₂]
            apply flatten_tabulate_congr
            intro j hj
            by_cases hje : j = ((s.pages pid).asInner.lower_bound key).1
            · subst hje
              exact hent₂
            · exact subtreeEntries_congr (hsibframe₂ j hj hje)
          · rw [subtreeWeightT_succ, subtreeWeightT_succ, hpidframe₂]
            have hsum := sum_tabulate_one_change hj0
              (fun j hj hne => subtreeWeightT_congr (hsibframe₂ j hj hne)) hwt₂
            omega
      · rw [if_neg hsp]
        cases exclusive with
        | false =>
          rw [if_neg Bool.false_ne_true]
          exact Or.inr (Or.inl ⟨rfl, rfl⟩)
        | true =>
          rw [if_pos rfl]
          refine Or.inr (Or.inr (Or.inl ⟨rfl, ?_, rfl⟩))
          rw [InnerNode.has_space] at hsp
          simp only [decide_eq_true_eq] at hsp
          rw [← asInner_count]
          omega

end Simpledb
namespace Simpledb
open BTree

theorem SubtreeWF_level {cap : Nat} {s : BTreeState} {lev pid : Nat} {lo hi : Option Nat}
    (h : SubtreeWF cap s lev pid lo hi) : (s.pages pid).level = lev := by
  cases lev with
  | zero => exact h.1
  | succ l => exact h.1

/-- The termination measure of the tree in `subtreeWeightT` form. -/
def phiT (s : BTreeState) : Nat := subtreeWeightT s (s.treeHeight - 1) s.root

theorem phi_eq_phiT (s : BTreeState) : phi s = phiT s :=
  subtreeWeight_eq s (s.treeHeight - 1) s.root

/-- A state whose root subtree was restored after an internal split (one
fresh page, same root and height, unchanged entries) is well-formed. -/
theorem treeWF_after_inside_split {cap : Nat} {s s2 : BTreeState}
    (hwf : TreeWF cap s)
    (hseg : s2.segment_id = s.segment_id) (hroot : s2.root = s.root)
    (hnc : s2.nodeCount = s.nodeCount + 1) (hth : s2.treeHeight = s.treeHeight)
    (hwfsub : SubtreeWF cap s2 (s.treeHeight - 1) s.root none none)
    (hperm : List.Perm (subtreePids s2 (s.treeHeight - 1) s.root)
      (mintedPid s.segment_id s.nodeCount :: subtreePids s (s.treeHeight - 1) s.root))
    (hent : subtreeEntries s2 (s.treeHeight - 1) s.root =
      subtreeEntries s (s.treeHeight - 1) s.root) :
    TreeWF cap s2 ∧ (∀ q, abstractLookup s2 q = abstractLookup s q) := by
  have hh := hwf.hheight
  constructor
  · refine ⟨?_, by omega, ?_, ?_⟩
    · rw [hth, hroot]
      exact hwfsub
    · intro q hq
      rw [hth, hroot] at hq
      rw [hseg, hnc]
      rcases List.mem_cons.mp (hperm.mem_iff.mp hq) with h1 | h1
      · exact ⟨s.nodeCount, by omega, h1⟩
      · obtain ⟨n, hn, he⟩ := hwf.hminted q h1
        exact ⟨n, by omega, he⟩
    · rw [hth, hroot]
      refine (hperm.nodup_iff).mpr (List.nodup_cons.mpr ⟨?_, hwf.hnodup⟩)
      intro hmem
      obtain ⟨n, hn, he⟩ := hwf.hminted _ hmem
      have : s.nodeCount = n := mintedPid_inj he
      omega
  · intro q
    rw [abstractLookup, abstractLookup, hth, hroot, hent]

/-- Splitting a full root (the `grow_root` arm) preserves the invariant and
the abstract map, and strictly decreases the measure. -/
theorem split_root_rebuild {cap : Nat} {s : BTreeState} {lev : Nat}
    (hwf : TreeWF cap s) (hcap : 4 ≤ cap)
    (hlev : s.treeHeight = lev + 1)
    (hfull : (s.pages s.root).count = cap) :
    TreeWF cap (splitNodeAt lev s s.root none) ∧
    (∀ q, abstractLookup (splitNodeAt lev s s.root none) q = abstractLookup s q) ∧
    phiT (splitNodeAt lev s s.root none) + 1 ≤ phiT s := by
  have hh := hwf.hheight
  have hlev' : s.treeHeight - 1 = lev := by omega
  have hrootwf : SubtreeWF cap s lev s.root none none := by
    rw [← hlev']
    exact hwf.hroot
  have hnd : (subtreePids s lev s.root).Nodup := by
    rw [← hlev']
    exact hwf.hnodup
  have hmint : ∀ q ∈ subtreePids s lev s.root,
      ∃ n, n < s.nodeCount ∧ q = mintedPid s.segment_id n := by
    rw [← hlev']
    exact hwf.hminted
  have hfresh : create_new_node_pid s ∉ subtreePids s lev s.root := by
    rw [create_new_node_pid_eq]
    intro hmem
    obtain ⟨n, hn, he⟩ := hmint _ hmem
    have : s.nodeCount = n := mintedPid_inj he
    omega
  obtain ⟨stg_seg, stg_root, stg_th, stg_nc, stg_frame, stg_wfL, stg_wfR, stg_lo, stg_hi,
    stg_ent, stg_perm, stg_wt⟩ := splitNodePages_spec hrootwf hfull hcap hnd hfresh
  have hrootlev : (s.pages s.root).level = lev := SubtreeWF_level hrootwf
  have hsplit_eq := splitNodeAt_none lev s s.root
  rw [hrootlev] at hsplit_eq
  have hseg2 : (splitNodeAt lev s s.root none).segment_id = s.segment_id := by
    rw [hsplit_eq]
    show (splitNodePages lev s s.root).segment_id = _
    exact stg_seg
  have hroot2 : (splitNodeAt lev s s.root none).root =
      create_new_node_pid (splitNodePages lev s s.root) := by
    rw [hsplit_eq]
    rfl
  have hnc2 : (splitNodeAt lev s s.root none).nodeCount = s.nodeCount + 2 := by
    rw [hsplit_eq]
    show (splitNodePages lev s s.root).nodeCount + 1 = _
    rw [stg_nc]
  have hth2 : (splitNodeAt lev s s.root none).treeHeight = s.treeHeight + 1 := by
    rw [hsplit_eq]
    show (splitNodePages lev s s.root).treeHeight + 1 = _
    rw [stg_th]
  have hthm1 : (splitNodeAt lev s s.root none).treeHeight - 1 = lev + 1 := by
    rw [hth2]
    omega
  have hr'min : create_new_node_pid (splitNodePages lev s s.root) =
      mintedPid s.segment_id (s.nodeCount + 1) := by
    rw [create_new_node_pid_eq, stg_seg, stg_nc]
  have hr'_not : ∀ q, (q ∈ subtreePids (splitNodePages lev s s.root) lev s.root ∨
      q ∈ subtreePids (splitNodePages lev s s.root) lev (create_new_node_pid s)) →
      q ≠ create_new_node_pid (splitNodePages lev s s.root) := by
    intro q hq he
    have hmem : q ∈ subtreePids (splitNodePages lev s s.root) lev s.root ++
        subtreePids (splitNodePages lev s s.root) lev (create_new_node_pid s) := by
      rcases hq with h | h
      · exact List.mem_append_left _ h
      · exact List.mem_append_right _ h
    rcases List.mem_cons.mp (stg_perm.mem_iff.mp hmem) with h1 | h1
    · rw [he, hr'min, create_new_node_pid_eq] at h1
      have := mintedPid_inj h1
      omega
    · obtain ⟨n, hn, hne⟩ := hmint q h1
      rw [he, hr'min] at hne
      have := mintedPid_inj hne
      omega
  have hpg_r' : (splitNodeAt lev s s.root none).pages
      (create_new_node_pid (splitNodePages lev s s.root)) =
      .inner
        { level := lev + 1
          count := 2
          keys := aset (((splitNodePages lev s s.root).pages
            (create_new_node_pid (splitNodePages lev s s.root))).asInner.keys) 0
            (splitNodeSep lev s s.root)
          children := aset (aset (((splitNodePages lev s s.root).pages
            (create_new_node_pid (splitNodePages lev s s.root))).asInner.children) 0 s.root) 1
            (create_new_node_pid s) } := by
    rw [hsplit_eq]
    show writePage _ _ _ _ = _
    rw [writePage_same]
  have hpg_o : ∀ q, q ≠ create_new_node_pid (splitNodePages lev s s.root) →
      (splitNodeAt lev s s.root none).pages q = (splitNodePages lev s s.root).pages q := by
    intro q hq
    rw [hsplit_eq]
    show writePage _ _ _ q = _
    rw [writePage_other _ _ hq]
  have hframeL : ∀ q ∈ subtreePids (splitNodePages lev s s.root) lev s.root,
      (splitNodeAt lev s s.root none).pages q = (splitNodePages lev s s.root).pages q :=
    fun q hq => hpg_o q (hr'_not q (Or.inl hq))
  have hframeR : ∀ q ∈ subtreePids (splitNodePages lev s s.root) lev (create_new_node_pid s),
      (splitNodeAt lev s s.root none).pages q = (splitNodePages lev s s.root).pages q :=
    fun q hq => hpg_o q (hr'_not q (Or.inr hq))
  have hwfL2 := SubtreeWF_congr hframeL stg_wfL
  have hwfR2 := SubtreeWF_congr hframeR stg_wfR
  have hpidsL := subtreePids_congr hframeL
  have hpidsR := subtreePids_congr hframeR
  have hentL := subtreeEntries_congr hframeL
  have hentR := subtreeEntries_congr hframeR
  have hwtL := subtreeWeightT_congr hframeL
  have hwtR := subtreeWeightT_congr hframeR
  have hpidsEq : subtreePids (splitNodeAt lev s s.root none) (lev + 1)
      (create_new_node_pid (splitNodePages lev s s.root)) =
      create_new_node_pid (splitNodePages lev s s.root) ::
        (subtreePids (splitNodeAt lev s s.root none) lev s.root ++
          (subtreePids (splitNodeAt lev s s.root none) lev (create_new_node_pid s) ++ [])) := by
    rw [subtreePids_succ, hpg_r']
    rfl
  have hentEq : subtreeEntries (splitNodeAt lev s s.root none) (lev + 1)
      (create_new_node_pid (splitNodePages lev s s.root)) =
      subtreeEntries (splitNodeAt lev s s.root none) lev s.root ++
        (subtreeEntries (splitNodeAt lev s s.root none) lev (create_new_node_pid s) ++ []) := by
    rw [subtreeEntries_succ, hpg_r']
    rfl
  have hwtEq : subtreeWeightT (splitNodeAt lev s s.root none) (lev + 1)
      (create_new_node_pid (splitNodePages lev s s.root)) =
      2 * 2 + (subtreeWeightT (splitNodeAt lev s s.root none) lev s.root +
        (subtreeWeightT (splitNodeAt lev s s.root none) lev (create_new_node_pid s) + 0)) := by
    rw [subtreeWeightT_succ, hpg_r']
    rfl
  have hpidsPerm : List.Perm (subtreePids (splitNodeAt lev s s.root none) (lev + 1)
      (create_new_node_pid (splitNodePages lev s s.root)))
      (create_new_node_pid (splitNodePages lev s s.root) ::
        create_new_node_pid s :: subtreePids s lev s.root) := by
    rw [hpidsEq, hpidsL, hpidsR, List.append_nil]
    exact List.Perm.cons _ stg_perm
  refine ⟨⟨?_, ?_, ?_, ?_⟩, ?_, ?_⟩
  · rw [hthm1, hroot2]
    refine ⟨?_, ?_, ?_, ?_, ?_, ?_⟩
    · rw [hpg_r']
      rfl
    · rw [hpg_r']
      exact Nat.le_refl 2
    · rw [hpg_r']
      show 2 ≤ cap
      omega
    · rw [hpg_r']
      intro j hj i hij
      have hj2 : j < 2 - 1 := hj
      exact absurd hij (by omega)
    · rw [hpg_r']
      intro j hj
      exact ⟨trivial, trivial⟩
    · rw [hpg_r']
      intro j hj
      have hj2 : j < 2 := hj
      interval_cases j
      · exact hwfL2
      · exact hwfR2
  · rw [hth2]
    omega
  · intro q hq
    rw [hthm1, hroot2] at hq
    rw [hseg2, hnc2]
    rcases List.mem_cons.mp (hpidsPerm.mem_iff.mp hq) with h1 | h1
    · rw [hr'min] at h1
      exact ⟨s.nodeCount + 1, by omega, h1⟩
    · rcases List.mem_cons.mp h1 with h2 | h2
      · rw [create_new_node_pid_eq] at h2
        exact ⟨s.nodeCount, by omega, h2⟩
      · obtain ⟨n, hn, he⟩ := hmint q h2
        exact ⟨n, by omega, he⟩
  · rw [hthm1, hroot2]
    refine (hpidsPerm.nodup_iff).mpr (List.nodup_cons.mpr ⟨?_, List.nodup_cons.mpr ⟨?_, hnd⟩⟩)
    · intro hmem
      rcases List.mem_cons.mp hmem with h1 | h1
      · rw [hr'min, create_new_node_pid_eq] at h1
        have := mintedPid_inj h1
        omega
      · obtain ⟨n, hn, he⟩ := hmint _ h1
        rw [hr'min] at he
        have := mintedPid_inj he
        omega
    · intro hmem
      obtain ⟨n, hn, he⟩ := hmint _ hmem
      rw [create_new_node_pid_eq] at he
      have := mintedPid_inj he
      omega
  · intro q
    rw [abstractLookup, abstractLookup, hthm1, hroot2, hentEq, hentL, hentR, List.append_nil,
      stg_ent, hlev']
  · rw [phiT, phiT, hthm1, hroot2, hwtEq, hwtL, hwtR, hlev']
    omega

end Simpledb
namespace Simpledb

/-- A state returned by a successful `done` descent (same root, height and
node count, subtree restored, entries updated pointwise) is well-formed and
its abstract map is the old one with `key ↦ value`. -/
theorem restart_done_finish {cap key value : Nat} {s s' : BTreeState}
    (hwf : TreeWF cap s)
    (hseg : s'.segment_id = s.segment_id) (hroot : s'.root = s.root)
    (hnc : s'.nodeCount = s.nodeCount) (hth : s'.treeHeight = s.treeHeight)
    (hwfsub : SubtreeWF cap s' (s.treeHeight - 1) s.root none none)
    (hpids : subtreePids s' (s.treeHeight - 1) s.root =
      subtreePids s (s.treeHeight - 1) s.root)
    (hlook : ∀ q, List.lookup q (subtreeEntries s' (s.treeHeight - 1) s.root) =
      if q = key then some value else
        List.lookup q (subtreeEntries s (s.treeHeight - 1) s.root)) :
    TreeWF cap s' ∧
    ∀ q, abstractLookup s' q = if q = key then some value else abstractLookup s q := by
  have hh := hwf.hheight
  constructor
  · refine ⟨?_, by omega, ?_, ?_⟩
    · rw [hth, hroot]
      exact hwfsub
    · intro q hq
      rw [hth, hroot, hpids] at hq
      rw [hseg, hnc]
      exact hwf.hminted q hq
    · rw [hth, hroot, hpids]
      exact hwf.hnodup
  · intro q
    rw [abstractLookup, abstractLookup, hth, hroot]
    exact hlook q

/-- One descent of `insertLoop` from the root, summarised at the `TreeWF`
level: it either finishes (`done`, abstract map updated), asks to restart in
exclusive mode (only when shared), or — in exclusive mode — performs one
split, preserving the invariant and the abstract map while strictly
decreasing the measure `phiT`. -/
theorem insertLoop_root_cases {cap key value : Nat} {s : BTreeState}
    (hwf : TreeWF cap s) (hcap : 4 ≤ cap) (exclusive : Bool) :
    (∃ s', BTree.insertLoop cap key value exclusive (s.treeHeight + 1) s s.root none =
        .done s' ∧ TreeWF cap s' ∧
      ∀ q, abstractLookup s' q = if q = key then some value else abstractLookup s q) ∨
    (exclusive = false ∧
      BTree.insertLoop cap key value exclusive (s.treeHeight + 1) s s.root none =
        .goExclusive) ∨
    (exclusive = true ∧ ∃ s',
      BTree.insertLoop cap key value exclusive (s.treeHeight + 1) s s.root none =
        .splitDone s' ∧ TreeWF cap s' ∧
      (∀ q, abstractLookup s' q = abstractLookup s q) ∧
      phiT s' + 1 ≤ phiT s) := by
  have hh := hwf.hheight
  have hcases := @insertLoop_spec cap s key value (s.treeHeight - 1) s.root none none
    (s.treeHeight + 1) exclusive none hwf.hroot ⟨trivial, trivial⟩ hwf.hnodup
    hwf.hminted hcap (by omega)
  rcases hcases with ⟨s', heq, hseg, hroot, hnc, hth, hframe, hwfsub, hpids, hlook⟩ |
    ⟨hex, heq⟩ | ⟨hex, hfull, heq⟩ |
    ⟨hex, s', heq, hseg, hroot, hnc, hth, hframe, hwfsub, hperm, hent, hwt⟩
  · left
    refine ⟨s', heq, ?_⟩
    exact restart_done_finish hwf hseg hroot hnc hth hwfsub hpids hlook
  · right; left
    exact ⟨hex, heq⟩
  · right; right
    refine ⟨hex, splitNodeAt (s.treeHeight - 1) s s.root none, heq, ?_⟩
    obtain ⟨hwf2, hpres, hdec⟩ :=
      @split_root_rebuild cap s (s.treeHeight - 1) hwf hcap (by omega) hfull
    exact ⟨hwf2, hpres, hdec⟩
  · right; right
    refine ⟨hex, s', heq, ?_⟩
    obtain ⟨hwf2, hpres⟩ := treeWF_after_inside_split hwf hseg hroot hnc hth hwfsub
      hperm hent
    refine ⟨hwf2, hpres, ?_⟩
    show subtreeWeightT s' (s'.treeHeight - 1) s'.root + 1 ≤
      subtreeWeightT s (s.treeHeight - 1) s.root
    rw [hth, hroot]
    exact hwt

/-- The `goto restart` loop of `BTree::insert` terminates with fuel
`2·phiT + 4` on every well-formed tree, preserves well-formedness, and
updates the abstract map at exactly the inserted key. -/
theorem insertRestart_spec {cap key value : Nat} (hcap : 4 ≤ cap) :
    ∀ (W : Nat) (s : BTreeState) (fuel : Nat),
    TreeWF cap s → phiT s ≤ W → 2 * W + 4 ≤ fuel →
    ∃ s', BTree.insertRestart cap key value fuel false s = some s' ∧
      TreeWF cap s' ∧
      ∀ q, abstractLookup s' q = if q = key then some value else abstractLookup s q := by
  intro W
  induction W with
  | zero =>
    intro s fuel hwf hphi hfuel
    obtain ⟨f, rfl⟩ : ∃ f, fuel = f + 1 := ⟨fuel - 1, by omega⟩
    rw [BTree.insertRestart]
    rcases insertLoop_root_cases hwf hcap false with
      ⟨s', heq, hwf', hl'⟩ | ⟨_, heq⟩ | ⟨hfalse, _⟩
    · rw [heq]
      exact ⟨s', rfl, hwf', hl'⟩
    · rw [heq]
      obtain ⟨f', rfl⟩ : ∃ f', f = f' + 1 := ⟨f - 1, by omega⟩
      rw [BTree.insertRestart]
      rcases insertLoop_root_cases hwf hcap true with
        ⟨s', heq2, hwf', hl'⟩ | ⟨hff, _⟩ | ⟨_, s', heq2, _, _, hphidec⟩
      · rw [heq2]
        exact ⟨s', rfl, hwf', hl'⟩
      · exact absurd hff (by decide)
      · exact absurd hphidec (by omega)
    · exact absurd hfalse (by decide)
  | succ W ih =>
    intro s fuel hwf hphi hfuel
    obtain ⟨f, rfl⟩ : ∃ f, fuel = f + 1 := ⟨fuel - 1, by omega⟩
    rw [BTree.insertRestart]
    rcases insertLoop_root_cases hwf hcap false with
      ⟨s', heq, hwf', hl'⟩ | ⟨_, heq⟩ | ⟨hfalse, _⟩
    · rw [heq]
      exact ⟨s', rfl, hwf', hl'⟩
    · rw [heq]
      obtain ⟨f', rfl⟩ : ∃ f', f = f' + 1 := ⟨f - 1, by omega⟩
      rw [BTree.insertRestart]
      rcases insertLoop_root_cases hwf hcap true with
        ⟨s', heq2, hwf', hl'⟩ | ⟨hff, _⟩ | ⟨_, s', heq2, hwf', hpres, hphidec⟩
      · rw [heq2]
        exact ⟨s', rfl, hwf', hl'⟩
      · exact absurd hff (by decide)
      · rw [heq2]
        obtain ⟨s'', heq3, hwf'', hl''⟩ := ih s' f' hwf' (by omega) (by omega)
        refine ⟨s'', heq3, hwf'', fun q => ?_⟩
        rw [hl'' q]
        by_cases hq : q = key
        · rw [if_pos hq, if_pos hq]
        · rw [if_neg hq, if_neg hq, hpres q]
    · exact absurd hfalse (by decide)

/-- `BTree::insert` with the standard fuel succeeds on every well-formed
tree, preserves well-formedness, and sets `key ↦ value` in the abstract
map. -/
theorem insert_correct {cap : Nat} (hcap : 4 ≤ cap) {s : BTreeState}
    (hwf : TreeWF cap s) (key value : Nat) :
    ∃ s', BTree.insert cap key value s (insertFuel s) = some s' ∧ TreeWF cap s' ∧
      ∀ q, abstractLookup s' q = if q = key then some value else abstractLookup s q := by
  have hfuel : 2 * phiT s + 4 ≤ insertFuel s := by
    rw [insertFuel, phi_eq_phiT]
  exact insertRestart_spec hcap (phiT s) s (insertFuel s) hwf le_rfl hfuel

/-- The accumulator step of `execOps`. -/
def execStep (cap : Nat) (acc : Option BTreeState) (op : Op) : Option BTreeState :=
  match acc with
  | none => none
  | some s => execOp cap s op

/-- The accumulator step of `opsMap`. -/
def opsStep (m : Nat → Option Nat) (op : Op) : Nat → Option Nat :=
  match op with
  | .insert k v => fun q => if q = k then some v else m q
  | .erase k => fun q => if q = k then none else m q

theorem execOps_eq (cap segid : Nat) (ops : List Op) :
    execOps cap segid ops = ops.foldl (execStep cap) (some (mkBTree segid)) := by
  rw [execOps]
  congr 1

theorem opsMap_eq (ops : List Op) :
    opsMap ops = ops.foldl opsStep (fun _ => none) := by
  rw [opsMap]
  congr 1

/-- Folding a list of operations over any well-formed tree that abstracts to
`m` yields a well-formed tree abstracting to the folded map. -/
theorem foldl_exec_spec {cap : Nat} (hcap : 4 ≤ cap) :
    ∀ (ops : List Op) (s : BTreeState) (m : Nat → Option Nat),
    TreeWF cap s → (∀ q, abstractLookup s q = m q) →
    ∃ s', ops.foldl (execStep cap) (some s) = some s' ∧ TreeWF cap s' ∧
      ∀ q, abstractLookup s' q = ops.foldl opsStep m q := by
  intro ops
  induction ops with
  | nil =>
    intro s m hwf hm
    exact ⟨s, rfl, hwf, hm⟩
  | cons op rest ih =>
    intro s m hwf hm
    cases op with
    | insert k v =>
      obtain ⟨s2, heq, hwf2, hl2⟩ := insert_correct hcap hwf k v
      have hstep : execStep cap (some s) (.insert k v) = some s2 := heq
      rw [List.foldl_cons, List.foldl_cons, hstep]
      refine ih s2 (opsStep m (.insert k v)) hwf2 fun q => ?_
      rw [hl2 q]
      show _ = if q = k then some v else m q
      by_cases hq : q = k
      · rw [if_pos hq, if_pos hq]
      · rw [if_neg hq, if_neg hq, hm q]
    | erase k =>
      obtain ⟨s2, heq, hwf2, hl2⟩ := erase_correct hwf k
      have hstep : execStep cap (some s) (.erase k) = some s2 := heq
      rw [List.foldl_cons, List.foldl_cons, hstep]
      refine ih s2 (opsStep m (.erase k)) hwf2 fun q => ?_
      rw [hl2 q]
      show _ = if q = k then none else m q
      by_cases hq : q = k
      · rw [if_pos hq, if_pos hq]
      · rw [if_neg hq, if_neg hq, hm q]

/-- Running any operation sequence from a fresh tree succeeds and produces a
well-formed tree whose abstract map is `opsMap ops`. -/
theorem execOps_spec {cap : Nat} (hcap : 4 ≤ cap) (segid : Nat) (ops : List Op) :
    ∃ s, execOps cap segid ops = some s ∧ TreeWF cap s ∧
      ∀ q, abstractLookup s q = opsMap ops q := by
  obtain ⟨hwf0, hl0⟩ := treeWF_init cap segid
  obtain ⟨s, heq, hwf, hl⟩ := foldl_exec_spec hcap ops (mkBTree segid)
    (fun _ => none) hwf0 hl0
  refine ⟨s, ?_, hwf, ?_⟩
  · rw [execOps_eq]
    exact heq
  · intro q
    rw [opsMap_eq]
    exact hl q

/-- C1: for every single-threaded finite sequence of insert and erase
operations applied to a freshly constructed BTree, `lookup(k)` returns
`Some(v)` where `insert(k, v)` is the last operation on key `k` with no
later `erase(k)`, and returns `None` for every key never inserted or last
erased — `opsMap ops` is exactly that map, and `lookup` computes it. -/
theorem C1_tree_functional_correctness (cap segid : Nat) (hcap : 4 ≤ cap)
    (ops : List Op) :
    ∃ s, execOps cap segid ops = some s ∧
      ∀ k, BTree.lookup s k = some (opsMap ops k) := by
  obtain ⟨s, heq, hwf, hl⟩ := execOps_spec hcap segid ops
  refine ⟨s, heq, fun k => ?_⟩
  rw [lookup_correct hwf k, hl k]

theorem C1_witness :
    (4 : Nat) ≤ 4 ∧
    ∃ s, execOps 4 1 [Op.insert 2 20, Op.insert 7 70, Op.insert 2 21,
        Op.erase 7] = some s ∧
      ∀ k, BTree.lookup s k = some (opsMap [Op.insert 2 20, Op.insert 7 70,
        Op.insert 2 21, Op.erase 7] k) :=
  ⟨by decide, C1_tree_functional_correctness 4 1 (by decide)
    [Op.insert 2 20, Op.insert 7 70, Op.insert 2 21, Op.erase 7]⟩

end Simpledb
